import Mathlib

/-!
# Adaptive real-time scheduler (Lab-05, `lab3-counting-semaphores.c`)

A shallow embedding of the scheduler demo: the job table, the four phases of
one iteration of `scheduler_task` (release, ranking, dispatch, collection),
`select_worker`, and one control cycle of `adaptive_task`, followed by runs of
the two tasks and the theorems about them.

Conventions of the embedding.

* `uint32_t` and `uint64_t` values are natural numbers; every increment and
  addition of the source is reduced modulo `2 ^ 32` or `2 ^ 64` explicitly.
* `int` and `int64_t` values are integers.  The microsecond timestamps of
  `esp_timer_get_time` are added without reduction: signed overflow is
  undefined in C and a 63-bit microsecond clock does not wrap.
* FreeRTOS queues are lists (head = oldest message) with a capacity; a send
  with timeout 0 fails exactly when the queue holds `capacity` messages.
* `float` is IEEE-754 binary32 restricted to the values the controller can
  produce (non-negative finite values, `+inf` and `NaN`); every operation is
  rounded on its own to nearest, ties to even.
* Each task runs one iteration of its loop without interruption; what the
  other tasks write in between is an input of the next iteration.
* GPIO writes, delays and log output are not part of the state.

The last two parts of the definitions embed two helper modules of Lab-06
(`lab1-basic-events`): the allocator of event bits of `dynamic_events.c` and
the ring buffer of `event_log.c`.
-/

namespace RtAdapt

/-! ## Configuration constants -/

def NUM_WORKERS : Nat := 2
def SCHED_TICK_MS : Nat := 10
def DISPATCH_BUDGET : Nat := 8
def WORKER_QUEUE_LEN : Nat := 16
def COMPLETE_QUEUE_LEN : Nat := 32
def NUM_JOBS : Nat := 3

/-- Number of values of a `uint32_t`. -/
def U32_MOD : Nat := 4294967296

/-- Number of values of a `uint64_t`. -/
def U64_MOD : Nat := 18446744073709551616

/-! ## Job model -/

/-- The struct `job_desc_t` (the `name` field, used only in log lines, is left out). -/
structure job_desc_t where
  id : Int
  priority : Int
  period_ms : Nat
  wcet_ms : Nat
  deadline_ms : Nat
  min_period_ms : Nat
  max_period_ms : Nat
  next_release_us : Int
  releases : Nat
  completions : Nat
  deadline_miss : Nat
  sum_response_ms : Nat
  max_response_ms : Nat
  snap_releases : Nat
  snap_completions : Nat
  snap_deadline_miss : Nat
  snap_sum_response_ms : Nat
  snap_max_response_ms : Nat
  deriving DecidableEq, Repr

/-- The struct `worker_cmd_t`. -/
structure worker_cmd_t where
  job_id : Int
  priority : Int
  exec_ms : Nat
  abs_deadline_us : Int
  release_us : Int
  deriving DecidableEq, Repr

/-- The struct `completion_t`. -/
structure completion_t where
  job_id : Int
  finish_us : Int
  abs_deadline_us : Int
  release_us : Int
  deriving DecidableEq, Repr

/-- The struct `ready_item_t`. -/
structure ready_item_t where
  job_id : Int
  priority : Int
  abs_deadline_us : Int
  release_us : Int
  deriving DecidableEq, Repr

/-- One row of the initialiser of `g_jobs`; the fields it does not name are zero. -/
def job_init (id priority : Int) (period wcet ddl minP maxP : Nat) : job_desc_t :=
  { id := id, priority := priority, period_ms := period, wcet_ms := wcet,
    deadline_ms := ddl, min_period_ms := minP, max_period_ms := maxP,
    next_release_us := 0, releases := 0, completions := 0, deadline_miss := 0,
    sum_response_ms := 0, max_response_ms := 0, snap_releases := 0,
    snap_completions := 0, snap_deadline_miss := 0, snap_sum_response_ms := 0,
    snap_max_response_ms := 0 }

/-- The static table `g_jobs` (jobs A, B, C). -/
def g_jobs : List job_desc_t :=
  [ job_init 0 3 50 12 40 30 120,
    job_init 1 2 100 20 60 60 300,
    job_init 2 1 200 60 150 120 600 ]

/-! ## `select_worker` -/

/-- One iteration of the loop of `select_worker`: `acc` is `(best, best_len)`,
`lens` the values `uxQueueMessagesWaiting(q_worker[i])`. -/
def select_worker_step (lens : List Nat) (acc : Nat × Nat) (i : Nat) : Nat × Nat :=
  let l := lens.getD i 0
  if l < acc.2 then (i, l) else acc

/-- The function `select_worker` for `n` workers whose queues hold `lens[i]` commands. -/
def select_worker_n (n : Nat) (lens : List Nat) : Nat :=
  ((List.range' 1 (n - 1)).foldl (select_worker_step lens) (0, lens.getD 0 0)).1

/-- The function `select_worker` with the configured `NUM_WORKERS`. -/
def select_worker (lens : List Nat) : Nat :=
  select_worker_n NUM_WORKERS lens

/-! ## Scheduler: release phase -/

/-- The ready item built for a due job (body of the `if` of loop 1). -/
def ready_of (jb : job_desc_t) : ready_item_t :=
  { job_id := jb.id, priority := jb.priority,
    release_us := jb.next_release_us,
    abs_deadline_us := jb.next_release_us + (jb.deadline_ms : Int) * 1000 }

/-- The job after its release: `next_release_us += period_ms*1000; releases++`. -/
def release_job (jb : job_desc_t) : job_desc_t :=
  { jb with
    next_release_us := jb.next_release_us + (jb.period_ms : Int) * 1000,
    releases := (jb.releases + 1) % U32_MOD }

/-- Loop 1 of `scheduler_task` ("Collect ready jobs") over the job table in index
order: the updated table and the ready items in the order they are appended. -/
def release_phase (tnow : Int) : List job_desc_t → List job_desc_t × List ready_item_t
  | [] => ([], [])
  | jb :: rest =>
    let r := release_phase tnow rest
    if tnow ≥ jb.next_release_us then (release_job jb :: r.1, ready_of jb :: r.2)
    else (jb :: r.1, r.2)

/-! ## Scheduler: ranking phase -/

/-- The flag `swap` of the sort, for `rj = ready[j]` and `ri = ready[i]`. -/
def swap_needed (rj ri : ready_item_t) : Bool :=
  if rj.priority > ri.priority then true
  else if rj.priority = ri.priority ∧ rj.abs_deadline_us < ri.abs_deadline_us then true
  else false

/-- Body of the inner loop of the sort for indices `i` and `j`. -/
def sort_inner_step (i : Nat) (ready : List ready_item_t) (j : Nat) : List ready_item_t :=
  match ready[i]?, ready[j]? with
  | some ri, some rj => if swap_needed rj ri then (ready.set i rj).set j ri else ready
  | _, _ => ready

/-- Outer loop body of the sort: `for (j = i+1; j < nready; j++)`. -/
def sort_outer_step (nready : Nat) (ready : List ready_item_t) (i : Nat) : List ready_item_t :=
  (List.range' (i + 1) (nready - (i + 1))).foldl (sort_inner_step i) ready

/-- Loop 2 of `scheduler_task` ("Sort: priority desc, deadline asc") on the
first `nready = ready.length` slots of `ready`. -/
def sort_ready (ready : List ready_item_t) : List ready_item_t :=
  (List.range ready.length).foldl (sort_outer_step ready.length) ready

/-! ## Scheduler: dispatch phase -/

/-- The job `g_jobs[id]`; an index outside the table is undefined in C. -/
def job_at (jobs : List job_desc_t) (id : Int) : Option job_desc_t :=
  if 0 ≤ id then jobs[id.toNat]? else none

/-- The command built in loop 3 for the ready item `r` of job `jb = g_jobs[r.job_id]`. -/
def cmd_of (jb : job_desc_t) (r : ready_item_t) : worker_cmd_t :=
  { job_id := r.job_id, priority := jb.priority, exec_ms := jb.wcet_ms,
    abs_deadline_us := r.abs_deadline_us, release_us := r.release_us }

/-- Loop 3 of `scheduler_task` ("Dispatch (budget)") over the ranked items from
index `k` on: `dispatched` counts successful sends, `qs` are the worker queues.
A send to the selected queue succeeds iff that queue holds fewer than
`WORKER_QUEUE_LEN` commands; otherwise only a warning is logged.  The loop
stops at an item whose `job_id` is outside the table (undefined in C). -/
def dispatch_phase (jobs : List job_desc_t) :
    List ready_item_t → Nat → List (List worker_cmd_t) → Nat × List (List worker_cmd_t)
  | [], dispatched, qs => (dispatched, qs)
  | r :: rest, dispatched, qs =>
    if dispatched < DISPATCH_BUDGET then
      match job_at jobs r.job_id with
      | none => (dispatched, qs)
      | some jb =>
        let w := select_worker (qs.map List.length)
        let q := qs.getD w []
        if q.length < WORKER_QUEUE_LEN then
          dispatch_phase jobs rest (dispatched + 1) (qs.set w (q ++ [cmd_of jb r]))
        else
          dispatch_phase jobs rest dispatched qs
    else (dispatched, qs)

/-! ## Scheduler: collection phase -/

/-- The value `resp_ms = (uint32_t)((finish_us - release_us)/1000)`: C division
truncates toward zero and the cast keeps the low 32 bits. -/
def resp_ms_of (comp : completion_t) : Nat :=
  (((comp.finish_us - comp.release_us).tdiv 1000) % (U32_MOD : Int)).toNat

/-- The updates of loop 4 on the job `jb = g_jobs[comp.job_id]`. -/
def account_job (jb : job_desc_t) (comp : completion_t) : job_desc_t :=
  let miss : Bool := decide (comp.finish_us > comp.abs_deadline_us)
  let resp_ms := resp_ms_of comp
  { jb with
    completions := (jb.completions + 1) % U32_MOD,
    deadline_miss := if miss then (jb.deadline_miss + 1) % U32_MOD else jb.deadline_miss,
    sum_response_ms := (jb.sum_response_ms + resp_ms) % U64_MOD,
    max_response_ms := if resp_ms > jb.max_response_ms then resp_ms else jb.max_response_ms }

/-- One iteration of loop 4 for the received record `comp`. -/
def collect_one (jobs : List job_desc_t) (comp : completion_t) : List job_desc_t :=
  match job_at jobs comp.job_id with
  | none => jobs
  | some jb => jobs.set comp.job_id.toNat (account_job jb comp)

/-- Loop 4 of `scheduler_task`: `q_complete` is drained, oldest record first. -/
def collect_phase (jobs : List job_desc_t) (q_complete : List completion_t) :
    List job_desc_t :=
  q_complete.foldl collect_one jobs

/-! ## Scheduler: one iteration -/

/-- State shared by the scheduler with the other tasks. -/
structure sched_state where
  jobs : List job_desc_t
  q_worker : List (List worker_cmd_t)
  q_complete : List completion_t
  deriving DecidableEq, Repr

/-- One iteration of the `while (1)` of `scheduler_task` at clock value `tnow`. -/
def scheduler_tick (tnow : Int) (s : sched_state) : sched_state :=
  let rel := release_phase tnow s.jobs
  let ranked := sort_ready rel.2
  let dis := dispatch_phase rel.1 ranked 0 s.q_worker
  { jobs := collect_phase rel.1 s.q_complete, q_worker := dis.2, q_complete := [] }


/-! ## binary32 arithmetic

A finite non-negative binary32 value is a multiple of `2 ^ (-149)`; `f32.fin n`
stands for `n * 2 ^ (-149)`.  The result of an operation is the exact rational
result `a / b` (in these units) rounded by `f32_round`. -/

/-- The values of a `float` that the controller can compute. -/
inductive f32 where
  | fin (n : Nat)
  | inf
  | nan
  deriving DecidableEq, Repr

/-- The value `1.0f` in units of `2 ^ (-149)`. -/
def F32_UNIT : Nat := 2 ^ 149

/-- The first value (`2 ^ 128`) that no longer is a finite binary32 value. -/
def F32_OVF : Nat := 2 ^ 128 * 2 ^ 149

/-- The position of the leading bit of `n` (for `0 < n < 2 ^ 512`). -/
def ilog2 (n : Nat) : Nat :=
  ([256, 128, 64, 32, 16, 8, 4, 2, 1].foldl
    (fun (acc : Nat × Nat) k => if 2 ^ k ≤ acc.1 then (acc.1 / 2 ^ k, acc.2 + k) else acc)
    (n, 0)).2

/-- The integer nearest to `a / b`, ties to even. -/
def rne_div (a b : Nat) : Nat :=
  if b < 2 * (a % b) ∨ (2 * (a % b) = b ∧ (a / b) % 2 = 1) then a / b + 1 else a / b

/-- The binary32 value nearest to `a / b` units (24-bit significand, ties to
even, subnormals included, overflow to `+inf`), for `b > 0`. -/
def f32_round (a b : Nat) : f32 :=
  let s := if a / b < 2 ^ 24 then 0 else ilog2 (a / b) - 23
  let n := rne_div a (b * 2 ^ s) * 2 ^ s
  if n < F32_OVF then f32.fin n else f32.inf

/-- The constant written `num/den` in decimal, as a `float` literal. -/
def f32_lit (num den : Nat) : f32 := f32_round (num * F32_UNIT) den

/-- The conversion `(float)n` of an unsigned integer. -/
def f32_of_uint (n : Nat) : f32 := f32_round (n * F32_UNIT) 1

def f32_add : f32 → f32 → f32
  | .fin x, .fin y => f32_round (x + y) 1
  | .nan, _ => .nan
  | _, .nan => .nan
  | _, _ => .inf

/-- Subtraction `x - y`; the controller only subtracts constants with `y ≤ x`. -/
def f32_sub : f32 → f32 → f32
  | .fin x, .fin y => f32_round (x - y) 1
  | .inf, .fin _ => .inf
  | _, _ => .nan

def f32_mul : f32 → f32 → f32
  | .fin x, .fin y => f32_round (x * y) F32_UNIT
  | .nan, _ => .nan
  | _, .nan => .nan
  | .inf, .fin y => if y = 0 then .nan else .inf
  | .fin x, .inf => if x = 0 then .nan else .inf
  | .inf, .inf => .inf

def f32_div : f32 → f32 → f32
  | .fin x, .fin y =>
    if y = 0 then (if x = 0 then .nan else .inf) else f32_round (x * F32_UNIT) y
  | .fin _, .inf => .fin 0
  | .inf, .fin _ => .inf
  | _, _ => .nan

def f32_lt : f32 → f32 → Bool
  | .fin x, .fin y => decide (x < y)
  | .fin _, .inf => true
  | _, _ => false

def f32_gt (a b : f32) : Bool := f32_lt b a

def f32_eq : f32 → f32 → Bool
  | .fin x, .fin y => decide (x = y)
  | .inf, .inf => true
  | _, _ => false

/-- The conversion `(uint32_t)x`: truncation.  For a value outside the range of
`uint32_t` the conversion is undefined in C; the embedding saturates. -/
def f32_to_uint32 : f32 → Nat
  | .fin n => if n / F32_UNIT < U32_MOD then n / F32_UNIT else U32_MOD - 1
  | _ => U32_MOD - 1

/-! ## Adaptive controller -/

/-- The struct `adapt_cfg_t`. -/
structure adapt_cfg_t where
  target_total_util_pct : f32
  low_total_util_pct : f32
  miss_hi_pct : f32
  resp_hi_ratio : f32
  resp_lo_ratio : f32
  step_up_pct : f32
  step_down_pct : f32
  cooldown_ms : Nat
  qdepth_hi : f32
  qdepth_lo : f32
  deriving DecidableEq, Repr

/-- The static `g_adapt_cfg`. -/
def g_adapt_cfg : adapt_cfg_t :=
  { target_total_util_pct := f32_lit 75 1,
    low_total_util_pct := f32_lit 55 1,
    miss_hi_pct := f32_lit 15 10,
    resp_hi_ratio := f32_lit 80 100,
    resp_lo_ratio := f32_lit 45 100,
    step_up_pct := f32_lit 20 100,
    step_down_pct := f32_lit 10 100,
    cooldown_ms := 5000,
    qdepth_hi := f32_lit 4 1,
    qdepth_lo := f32_lit 5 10 }

/-- The constant `ema_q_alpha = 0.3f`. -/
def ema_q_alpha : f32 := f32_lit 3 10

/-- The function `millis`: `(uint32_t)(now_us()/1000ULL)`. -/
def millis (now_us : Int) : Nat :=
  ((now_us % (U64_MOD : Int)).toNat / 1000) % U32_MOD

/-- Step 1 on one job: copy the live counters to the snapshot and clear them. -/
def snapshot_job (jb : job_desc_t) : job_desc_t :=
  { jb with
    snap_releases := jb.releases,
    snap_completions := jb.completions,
    snap_deadline_miss := jb.deadline_miss,
    snap_sum_response_ms := jb.sum_response_ms,
    snap_max_response_ms := jb.max_response_ms,
    releases := 0, completions := 0, deadline_miss := 0,
    sum_response_ms := 0, max_response_ms := 0 }

/-- The summand `(float)wcet_ms / (float)period_ms * 100.0f` of `total_util`. -/
def util_of (jb : job_desc_t) : f32 :=
  f32_mul (f32_div (f32_of_uint jb.wcet_ms) (f32_of_uint jb.period_ms)) (f32_lit 100 1)

/-- Step 1 of a control cycle: the table after snapshot and reset, and `total_util`. -/
def snapshot_phase (jobs : List job_desc_t) : List job_desc_t × f32 :=
  (jobs.map snapshot_job, jobs.foldl (fun acc jb => f32_add acc (util_of jb)) (f32_lit 0 1))

/-- Step 2: the mean of the queue lengths `qlens` of the workers. -/
def qdepth_inst (qlens : List Nat) : f32 :=
  f32_div (qlens.foldl (fun acc l => f32_add acc (f32_of_uint l)) (f32_lit 0 1))
    (f32_of_uint NUM_WORKERS)

/-- Step 2: `ema_q_alpha*qdepth_inst + (1.0f-ema_q_alpha)*ema_qdepth`. -/
def ema_update (ema inst : f32) : f32 :=
  f32_add (f32_mul ema_q_alpha inst) (f32_mul (f32_sub (f32_lit 1 1) ema_q_alpha) ema)

/-- The relax branch: `p = oldP*(1+step_up_pct)`, clamped to `max_period_ms`,
`newP = (uint32_t)(p + 0.5f)`. -/
def relax_period (cfg : adapt_cfg_t) (oldP maxP : Nat) : Nat :=
  let p := f32_mul (f32_of_uint oldP) (f32_add (f32_lit 1 1) cfg.step_up_pct)
  let p := if f32_gt p (f32_of_uint maxP) then f32_of_uint maxP else p
  f32_to_uint32 (f32_add p (f32_lit 5 10))

/-- The tighten branch: `p = oldP*(1-step_down_pct)`, clamped to `min_period_ms`,
`newP = (uint32_t)(p + 0.5f)`. -/
def tighten_period (cfg : adapt_cfg_t) (oldP minP : Nat) : Nat :=
  let p := f32_mul (f32_of_uint oldP) (f32_sub (f32_lit 1 1) cfg.step_down_pct)
  let p := if f32_lt p (f32_of_uint minP) then f32_of_uint minP else p
  f32_to_uint32 (f32_add p (f32_lit 5 10))

/-- The value `miss_rate_pct` of a job. -/
def miss_rate_pct (jb : job_desc_t) : f32 :=
  if jb.snap_releases > 0 then
    f32_div (f32_mul (f32_of_uint jb.snap_deadline_miss) (f32_lit 100 1))
      (f32_of_uint jb.snap_releases)
  else f32_lit 0 1

/-- The value `avg_resp` of a job. -/
def avg_resp (jb : job_desc_t) : f32 :=
  if jb.snap_completions > 0 then
    f32_div (f32_of_uint jb.snap_sum_response_ms) (f32_of_uint jb.snap_completions)
  else f32_lit 0 1

/-- The value `resp_ratio` of a job. -/
def resp_ratio (jb : job_desc_t) : f32 :=
  if jb.deadline_ms > 0 then f32_div (avg_resp jb) (f32_of_uint jb.deadline_ms)
  else f32_lit 0 1

/-- The flag `should_relax`. -/
def should_relax (cfg : adapt_cfg_t) (ema total_util : f32) (jb : job_desc_t) : Bool :=
  f32_gt (miss_rate_pct jb) cfg.miss_hi_pct ||
    f32_gt (resp_ratio jb) cfg.resp_hi_ratio ||
    f32_gt ema cfg.qdepth_hi ||
    f32_gt total_util (f32_add cfg.target_total_util_pct (f32_lit 3 1))

/-- The flag `should_tighten`. -/
def should_tighten (cfg : adapt_cfg_t) (ema total_util : f32) (jb : job_desc_t) : Bool :=
  f32_eq (miss_rate_pct jb) (f32_lit 0 1) &&
    f32_lt (resp_ratio jb) cfg.resp_lo_ratio &&
    f32_lt ema cfg.qdepth_lo &&
    f32_lt total_util cfg.low_total_util_pct

/-- The value `newP` computed for a job that is not in its cooldown. -/
def new_period (cfg : adapt_cfg_t) (ema total_util : f32) (jb : job_desc_t) : Nat :=
  if should_relax cfg ema total_util jb then
    relax_period cfg jb.period_ms jb.max_period_ms
  else if should_tighten cfg ema total_util jb then
    tighten_period cfg jb.period_ms jb.min_period_ms
  else jb.period_ms

/-- Step 3 for one job: the body of the decision loop for `jb = g_jobs[i]`
and `last = g_last_adjust_ms[i]`, with `now_ms` the value `millis()` returns. -/
def adaptive_decide (cfg : adapt_cfg_t) (ema total_util : f32) (now_ms : Nat)
    (jb : job_desc_t) (last : Nat) : job_desc_t × Nat :=
  if (now_ms + U32_MOD - last) % U32_MOD < cfg.cooldown_ms then (jb, last)
  else if new_period cfg ema total_util jb ≠ jb.period_ms then
    ({ jb with period_ms := new_period cfg ema total_util jb }, now_ms)
  else (jb, last)

/-- Step 3: the decision loop from index `i` on; `now_us i` is the clock value
the call of `millis` in iteration `i` reads. -/
def adaptive_loop (cfg : adapt_cfg_t) (ema total_util : f32) (now_us : Nat → Int) :
    Nat → List job_desc_t → List Nat → List job_desc_t × List Nat
  | i, jb :: jobs, last :: lasts =>
    ((adaptive_decide cfg ema total_util (millis (now_us i)) jb last).1 ::
        (adaptive_loop cfg ema total_util now_us (i + 1) jobs lasts).1,
      (adaptive_decide cfg ema total_util (millis (now_us i)) jb last).2 ::
        (adaptive_loop cfg ema total_util now_us (i + 1) jobs lasts).2)
  | _, jobs, lasts => (jobs, lasts)

/-- State of the controller: the job table, `g_last_adjust_ms` and `ema_qdepth`. -/
structure adapt_state where
  jobs : List job_desc_t
  last_adjust_ms : List Nat
  ema_qdepth : f32

/-- What one control cycle reads from outside: the queue lengths of the
workers and the clock. -/
structure cycle_input where
  qlens : List Nat
  now_us : Nat → Int

/-- One iteration of the `while (1)` of `adaptive_task`. -/
def adaptive_cycle (inp : cycle_input) (s : adapt_state) : adapt_state :=
  let snap := snapshot_phase s.jobs
  let ema := ema_update s.ema_qdepth (qdepth_inst inp.qlens)
  let r := adaptive_loop g_adapt_cfg ema snap.2 inp.now_us 0 snap.1 s.last_adjust_ms
  { jobs := r.1, last_adjust_ms := r.2, ema_qdepth := ema }

/-- The controller state at start-up. -/
def adapt_init : adapt_state :=
  { jobs := g_jobs, last_adjust_ms := [0, 0, 0], ema_qdepth := f32_lit 0 1 }

/-! ## Runs of the controller

Between two control cycles the scheduler and the load generator write the
counters, `next_release_us` and `wcet_ms` of the jobs.  A run of the controller
takes these writes as an input of each cycle: `obs i` holds the values job `i`
has when the cycle starts.  No other task writes `period_ms`, the period
bounds, `g_last_adjust_ms` or `ema_qdepth`. -/

/-- The fields of a job that tasks other than the controller write. -/
structure job_obs where
  wcet_ms : Nat
  next_release_us : Int
  releases : Nat
  completions : Nat
  deadline_miss : Nat
  sum_response_ms : Nat
  max_response_ms : Nat

/-- The job as the controller finds it after the other tasks have run. -/
def observe (jb : job_desc_t) (o : job_obs) : job_desc_t :=
  { jb with
    wcet_ms := o.wcet_ms, next_release_us := o.next_release_us,
    releases := o.releases, completions := o.completions,
    deadline_miss := o.deadline_miss, sum_response_ms := o.sum_response_ms,
    max_response_ms := o.max_response_ms }

/-- The table as the controller finds it (jobs from index `i` on). -/
def observe_all (obs : Nat → job_obs) : Nat → List job_desc_t → List job_desc_t
  | _, [] => []
  | i, jb :: rest => observe jb (obs i) :: observe_all obs (i + 1) rest

/-- One control cycle together with what the other tasks did before it. -/
structure cycle_event where
  obs : Nat → job_obs
  inp : cycle_input

/-- The controller state when the cycle of event `e` starts. -/
def cycle_start (e : cycle_event) (s : adapt_state) : adapt_state :=
  { s with jobs := observe_all e.obs 0 s.jobs }

/-- The controller state after the cycles of `events`, in order. -/
def adaptive_run : List cycle_event → adapt_state → adapt_state
  | [], s => s
  | e :: rest, s => adaptive_run rest (adaptive_cycle e.inp (cycle_start e s))

/-- The period of job `i`, if the table has a job `i`. -/
def period_at (jobs : List job_desc_t) (i : Nat) : Option Nat :=
  jobs[i]?.map (fun jb => jb.period_ms)

/-- The clock value, in whole milliseconds since boot, that iteration `i` of
the decision loop of event `e` reads. -/
def cycle_ms (e : cycle_event) (i : Nat) : Nat :=
  (e.inp.now_us i).toNat / 1000

/-- The clock values (milliseconds since boot) of the cycles of a run in which
the period of job `i` was changed, in order. -/
def period_changes (i : Nat) : List cycle_event → adapt_state → List Nat
  | [], _ => []
  | e :: rest, s =>
    if period_at (adaptive_cycle e.inp (cycle_start e s)).jobs i ≠
        period_at (cycle_start e s).jobs i then
      cycle_ms e i :: period_changes i rest (adaptive_cycle e.inp (cycle_start e s))
    else period_changes i rest (adaptive_cycle e.inp (cycle_start e s))

/-- An example of what the other tasks leave behind: idle counters, base `wcet_ms`. -/
def ex_obs (i : Nat) : job_obs :=
  { wcet_ms := [12, 20, 60].getD i 0, next_release_us := 0, releases := 0,
    completions := 0, deadline_miss := 0, sum_response_ms := 0, max_response_ms := 0 }

/-- An example cycle at clock value `t` (µs) with both worker queues full. -/
def ex_event (t : Int) : cycle_event :=
  { obs := ex_obs, inp := { qlens := [16, 16], now_us := fun _ => t } }

/-- An example worker queue that holds `WORKER_QUEUE_LEN` commands. -/
def ex_full_queue : List worker_cmd_t :=
  List.replicate 16 ⟨2, 1, 60, 0, 0⟩

/-- An example scheduler state: all jobs due at time 0, both worker queues full. -/
def ex_sched_full : sched_state :=
  { jobs := g_jobs, q_worker := [ex_full_queue, ex_full_queue], q_complete := [] }

/-! ## Runs of the scheduler

Between two iterations of the scheduler the controller may write `period_ms`
of every job, the workers take commands from the heads of their queues and
append completion records to `q_complete`.  A run of the scheduler takes these
writes as an input of each iteration. -/

/-- What one scheduler iteration finds: the clock value, the period the
controller last wrote for job `i`, the number of commands worker `w` has taken
since the previous iteration, and the completion records that have arrived. -/
structure tick_input where
  tnow : Int
  period : Nat → Nat
  popped : Nat → Nat
  arrived : List completion_t

/-- The table with the periods the controller last wrote (jobs from index `i` on). -/
def set_periods (period : Nat → Nat) : Nat → List job_desc_t → List job_desc_t
  | _, [] => []
  | i, jb :: rest => { jb with period_ms := period i } :: set_periods period (i + 1) rest

/-- The worker queues after the workers took their commands (queues from `w` on). -/
def pop_all (popped : Nat → Nat) : Nat → List (List worker_cmd_t) → List (List worker_cmd_t)
  | _, [] => []
  | w, q :: rest => q.drop (popped w) :: pop_all popped (w + 1) rest

/-- The scheduler state when the iteration of `inp` starts. -/
def tick_start (inp : tick_input) (s : sched_state) : sched_state :=
  { jobs := set_periods inp.period 0 s.jobs,
    q_worker := pop_all inp.popped 0 s.q_worker,
    q_complete := s.q_complete ++ inp.arrived }

/-- The scheduler state before its first iteration: every `next_release_us` is
the start time `t0`, the queues are empty. -/
def sched_start (t0 : Int) : sched_state :=
  { jobs := g_jobs.map (fun jb => { jb with next_release_us := t0 }),
    q_worker := [[], []], q_complete := [] }

/-- The value `next_release_us` of job `i`, if the table has a job `i`. -/
def next_release_at (jobs : List job_desc_t) (i : Nat) : Option Int :=
  jobs[i]?.map (fun jb => jb.next_release_us)

/-- Job `i` is released by the release phase at clock value `tnow`. -/
def due_at (tnow : Int) (jobs : List job_desc_t) (i : Nat) : Bool :=
  match jobs[i]? with
  | some jb => decide (tnow ≥ jb.next_release_us)
  | none => false

/-- The values `next_release_us` of job `i` takes in a run, one entry for each
iteration that releases the job: the value after that release. -/
def release_trace (i : Nat) : List tick_input → sched_state → List Int
  | [], _ => []
  | inp :: rest, s =>
    if due_at inp.tnow (tick_start inp s).jobs i then
      (next_release_at (scheduler_tick inp.tnow (tick_start inp s)).jobs i).getD 0 ::
        release_trace i rest (scheduler_tick inp.tnow (tick_start inp s))
    else release_trace i rest (scheduler_tick inp.tnow (tick_start inp s))

/-- An example scheduler iteration at clock value `t` with the configured periods. -/
def ex_tick (t : Int) : tick_input :=
  { tnow := t, period := fun i => [50, 100, 200].getD i 0, popped := fun _ => 0,
    arrived := [] }

/-! ## Worker -/

/-- The record `c` a worker builds for the command `cmd` it finished at clock
value `fin_us`. -/
def completion_of (cmd : worker_cmd_t) (fin_us : Int) : completion_t :=
  { job_id := cmd.job_id, finish_us := fin_us,
    abs_deadline_us := cmd.abs_deadline_us, release_us := cmd.release_us }

/-- The start of an iteration of `worker_task` for worker `wid`:
`xQueueReceive(q_worker[wid], &cmd, portMAX_DELAY)` takes the oldest command;
`none` while the queue is empty (the worker stays blocked). -/
def worker_receive (wid : Nat) (s : sched_state) : Option (worker_cmd_t × sched_state) :=
  match s.q_worker[wid]? with
  | some (cmd :: rest) => some (cmd, { s with q_worker := s.q_worker.set wid rest })
  | _ => none

/-- The end of an iteration of `worker_task`: the record for `cmd` is built with
`fin_us = now_us()` and sent by `xQueueSend(q_complete, &c, 0)`, whose result
is not looked at: with `COMPLETE_QUEUE_LEN` records in the queue the send fails
and the worker goes on. -/
def worker_send (cmd : worker_cmd_t) (fin_us : Int) (s : sched_state) : sched_state :=
  if s.q_complete.length < COMPLETE_QUEUE_LEN then
    { s with q_complete := s.q_complete ++ [completion_of cmd fin_us] }
  else s

/-- An example scheduler state whose completion queue holds `COMPLETE_QUEUE_LEN`
records of job C. -/
def ex_complete_full : sched_state :=
  { jobs := g_jobs, q_worker := [[], []],
    q_complete := List.replicate 32 ⟨2, 100000, 150000, 0⟩ }

/-- An example configuration in which the relax condition and the tighten
condition can hold together: `g_adapt_cfg` with `qdepth_hi = 0.1f`, below
`qdepth_lo = 0.5f`. -/
def ex_cfg_overlap : adapt_cfg_t :=
  { g_adapt_cfg with qdepth_hi := f32_lit 1 10 }

/-! ## The two decision flags as functions of the compared values -/

/-- The expression assigned to `should_relax`, on the values `miss_rate_pct`,
`resp_ratio`, `ema_qdepth` and `total_util` it compares. -/
def relax_cond (cfg : adapt_cfg_t) (miss resp ema total_util : f32) : Bool :=
  f32_gt miss cfg.miss_hi_pct ||
    f32_gt resp cfg.resp_hi_ratio ||
    f32_gt ema cfg.qdepth_hi ||
    f32_gt total_util (f32_add cfg.target_total_util_pct (f32_lit 3 1))

/-- The expression assigned to `should_tighten`, on the same four values. -/
def tighten_cond (cfg : adapt_cfg_t) (miss resp ema total_util : f32) : Bool :=
  f32_eq miss (f32_lit 0 1) &&
    f32_lt resp cfg.resp_lo_ratio &&
    f32_lt ema cfg.qdepth_lo &&
    f32_lt total_util cfg.low_total_util_pct

/-! ## The scheduler and its workers as one system

The scheduler iteration, the receive of a worker and the send of a worker are
the steps of one transition system.  Between `xQueueReceive` and `xQueueSend` a
worker holds the command it executes; `held[w]` is that command.  The writes of
`adaptive_task` and `load_gen_task` to the job table are a fourth kind of step. -/

/-- The fields of a job that `adaptive_task` and `load_gen_task` write. -/
structure job_writes where
  period_ms : Nat
  wcet_ms : Nat
  releases : Nat
  completions : Nat
  deadline_miss : Nat
  sum_response_ms : Nat
  max_response_ms : Nat
  snap_releases : Nat
  snap_completions : Nat
  snap_deadline_miss : Nat
  snap_sum_response_ms : Nat
  snap_max_response_ms : Nat

/-- The job after the controller and the load generator wrote their fields. -/
def write_job (jb : job_desc_t) (w : job_writes) : job_desc_t :=
  { jb with
    period_ms := w.period_ms, wcet_ms := w.wcet_ms, releases := w.releases,
    completions := w.completions, deadline_miss := w.deadline_miss,
    sum_response_ms := w.sum_response_ms, max_response_ms := w.max_response_ms,
    snap_releases := w.snap_releases, snap_completions := w.snap_completions,
    snap_deadline_miss := w.snap_deadline_miss,
    snap_sum_response_ms := w.snap_sum_response_ms,
    snap_max_response_ms := w.snap_max_response_ms }

/-- The table after these writes (jobs from index `i` on). -/
def write_all (ws : Nat → job_writes) : Nat → List job_desc_t → List job_desc_t
  | _, [] => []
  | i, jb :: rest => write_job jb (ws i) :: write_all ws (i + 1) rest

/-- State of the system: the scheduler state and, for every worker, the command
it has received and not yet answered. -/
structure sys_state where
  sched : sched_state
  held : List (Option worker_cmd_t)

/-- The steps of the system. -/
inductive sys_event where
  | tick (tnow : Int)
  | recv (wid : Nat)
  | done (wid : Nat) (fin_us : Int)
  | writes (ws : Nat → job_writes)

/-- One step: an iteration of `scheduler_task` at clock value `tnow`; worker
`wid`, when it holds no command, returns from `xQueueReceive` with the oldest
command of its queue; worker `wid`, when it holds a command, sends the record
for it with `fin_us = now_us()` and holds nothing; the other tasks write. -/
def sys_step (s : sys_state) : sys_event → sys_state
  | .tick tnow => { s with sched := scheduler_tick tnow s.sched }
  | .recv wid =>
    match s.held[wid]? with
    | some none =>
      match worker_receive wid s.sched with
      | some r => { sched := r.2, held := s.held.set wid (some r.1) }
      | none => s
    | _ => s
  | .done wid fin_us =>
    match s.held[wid]? with
    | some (some cmd) =>
      { sched := worker_send cmd fin_us s.sched, held := s.held.set wid none }
    | _ => s
  | .writes ws => { s with sched := { s.sched with jobs := write_all ws 0 s.sched.jobs } }

/-- The state after the steps `events`, in order. -/
def sys_run (events : List sys_event) (s : sys_state) : sys_state :=
  events.foldl sys_step s

/-- The system when `scheduler_task` enters its loop at start time `t0`: empty
queues, both workers blocked in `xQueueReceive`. -/
def sys_init (t0 : Int) : sys_state :=
  { sched := sched_start t0, held := [none, none] }

/-- Number of commands waiting in the worker queues. -/
def queued (s : sys_state) : Nat :=
  (s.sched.q_worker.map List.length).sum

/-- Number of commands that were dispatched and whose record has not yet been
sent: those waiting in a worker queue and those a worker holds. -/
def in_flight (s : sys_state) : Nat :=
  queued s + (s.held.filter Option.isSome).length

/-- An example run: the iteration at the start time 0 dispatches the three jobs,
both workers receive a command, and the next eleven iterations, which find all
three jobs due, fill both worker queues. -/
def ex_fill_run : List sys_event :=
  [.tick 0, .recv 0, .recv 1] ++
    (List.range 11).map (fun k => sys_event.tick (3000000 + 10000 * (k : Int)))

/-! ## Scenario A -/

/-- The release phases of successive scheduler iterations at the clock values
`ticks`: the final table and the ready list of every iteration. -/
def release_run : List Int → List job_desc_t → List job_desc_t × List (List ready_item_t)
  | [], jobs => (jobs, [])
  | t :: rest, jobs =>
    ((release_run rest (release_phase t jobs).1).1,
      (release_phase t jobs).2 :: (release_run rest (release_phase t jobs).1).2)

/-- The job of scenario A: priority 1, period 100 ms, cost 10 ms, relative
deadline 50 ms, `next_release_us` initialised to the start time `t0`. -/
def scenario_a_job (t0 : Int) : job_desc_t :=
  { job_init 0 1 100 10 50 100 100 with next_release_us := t0 }

/-- The ten tick times `t0, t0 + 10 ms, ..., t0 + 90 ms` of scenario A. -/
def scenario_a_ticks (t0 : Int) : List Int :=
  (List.range 10).map (fun k => t0 + 10000 * (k : Int))

/-- The system of scenario A at start time `t0`. -/
def scenario_a_init (t0 : Int) : sys_state :=
  { sched := { jobs := [scenario_a_job t0], q_worker := [[], []], q_complete := [] },
    held := [none, none] }

/-- The run of scenario A: the iteration at `t0`, a worker receives the command
and sends its record 10 ms later, then the iterations at `t0 + 10 ms`, ...,
`t0 + 90 ms`. -/
def scenario_a_run (t0 : Int) : List sys_event :=
  [.tick t0, .recv 0, .done 0 (t0 + 10000)] ++
    (List.range' 1 9).map (fun k => sys_event.tick (t0 + 10000 * (k : Int)))

/-! ## Load generator -/

/-- The writes of one round of the loop of `load_gen_task`, in program order,
as pairs (job index, new `wcet_ms`): raise B and C, later restore them. -/
def load_gen_writes : List (Nat × Nat) :=
  [(1, 35), (2, 90), (1, 20), (2, 60)]

/-- The values `wcet_ms` of jobs A, B, C after the first `n` writes of
`load_gen_task`, starting from the initialiser of `g_jobs`. -/
def wcet_after : Nat → List Nat
  | 0 => g_jobs.map (fun jb => jb.wcet_ms)
  | n + 1 =>
    (wcet_after n).set (load_gen_writes.getD (n % 4) (0, 0)).1
      (load_gen_writes.getD (n % 4) (0, 0)).2

/-! ## Dynamic event bits (Lab-06, `dynamic_events.c`)

`EventBits_t` is a 32-bit unsigned integer; a `const char*` is `none` for `NULL`
and `some` of the string it points to otherwise (the allocator stores the
pointer, it does not copy the string). -/

def DYN_MAX_BITS : Nat := 24

/-- The struct `dyn_rec_t`. -/
structure dyn_rec_t where
  bit : Nat
  name : Option String
  used : Bool
  deriving DecidableEq, Repr

/-- The static variables `g_map` and `g_forbid`. -/
structure dyn_state where
  g_map : List dyn_rec_t
  g_forbid : Nat
  deriving DecidableEq, Repr

/-- The function `dyn_init`: `memset(g_map, 0, sizeof(g_map))`, then `g_forbid`
is set; the result is `true`. -/
def dyn_init (reserved_mask : Nat) : Bool × dyn_state :=
  (true, { g_map := List.replicate DYN_MAX_BITS ⟨0, none, false⟩, g_forbid := reserved_mask })

/-- The loop of `dyn_acquire` from index `i` on, with `n` iterations left; the
array has `DYN_MAX_BITS` entries, so `g_map[i]` exists in every iteration. -/
def dyn_acquire_loop (name : Option String) (s : dyn_state) : Nat → Nat → Nat × dyn_state
  | _, 0 => (0, s)
  | i, n + 1 =>
    match s.g_map[i]? with
    | some r =>
      if s.g_forbid &&& ((1 <<< i) % U32_MOD) = 0 ∧ r.used = false then
        ((1 <<< i) % U32_MOD,
          { s with
            g_map := s.g_map.set i { bit := (1 <<< i) % U32_MOD, name := name, used := true } })
      else dyn_acquire_loop name s (i + 1) n
    | none => dyn_acquire_loop name s (i + 1) n

/-- The function `dyn_acquire`: the returned bit (0 when none is free) and the
state after the call. -/
def dyn_acquire (name : Option String) (s : dyn_state) : Nat × dyn_state :=
  dyn_acquire_loop name s 0 DYN_MAX_BITS

/-- The loop of `dyn_release` from index `i` on, with `n` iterations left. -/
def dyn_release_loop (bit : Nat) (s : dyn_state) : Nat → Nat → Bool × dyn_state
  | _, 0 => (false, s)
  | i, n + 1 =>
    match s.g_map[i]? with
    | some r =>
      if r.used = true ∧ r.bit = bit then
        (true, { s with g_map := s.g_map.set i { bit := 0, name := none, used := false } })
      else dyn_release_loop bit s (i + 1) n
    | none => dyn_release_loop bit s (i + 1) n

/-- The function `dyn_release`. -/
def dyn_release (bit : Nat) (s : dyn_state) : Bool × dyn_state :=
  dyn_release_loop bit s 0 DYN_MAX_BITS

/-- The loop of `dyn_name` from index `i` on, with `n` iterations left. -/
def dyn_name_loop (bit : Nat) (s : dyn_state) : Nat → Nat → Option String
  | _, 0 => none
  | i, n + 1 =>
    match s.g_map[i]? with
    | some r =>
      if r.used = true ∧ r.bit = bit then r.name else dyn_name_loop bit s (i + 1) n
    | none => dyn_name_loop bit s (i + 1) n

/-- The function `dyn_name`; `none` is `NULL`. -/
def dyn_name (bit : Nat) (s : dyn_state) : Option String :=
  dyn_name_loop bit s 0 DYN_MAX_BITS

/-- A call of `dyn_acquire` or of `dyn_release`. -/
inductive dyn_op where
  | acquire (name : Option String)
  | release (bit : Nat)
  deriving DecidableEq, Repr

/-- The state after one call. -/
def dyn_step (s : dyn_state) : dyn_op → dyn_state
  | .acquire name => (dyn_acquire name s).2
  | .release bit => (dyn_release bit s).2

/-- The state after the calls `ops`, in order. -/
def dyn_run (ops : List dyn_op) (s : dyn_state) : dyn_state :=
  ops.foldl dyn_step s

/-! ## Event log ring buffer (Lab-06, `event_log.c`)

`size_t` is a 32-bit unsigned integer on the target; the read values of the
event group and of the tick counter are inputs of `evlog_add`. -/

/-- The struct `ev_record_t`. -/
structure ev_record_t where
  ts_ms : Nat
  before_bits : Nat
  set_bits : Nat
  after_bits : Nat
  source : Option String
  deriving DecidableEq, Repr

/-- The value of `sizeof(ev_record_t)`: five 32-bit fields. -/
def EV_RECORD_SIZE : Nat := 20

/-- A record of a buffer that `calloc` has zeroed. -/
def ev_zero : ev_record_t :=
  { ts_ms := 0, before_bits := 0, set_bits := 0, after_bits := 0, source := none }

/-- The static variables of the log: `g_buf` (`none` is `NULL`), `g_cap`,
`g_head`, `g_count`, and whether `g_mtx` is not `NULL`. -/
structure evlog_state where
  g_buf : Option (List ev_record_t)
  g_cap : Nat
  g_head : Nat
  g_count : Nat
  g_mtx : Bool
  deriving DecidableEq, Repr

/-- The function `evlog_init`.  `alloc_ok` says whether `calloc` finds the
memory; `calloc` returns `NULL` also when `capacity * sizeof(ev_record_t)` does
not fit a `size_t`.  `mtx_ok` says whether `xSemaphoreCreateMutex` succeeds. -/
def evlog_init (capacity : Nat) (alloc_ok mtx_ok : Bool) (s : evlog_state) :
    Bool × evlog_state :=
  if alloc_ok = true ∧ capacity * EV_RECORD_SIZE < U32_MOD then
    (mtx_ok,
      { g_buf := some (List.replicate capacity ev_zero), g_cap := capacity, g_head := 0,
        g_count := 0, g_mtx := mtx_ok })
  else (false, { s with g_buf := none })

/-- The function `evlog_add` on the log: `ts_ms`, `before` and `after` are the
values read from the tick counter and from the event group around
`xEventGroupSetBits`; without buffer or mutex nothing is stored. -/
def evlog_add (ts_ms before after set_bits : Nat) (src : Option String) (s : evlog_state) :
    evlog_state :=
  match s.g_buf with
  | some buf =>
    if s.g_mtx = true then
      { s with
        g_buf := some (buf.set s.g_head
          { ts_ms := ts_ms, before_bits := before, set_bits := set_bits,
            after_bits := after, source := src }),
        g_head := ((s.g_head + 1) % U32_MOD) % s.g_cap,
        g_count := if s.g_count < s.g_cap then (s.g_count + 1) % U32_MOD else s.g_count }
    else s
  | none => s

/-- The log after one call of `evlog_add` for each record of `recs`, in order,
each call with the values of that record. -/
def evlog_run (recs : List ev_record_t) (s : evlog_state) : evlog_state :=
  recs.foldl (fun s r => evlog_add r.ts_ms r.before_bits r.after_bits r.set_bits r.source s) s

/-- The loop of `evlog_dump` from `n` on: `out[n] = g_buf[(start + n) % g_cap]`
while `n < g_count && n < max`; `fuel` bounds the number of iterations. -/
def evlog_dump_loop (buf : List ev_record_t) (cap count start max : Nat) :
    Nat → Nat → List ev_record_t → Nat × List ev_record_t
  | 0, n, out => (n, out)
  | fuel + 1, n, out =>
    if n < count ∧ n < max then
      evlog_dump_loop buf cap count start max fuel (n + 1)
        (out.set n (buf.getD (((start + n) % U32_MOD) % cap) ev_zero))
    else (n, out)

/-- The function `evlog_dump`: the returned count and the array `out` after the
call (`none` is `NULL`).  The loop runs at most `g_count` times.  No static
variable of the log is written. -/
def evlog_dump (out : Option (List ev_record_t)) (max : Nat) (s : evlog_state) :
    Nat × Option (List ev_record_t) :=
  match s.g_buf, out with
  | some buf, some o =>
    if s.g_mtx = true ∧ max ≠ 0 then
      ((evlog_dump_loop buf s.g_cap s.g_count
          (((s.g_head + s.g_cap) % U32_MOD + U32_MOD - s.g_count) % U32_MOD % s.g_cap)
          max s.g_count 0 o).1,
        some (evlog_dump_loop buf s.g_cap s.g_count
          (((s.g_head + s.g_cap) % U32_MOD + U32_MOD - s.g_count) % U32_MOD % s.g_cap)
          max s.g_count 0 o).2)
    else (0, out)
  | _, _ => (0, out)

/-- A log before `evlog_init`: all static variables zero. -/
def evlog_zero : evlog_state :=
  { g_buf := none, g_cap := 0, g_head := 0, g_count := 0, g_mtx := false }

/-- An example job table in which two jobs have the same priority and the same
relative deadline: jobs 0 and 1 with priority 1 and deadline 100 ms, job 2 with
priority 2 and deadline 50 ms; with `next_release_us = 0` all are due at time 0. -/
def ex_jobs_equal_prio : List job_desc_t :=
  [job_init 0 1 200 10 100 100 400, job_init 1 1 200 10 100 100 400,
    job_init 2 2 200 10 50 100 400]

/-! ## Predicates used in the statements -/

/-- Invariant of the loop of `select_worker` once the indices below `m` are done. -/
def select_inv (lens : List Nat) (m : Nat) (acc : Nat × Nat) : Prop :=
  acc.1 < m ∧ acc.2 = lens.getD acc.1 0 ∧
    (∀ k, k < m → acc.2 ≤ lens.getD k 0) ∧
    (∀ k, k < acc.1 → acc.2 < lens.getD k 0)


/-- The order the ranking phase is to establish: `x` may stand before `y`. -/
def ranks_before (x y : ready_item_t) : Prop :=
  x.priority > y.priority ∨
    (x.priority = y.priority ∧ x.abs_deadline_us ≤ y.abs_deadline_us)

/-- Functional reading of one run of the inner loop of the sort: `x` is the
current `ready[i]`, the list holds `ready[j]`, `ready[j+1]`, ...; the result is
the final `ready[i]` and the final contents of the slots behind it. -/
def bubble_min (x : ready_item_t) : List ready_item_t → ready_item_t × List ready_item_t
  | [] => (x, [])
  | y :: ys =>
    if swap_needed y x then ((bubble_min y ys).1, x :: (bubble_min y ys).2)
    else ((bubble_min x ys).1, y :: (bubble_min x ys).2)

/-- Functional reading of `m` iterations of the outer loop of the sort on the
slots from the current `i` on. -/
def sel_sort : Nat → List ready_item_t → List ready_item_t
  | 0, l => l
  | _ + 1, [] => []
  | m + 1, x :: xs => (bubble_min x xs).1 :: sel_sort m (bubble_min x xs).2

/-- The item `r` has priority `p` and absolute deadline `d`. -/
def same_key (p d : Int) (r : ready_item_t) : Bool :=
  decide (r.priority = p ∧ r.abs_deadline_us = d)

/-- The item `z` ranks strictly ahead of the items with priority `p` and
absolute deadline `d`: higher priority, or equal priority and earlier deadline. -/
def ahead_of_key (p d : Int) (z : ready_item_t) : Prop :=
  z.priority > p ∨ (z.priority = p ∧ z.abs_deadline_us < d)

/-- The job has the period bounds of a row of `g_jobs` and its period lies
within them. -/
def job_in_bounds (jb : job_desc_t) : Prop :=
  ((jb.min_period_ms = 30 ∧ jb.max_period_ms = 120) ∨
    (jb.min_period_ms = 60 ∧ jb.max_period_ms = 300) ∨
    (jb.min_period_ms = 120 ∧ jb.max_period_ms = 600)) ∧
  jb.min_period_ms ≤ jb.period_ms ∧ jb.period_ms ≤ jb.max_period_ms

/-- The total utilization in percent as a rational number:
`100 * Σ wcet_ms / period_ms`. -/
def util_exact (jobs : List job_desc_t) : ℚ :=
  100 * (jobs.map (fun jb => (jb.wcet_ms : ℚ) / (jb.period_ms : ℚ))).sum

/-- The job table has `NUM_JOBS` rows and row `i` has `id == i`. -/
def ids_ok (jobs : List job_desc_t) : Prop :=
  jobs.length = NUM_JOBS ∧ ∀ (i : Nat) (jb : job_desc_t), jobs[i]? = some jb → jb.id = (i : Int)

/-- The value `id` is an index of the job table: `0 <= id < NUM_JOBS`. -/
def id_in_range (id : Int) : Prop :=
  0 ≤ id ∧ id < (NUM_JOBS : Int)

/-- Every `job_id` carried by a queued command, by a command a worker holds or
by a queued completion record is an index of the job table, whose rows have
`id == i`. -/
def sys_ids_ok (s : sys_state) : Prop :=
  ids_ok s.sched.jobs ∧
    (∀ q ∈ s.sched.q_worker, ∀ cmd ∈ q, id_in_range cmd.job_id) ∧
    (∀ cmd : worker_cmd_t, some cmd ∈ s.held → id_in_range cmd.job_id) ∧
    (∀ comp ∈ s.sched.q_complete, id_in_range comp.job_id)

/-- Bit `i` can be handed out: `i` is one of the bits 0..23, is not in
`g_forbid` and is not acquired. -/
def dyn_free (s : dyn_state) (i : Nat) : Prop :=
  i < DYN_MAX_BITS ∧ s.g_forbid &&& (1 <<< i) = 0 ∧
    ∃ r, s.g_map[i]? = some r ∧ r.used = false

/-- The mask `b` is currently acquired: an entry in use holds it. -/
def dyn_acquired (s : dyn_state) (b : Nat) : Prop :=
  ∃ (i : Nat) (r : dyn_rec_t), s.g_map[i]? = some r ∧ r.used = true ∧ r.bit = b

/-- Shape of every state after `dyn_init(mask)`: 24 entries, entry `i` in use
holds the bit `1 << i`, which is not in `mask`. -/
def dyn_inv (mask : Nat) (s : dyn_state) : Prop :=
  s.g_forbid = mask ∧ s.g_map.length = DYN_MAX_BITS ∧
    ∀ (i : Nat) (r : dyn_rec_t), s.g_map[i]? = some r → r.used = true →
      r.bit = 1 <<< i ∧ mask &&& (1 <<< i) = 0

/-- Shape of the log after a successful `evlog_init(c)` and one `evlog_add` for
each record of `recs`: slot `m % c` holds record `m` for each of the last
`min(n, c)` records. -/
def evlog_inv (c : Nat) (recs : List ev_record_t) (s : evlog_state) : Prop :=
  s.g_mtx = true ∧ s.g_cap = c ∧ s.g_head = recs.length % c ∧
    s.g_count = min recs.length c ∧
    ∃ buf, s.g_buf = some buf ∧ buf.length = c ∧
      ∀ m, recs.length - min recs.length c ≤ m → m < recs.length →
        buf[m % c]? = recs[m]?

/-! ## `select_worker` returns the least-loaded worker -/

theorem select_inv_init (lens : List Nat) : select_inv lens 1 (0, lens.getD 0 0) := by
  refine ⟨Nat.zero_lt_one, rfl, ?_, ?_⟩
  · intro k hk
    have hk0 : k = 0 := by omega
    subst hk0
    exact le_refl _
  · intro k hk
    exact absurd hk (Nat.not_lt_zero k)

theorem select_inv_step (lens : List Nat) (m : Nat) (acc : Nat × Nat)
    (h : select_inv lens m acc) :
    select_inv lens (m + 1) (select_worker_step lens acc m) := by
  obtain ⟨h1, h2, h3, h4⟩ := h
  unfold select_worker_step
  by_cases hlt : lens.getD m 0 < acc.2
  · simp only [hlt, if_true]
    refine ⟨by omega, rfl, ?_, ?_⟩
    · intro k hk
      by_cases hk2 : k < m
      · have := h3 k hk2
        omega
      · have hkm : k = m := by omega
        subst hkm
        exact le_refl _
    · intro k hk
      have := h3 k hk
      omega
  · simp only [hlt, if_false]
    refine ⟨by omega, h2, ?_, h4⟩
    intro k hk
    by_cases hk2 : k < m
    · exact h3 k hk2
    · have hkm : k = m := by omega
      subst hkm
      omega

theorem select_inv_loop (lens : List Nat) (n : Nat) :
    select_inv lens (n + 1)
      ((List.range' 1 n).foldl (select_worker_step lens) (0, lens.getD 0 0)) := by
  induction n with
  | zero => exact select_inv_init lens
  | succ n ih =>
    rw [List.range'_concat, List.foldl_append]
    simp only [List.foldl_cons, List.foldl_nil]
    have h := select_inv_step lens (n + 1) _ ih
    have e : 1 + 1 * n = n + 1 := by omega
    rw [e]
    exact h

/-- Claim C9 (least-loaded worker): for every vector `lens` of pending-command
counts, `select_worker` returns an index below `NUM_WORKERS` whose count is the
minimum of the counts of all workers, and every smaller index has a strictly
larger count (ties go to the lowest index). -/
theorem select_worker_least (lens : List Nat) :
    select_worker lens < NUM_WORKERS ∧
      (∀ k, k < NUM_WORKERS → lens.getD (select_worker lens) 0 ≤ lens.getD k 0) ∧
      (∀ k, k < select_worker lens → lens.getD (select_worker lens) 0 < lens.getD k 0) := by
  have h := select_inv_loop lens (NUM_WORKERS - 1)
  obtain ⟨h1, h2, h3, h4⟩ := h
  unfold select_worker select_worker_n
  rw [← h2]
  exact ⟨h1, h3, h4⟩
/-! ## Release phase -/

theorem release_phase_fst (tnow : Int) (jobs : List job_desc_t) :
    (release_phase tnow jobs).1 =
      jobs.map (fun jb => if tnow ≥ jb.next_release_us then release_job jb else jb) := by
  induction jobs with
  | nil => rfl
  | cons jb rest ih =>
    by_cases h : tnow ≥ jb.next_release_us
    · simp only [release_phase, h, if_true, List.map_cons, ih]
    · simp only [release_phase, h, if_false, List.map_cons, ih]

theorem release_phase_snd (tnow : Int) (jobs : List job_desc_t) :
    (release_phase tnow jobs).2 =
      (jobs.filter (fun jb => decide (tnow ≥ jb.next_release_us))).map ready_of := by
  induction jobs with
  | nil => rfl
  | cons jb rest ih =>
    by_cases h : tnow ≥ jb.next_release_us
    · simp only [release_phase, h, if_true, List.filter_cons, decide_True, List.map_cons, ih]
    · simp only [release_phase, h, if_false, List.filter_cons, decide_False, ih]
      rfl

/-- Claim C8 (release phase): at tick time `tnow` a job is released iff
`tnow >= next_release_us`.  The table after the phase holds, for every released
job, `next_release_us + period_ms*1000` and `releases + 1` (as a `uint32_t`, so
without wrap-around exactly one more) and every other field unchanged, and holds
a job that is not due unchanged; the ready list holds, in table order, exactly
one item for each released job, with `release_us` the old `next_release_us` and
`abs_deadline_us = release_us + deadline_ms*1000`, and no item for other jobs. -/
theorem release_phase_spec (tnow : Int) (jobs : List job_desc_t) :
    (release_phase tnow jobs).1 =
        jobs.map (fun jb =>
          if tnow ≥ jb.next_release_us then
            { jb with
              next_release_us := jb.next_release_us + (jb.period_ms : Int) * 1000,
              releases := (jb.releases + 1) % U32_MOD }
          else jb) ∧
      (release_phase tnow jobs).2 =
        (jobs.filter (fun jb => decide (tnow ≥ jb.next_release_us))).map (fun jb =>
          { job_id := jb.id, priority := jb.priority,
            release_us := jb.next_release_us,
            abs_deadline_us := jb.next_release_us + (jb.deadline_ms : Int) * 1000 }) ∧
      (∀ jb ∈ jobs, jb.releases + 1 < U32_MOD →
        (jb.releases + 1) % U32_MOD = jb.releases + 1) := by
  refine ⟨release_phase_fst tnow jobs, release_phase_snd tnow jobs, ?_⟩
  intro jb _ h
  exact Nat.mod_eq_of_lt h

/-! ## Collection phase -/

theorem collect_one_getElem (jobs : List job_desc_t) (comp : completion_t) (k : Nat)
    (jb : job_desc_t) (hk : jobs[k]? = some jb) :
    (collect_one jobs comp)[k]? =
      some (if (k : Int) = comp.job_id then account_job jb comp else jb) := by
  unfold collect_one job_at
  by_cases h0 : 0 ≤ comp.job_id
  · simp only [h0, if_true]
    cases hj : jobs[comp.job_id.toNat]? with
    | none =>
      simp only
      have hne : ¬ ((k : Int) = comp.job_id) := by
        intro e
        have : comp.job_id.toNat = k := by omega
        rw [this, hk] at hj
        exact Option.noConfusion hj
      simp only [hne, if_false, hk]
    | some jb0 =>
      simp only
      rw [List.getElem?_set]
      by_cases e : comp.job_id.toNat = k
      · have e2 : (k : Int) = comp.job_id := by omega
        have hlt : comp.job_id.toNat < jobs.length := by
          rw [e]
          exact (List.getElem?_eq_some_iff.mp hk).1
        rw [e, hk] at hj
        have hjb : jb = jb0 := Option.some.inj hj
        rw [e] at hlt
        simp only [e, e2, hlt, if_true, hjb]
      · have e2 : ¬ ((k : Int) = comp.job_id) := by omega
        simp only [e, e2, if_false, hk]
  · have hne : ¬ ((k : Int) = comp.job_id) := by omega
    simp only [h0, hne, if_false, hk]
/-- Claim C6 (miss detection): processing one completion record `comp` changes
the counter `deadline_miss` of job `k` only if `k` is `comp.job_id` and
`comp.finish_us > comp.abs_deadline_us`; then the counter is incremented once
(as a `uint32_t`: by exactly 1 unless it stood at `2^32 - 1`).  A record that
finishes at or before its deadline, and every job other than the owner, keeps
its counter. -/
theorem miss_detection (jobs : List job_desc_t) (comp : completion_t) (k : Nat)
    (jb : job_desc_t) (hk : jobs[k]? = some jb) :
    ∃ jb', (collect_one jobs comp)[k]? = some jb' ∧
      jb'.deadline_miss =
        (if (k : Int) = comp.job_id ∧ comp.finish_us > comp.abs_deadline_us
          then (jb.deadline_miss + 1) % U32_MOD else jb.deadline_miss) ∧
      (jb.deadline_miss + 1 < U32_MOD →
        jb'.deadline_miss = jb.deadline_miss +
          (if (k : Int) = comp.job_id ∧ comp.finish_us > comp.abs_deadline_us
            then 1 else 0)) := by
  refine ⟨_, collect_one_getElem jobs comp k jb hk, ?_⟩
  by_cases e : (k : Int) = comp.job_id
  · by_cases m : comp.finish_us > comp.abs_deadline_us
    · simp only [e, m, if_true, account_job, decide_True, and_self, true_and]
      intro h
      exact Nat.mod_eq_of_lt h
    · simp only [e, m, if_true, if_false, account_job, decide_False, and_false, true_and,
        Nat.add_zero, implies_true, Bool.false_eq_true]
  · simp only [e, if_false, false_and, true_and, Nat.add_zero, implies_true]

/-- Instance of the miss-detection theorem: job B finishes at 70000 with deadline 60000. -/
theorem miss_detection_witness :
    ∃ jb', (collect_one g_jobs ⟨1, 70000, 60000, 0⟩)[1]? = some jb' ∧
      jb'.deadline_miss =
        (if ((1 : Nat) : Int) = (1 : Int) ∧ (70000 : Int) > 60000
          then (0 + 1) % U32_MOD else 0) ∧
      (0 + 1 < U32_MOD →
        jb'.deadline_miss = 0 +
          (if ((1 : Nat) : Int) = (1 : Int) ∧ (70000 : Int) > 60000 then 1 else 0)) :=
  miss_detection g_jobs ⟨1, 70000, 60000, 0⟩ 1 (job_init 1 2 100 20 60 60 300) rfl
theorem resp_ms_of_eq (c : completion_t) (h0 : c.release_us ≤ c.finish_us)
    (h1 : (c.finish_us - c.release_us) / 1000 < (U32_MOD : Int)) :
    (resp_ms_of c : Int) = (c.finish_us - c.release_us) / 1000 := by
  unfold resp_ms_of
  have hd : 0 ≤ c.finish_us - c.release_us := by omega
  rw [Int.tdiv_eq_ediv hd (by decide)]
  have hq : 0 ≤ (c.finish_us - c.release_us) / 1000 := Int.ediv_nonneg hd (by omega)
  rw [Int.emod_eq_of_lt hq h1]
  exact Int.toNat_of_nonneg hq

/-- Claim C10 (completion accounting): draining the records `q` adds to job `k`
one completion for each record it owns and the response time `resp_ms_of` of
each such record to `sum_response_ms` (as `uint32_t` and `uint64_t` sums), and
sets `max_response_ms` to the maximum of its old value and these response
times; a job that owns no record of `q` is unchanged; and for a record with
`release_us <= finish_us` whose response time fits a `uint32_t` the response
time is `(finish_us - release_us)/1000`, truncated.  With `q = [c]` this is the
effect of a single record. -/
theorem completion_accounting (jobs : List job_desc_t) (q : List completion_t) (k : Nat)
    (jb : job_desc_t) (hk : jobs[k]? = some jb)
    (h32 : jb.completions < U32_MOD) (h64 : jb.sum_response_ms < U64_MOD) :
    ∃ jb', (collect_phase jobs q)[k]? = some jb' ∧
      jb'.completions =
        (jb.completions + (q.filter (fun c => decide (c.job_id = (k : Int)))).length)
          % U32_MOD ∧
      jb'.sum_response_ms =
        (jb.sum_response_ms +
          ((q.filter (fun c => decide (c.job_id = (k : Int)))).map resp_ms_of).sum)
          % U64_MOD ∧
      jb'.max_response_ms =
        ((q.filter (fun c => decide (c.job_id = (k : Int)))).map resp_ms_of).foldl max
          jb.max_response_ms ∧
      ((∀ c ∈ q, c.job_id ≠ (k : Int)) → jb' = jb) ∧
      (∀ c ∈ q, c.release_us ≤ c.finish_us →
        (c.finish_us - c.release_us) / 1000 < (U32_MOD : Int) →
        (resp_ms_of c : Int) = (c.finish_us - c.release_us) / 1000) := by
  induction q generalizing jobs jb with
  | nil =>
    refine ⟨jb, hk, ?_, ?_, rfl, fun _ => rfl, ?_⟩
    · simp only [List.filter_nil, List.length_nil, Nat.add_zero]
      exact (Nat.mod_eq_of_lt h32).symm
    · simp only [List.filter_nil, List.map_nil, List.sum_nil, Nat.add_zero]
      exact (Nat.mod_eq_of_lt h64).symm
    · intro c hc
      exact absurd hc (List.not_mem_nil c)
  | cons c q ih =>
    have h1 := collect_one_getElem jobs c k jb hk
    by_cases e : (k : Int) = c.job_id
    · rw [if_pos e] at h1
      have a32 : (account_job jb c).completions < U32_MOD := Nat.mod_lt _ (by decide)
      have a64 : (account_job jb c).sum_response_ms < U64_MOD := Nat.mod_lt _ (by decide)
      obtain ⟨jb', g1, g2, g3, g4, _, _⟩ := ih (collect_one jobs c) (account_job jb c) h1 a32 a64
      have hf : (c :: q).filter (fun c => decide (c.job_id = (k : Int))) =
          c :: q.filter (fun c => decide (c.job_id = (k : Int))) := by
        simp only [List.filter_cons, e.symm, decide_True, if_true]
      refine ⟨jb', g1, ?_, ?_, ?_, ?_, ?_⟩
      · rw [g2, hf]
        simp only [account_job, List.length_cons]
        unfold U32_MOD
        omega
      · rw [g3, hf]
        simp only [account_job, List.map_cons, List.sum_cons]
        unfold U64_MOD
        omega
      · rw [g4, hf]
        simp only [account_job, List.map_cons, List.foldl_cons]
        congr 1
        by_cases hm : resp_ms_of c > jb.max_response_ms
        · simp only [hm, if_true]
          exact (max_eq_right (le_of_lt hm)).symm
        · simp only [hm, if_false]
          exact (max_eq_left (not_lt.mp hm)).symm
      · intro hall
        exact absurd e.symm (hall c (List.mem_cons_self c q))
      · intro c' _ ha hb
        exact resp_ms_of_eq c' ha hb
    · rw [if_neg e] at h1
      obtain ⟨jb', g1, g2, g3, g4, g5, _⟩ := ih (collect_one jobs c) jb h1 h32 h64
      have e2 : ¬ (c.job_id = (k : Int)) := fun h => e h.symm
      have hf : (c :: q).filter (fun c => decide (c.job_id = (k : Int))) =
          q.filter (fun c => decide (c.job_id = (k : Int))) := by
        simp only [List.filter_cons, e2, decide_False, if_false, Bool.false_eq_true]
      refine ⟨jb', g1, ?_, ?_, ?_, ?_, ?_⟩
      · rw [g2, hf]
      · rw [g3, hf]
      · rw [g4, hf]
      · intro hall
        exact g5 (fun c' hc' => hall c' (List.mem_cons_of_mem c hc'))
      · intro c' _ ha hb
        exact resp_ms_of_eq c' ha hb

/-- Instance of the accounting theorem: one record of job B with a response of 25 ms. -/
theorem completion_accounting_witness :
    ∃ jb', (collect_phase g_jobs [⟨1, 25000, 60000, 0⟩])[1]? = some jb' ∧
      jb'.completions = 1 ∧ jb'.sum_response_ms = 25 ∧ jb'.max_response_ms = 25 := by
  obtain ⟨jb', h1, h2, h3, h4, _⟩ :=
    completion_accounting g_jobs [⟨1, 25000, 60000, 0⟩] 1 (job_init 1 2 100 20 60 60 300)
      rfl (by decide) (by decide)
  refine ⟨jb', h1, ?_, ?_, ?_⟩
  · rw [h2]
    decide
  · rw [h3]
    decide
  · rw [h4]
    decide
/-! ## Ranking phase -/

theorem bubble_min_length (x : ready_item_t) (xs : List ready_item_t) :
    (bubble_min x xs).2.length = xs.length := by
  induction xs generalizing x with
  | nil => rfl
  | cons y ys ih =>
    unfold bubble_min
    by_cases h : swap_needed y x = true
    · simp only [h, if_true, List.length_cons, ih]
    · simp only [h, if_false, List.length_cons, ih, Bool.false_eq_true]

theorem sort_inner_loop_eq (todo : List ready_item_t) (pre : List ready_item_t)
    (x : ready_item_t) (done : List ready_item_t) :
    (List.range' (pre.length + 1 + done.length) todo.length).foldl
        (sort_inner_step pre.length) (pre ++ x :: (done ++ todo)) =
      pre ++ (bubble_min x todo).1 :: (done ++ (bubble_min x todo).2) := by
  induction todo generalizing x done with
  | nil => simp [bubble_min]
  | cons y ys ih =>
    rw [List.length_cons, List.range'_succ, List.foldl_cons]
    have hi : (pre ++ x :: (done ++ y :: ys))[pre.length]? = some x := by
      rw [List.getElem?_append_right (le_refl _), Nat.sub_self, List.getElem?_cons_zero]
    have hj : (pre ++ x :: (done ++ y :: ys))[pre.length + 1 + done.length]? = some y := by
      rw [List.getElem?_append_right (by omega)]
      have e : pre.length + 1 + done.length - pre.length = done.length + 1 := by omega
      rw [e, List.getElem?_cons_succ, List.getElem?_append_right (le_refl _)]
      simp
    have hstep : sort_inner_step pre.length (pre ++ x :: (done ++ y :: ys))
        (pre.length + 1 + done.length) =
        if swap_needed y x then pre ++ y :: ((done ++ [x]) ++ ys)
        else pre ++ x :: ((done ++ [y]) ++ ys) := by
      unfold sort_inner_step
      rw [hi, hj]
      simp only
      by_cases h : swap_needed y x = true
      · simp only [h, if_true]
        rw [List.set_append_right _ _ (le_refl _), Nat.sub_self, List.set_cons_zero]
        rw [List.set_append_right _ _ (by omega)]
        have e : pre.length + 1 + done.length - pre.length = done.length + 1 := by omega
        rw [e, List.set_cons_succ, List.set_append_right _ _ (le_refl _), Nat.sub_self,
          List.set_cons_zero]
        simp
      · simp only [h, if_false, Bool.false_eq_true]
        simp
    rw [hstep]
    by_cases h : swap_needed y x = true
    · simp only [h, if_true]
      have := ih y (done ++ [x])
      simp only [List.length_append, List.length_singleton] at this
      have e : pre.length + 1 + done.length + 1 = pre.length + 1 + (done.length + 1) := by omega
      rw [e, this]
      simp [bubble_min, h]
    · simp only [h, if_false, Bool.false_eq_true]
      have := ih x (done ++ [y])
      simp only [List.length_append, List.length_singleton] at this
      have e : pre.length + 1 + done.length + 1 = pre.length + 1 + (done.length + 1) := by omega
      rw [e, this]
      simp [bubble_min, h]
theorem sort_outer_loop_eq (m : Nat) (pre l : List ready_item_t) (hm : m ≤ l.length) :
    (List.range' pre.length m).foldl (sort_outer_step (pre.length + l.length)) (pre ++ l) =
      pre ++ sel_sort m l := by
  induction m generalizing pre l with
  | zero => rfl
  | succ m ih =>
    cases l with
    | nil => exact absurd hm (by simp)
    | cons x xs =>
      rw [List.range'_succ, List.foldl_cons]
      have hstep : sort_outer_step (pre.length + (x :: xs).length) (pre ++ x :: xs) pre.length =
          (pre ++ [(bubble_min x xs).1]) ++ (bubble_min x xs).2 := by
        unfold sort_outer_step
        have e : pre.length + (x :: xs).length - (pre.length + 1) = xs.length := by
          simp only [List.length_cons]
          omega
        rw [e]
        have h := sort_inner_loop_eq xs pre x []
        simp only [List.length_nil, Nat.add_zero, List.nil_append] at h
        rw [h]
        simp
      rw [hstep]
      have hlen : pre.length + (x :: xs).length =
          (pre ++ [(bubble_min x xs).1]).length + (bubble_min x xs).2.length := by
        simp only [List.length_cons, List.length_append, List.length_nil, bubble_min_length]
        omega
      have hpl : pre.length + 1 = (pre ++ [(bubble_min x xs).1]).length := by
        simp
      rw [hlen, hpl, ih (pre ++ [(bubble_min x xs).1]) (bubble_min x xs).2
        (by rw [bubble_min_length]; exact Nat.le_of_succ_le_succ hm)]
      simp [sel_sort]

theorem sort_ready_eq_sel_sort (ready : List ready_item_t) :
    sort_ready ready = sel_sort ready.length ready := by
  have h := sort_outer_loop_eq ready.length [] ready (le_refl _)
  simp only [List.length_nil, Nat.zero_add, List.nil_append] at h
  unfold sort_ready
  rw [List.range_eq_range']
  exact h

theorem swap_needed_false_iff (y x : ready_item_t) :
    swap_needed y x = false ↔ ranks_before x y := by
  unfold swap_needed ranks_before
  split_ifs with h1 h2
  · constructor
    · intro h
      exact h.elim
    · intro h
      exfalso
      omega
  · constructor
    · intro h
      exact h.elim
    · intro h
      exfalso
      omega
  · constructor
    · intro _
      omega
    · intro _
      rfl

theorem swap_needed_true_ranks (y x : ready_item_t) (h : swap_needed y x = true) :
    ranks_before y x := by
  unfold swap_needed at h
  unfold ranks_before
  by_cases h1 : y.priority > x.priority
  · exact Or.inl h1
  · by_cases h2 : y.priority = x.priority ∧ y.abs_deadline_us < x.abs_deadline_us
    · exact Or.inr ⟨h2.1, le_of_lt h2.2⟩
    · simp only [h1, h2, if_false] at h
      exact absurd h (by decide)

theorem ranks_before_trans {x y z : ready_item_t} (h1 : ranks_before x y)
    (h2 : ranks_before y z) : ranks_before x z := by
  unfold ranks_before at *
  omega

theorem ranks_before_refl (x : ready_item_t) : ranks_before x x :=
  Or.inr ⟨rfl, le_refl _⟩

theorem bubble_min_perm (x : ready_item_t) (xs : List ready_item_t) :
    ((bubble_min x xs).1 :: (bubble_min x xs).2).Perm (x :: xs) := by
  induction xs generalizing x with
  | nil => exact List.Perm.refl _
  | cons y ys ih =>
    unfold bubble_min
    by_cases h : swap_needed y x = true
    · simp only [h, if_true]
      exact (List.Perm.swap _ _ _).trans ((ih y).cons x)
    · simp only [h, if_false, Bool.false_eq_true]
      exact ((List.Perm.swap _ _ _).trans ((ih x).cons y)).trans (List.Perm.swap _ _ _)

theorem bubble_min_ranks (x : ready_item_t) (xs : List ready_item_t) :
    ∀ y ∈ x :: xs, ranks_before (bubble_min x xs).1 y := by
  induction xs generalizing x with
  | nil =>
    intro y hy
    rw [List.mem_singleton] at hy
    subst hy
    exact ranks_before_refl _
  | cons z zs ih =>
    intro y hy
    unfold bubble_min
    by_cases h : swap_needed z x = true
    · simp only [h, if_true]
      rcases List.mem_cons.mp hy with e | hy'
      · subst e
        exact ranks_before_trans (ih z z (List.mem_cons_self _ _)) (swap_needed_true_ranks z y h)
      · exact ih z y hy'
    · simp only [h, if_false, Bool.false_eq_true]
      have hxz : ranks_before x z :=
        (swap_needed_false_iff z x).mp (Bool.eq_false_iff.mpr h)
      rcases List.mem_cons.mp hy with e | hy'
      · subst e
        exact ih y y (List.mem_cons_self _ _)
      · rcases List.mem_cons.mp hy' with e | hy''
        · subst e
          exact ranks_before_trans (ih x x (List.mem_cons_self _ _)) hxz
        · exact ih x y (List.mem_cons_of_mem _ hy'')

theorem sel_sort_perm (m : Nat) (l : List ready_item_t) : (sel_sort m l).Perm l := by
  induction m generalizing l with
  | zero => exact List.Perm.refl _
  | succ m ih =>
    cases l with
    | nil => exact List.Perm.refl _
    | cons x xs =>
      simp only [sel_sort]
      exact ((ih _).cons _).trans (bubble_min_perm x xs)

theorem sel_sort_pairwise (m : Nat) (l : List ready_item_t) (hm : l.length ≤ m) :
    (sel_sort m l).Pairwise ranks_before := by
  induction m generalizing l with
  | zero =>
    have : l = [] := List.length_eq_zero.mp (Nat.le_zero.mp hm)
    subst this
    exact List.Pairwise.nil
  | succ m ih =>
    cases l with
    | nil => exact List.Pairwise.nil
    | cons x xs =>
      simp only [sel_sort]
      refine List.Pairwise.cons ?_ (ih _ ?_)
      · intro y hy
        have hy2 : y ∈ (bubble_min x xs).2 := (sel_sort_perm m _).mem_iff.mp hy
        have hy3 : y ∈ x :: xs :=
          (bubble_min_perm x xs).mem_iff.mp (List.mem_cons_of_mem _ hy2)
        exact bubble_min_ranks x xs y hy3
      · rw [bubble_min_length]
        exact Nat.le_of_succ_le_succ hm
/-- Claim C3 (ranking correctness): for every ready list (of any length, so also
of length 0..`NUM_JOBS`) the ranking phase returns a permutation of its input in
which every adjacent pair `x, y` has `x.priority > y.priority`, or equal
priorities and `x.abs_deadline_us <= y.abs_deadline_us`; two items of equal
priority with deadlines 40 and 60 come out with the deadline-40 item first in
whichever order they arrived. -/
theorem sort_ready_ranked (ready : List ready_item_t) :
    (sort_ready ready).Perm ready ∧
      List.Chain' ranks_before (sort_ready ready) ∧
      (∀ a b : ready_item_t, a.priority = b.priority →
        a.abs_deadline_us = 40 → b.abs_deadline_us = 60 →
        sort_ready [a, b] = [a, b] ∧ sort_ready [b, a] = [a, b]) := by
  refine ⟨?_, ?_, ?_⟩
  · rw [sort_ready_eq_sel_sort]
    exact sel_sort_perm _ _
  · rw [sort_ready_eq_sel_sort]
    exact (sel_sort_pairwise _ _ (le_refl _)).chain'
  · intro a b hp ha hb
    have h1 : swap_needed b a = false := by
      unfold swap_needed
      rw [hp, ha, hb]
      simp
    have h2 : swap_needed a b = true := by
      unfold swap_needed
      rw [hp, ha, hb]
      simp
    constructor
    · rw [sort_ready_eq_sel_sort]
      simp [sel_sort, bubble_min, h1]
    · rw [sort_ready_eq_sel_sort]
      simp [sel_sort, bubble_min, h2]
/-! ## Ranking phase: arrival order of equal items -/

theorem swap_needed_iff (y x : ready_item_t) :
    swap_needed y x = true ↔ ahead_of_key x.priority x.abs_deadline_us y := by
  unfold swap_needed ahead_of_key
  split_ifs with h1 h2
  · exact ⟨fun _ => Or.inl h1, fun _ => rfl⟩
  · exact ⟨fun _ => Or.inr h2, fun _ => rfl⟩
  · constructor
    · intro h
      exact h.elim
    · intro h
      exfalso
      omega

theorem same_key_iff (p d : Int) (r : ready_item_t) :
    same_key p d r = true ↔ r.priority = p ∧ r.abs_deadline_us = d := by
  unfold same_key
  exact decide_eq_true_iff

theorem swap_needed_trans {z y x : ready_item_t} (h1 : swap_needed z y = true)
    (h2 : swap_needed y x = true) : swap_needed z x = true := by
  rw [swap_needed_iff] at *
  unfold ahead_of_key at *
  omega

/-- The inner loop either leaves the slots as they are, or ends with an item of
the tail that ranks strictly ahead of the old `ready[i]`. -/
theorem bubble_min_cases (x : ready_item_t) (xs : List ready_item_t) :
    bubble_min x xs = (x, xs) ∨
      (swap_needed (bubble_min x xs).1 x = true ∧ (bubble_min x xs).1 ∈ xs) := by
  induction xs generalizing x with
  | nil => exact Or.inl rfl
  | cons y ys ih =>
    unfold bubble_min
    by_cases h : swap_needed y x = true
    · simp only [h, if_true]
      right
      rcases ih y with e | ⟨e1, e2⟩
      · rw [e]
        exact ⟨h, List.mem_cons_self _ _⟩
      · exact ⟨swap_needed_trans e1 h, List.mem_cons_of_mem _ e2⟩
    · simp only [h, if_false, Bool.false_eq_true]
      rcases ih x with e | ⟨e1, e2⟩
      · left
        rw [e]
      · right
        exact ⟨e1, List.mem_cons_of_mem _ e2⟩

theorem bubble_min_mem (x : ready_item_t) (xs : List ready_item_t) (c : ready_item_t)
    (hc : c ∈ (bubble_min x xs).2) :
    c ∈ xs ∨ (c = x ∧ swap_needed (bubble_min x xs).1 x = true ∧ (bubble_min x xs).1 ∈ xs) := by
  rcases bubble_min_cases x xs with e | ⟨e1, e2⟩
  · rw [e] at hc
    exact Or.inl hc
  · have h : c ∈ x :: xs := (bubble_min_perm x xs).mem_iff.mp (List.mem_cons_of_mem _ hc)
    rcases List.mem_cons.mp h with e | e
    · exact Or.inr ⟨e, e1, e2⟩
    · exact Or.inl e
theorem bubble_min_filter (p d : Int) (x : ready_item_t) (xs : List ready_item_t)
    (h : ∀ a b c, [a, b, c].Sublist (x :: xs) → same_key p d a = true →
      same_key p d b = true → ¬ ahead_of_key p d c) :
    ((bubble_min x xs).1 :: (bubble_min x xs).2).filter (same_key p d) =
      (x :: xs).filter (same_key p d) := by
  induction xs generalizing x with
  | nil => rfl
  | cons y ys ih =>
    unfold bubble_min
    by_cases hs : swap_needed y x = true
    · simp only [hs, if_true]
      have ih' := ih y (fun a b c hsub => h a b c (hsub.cons x))
      have hmx : swap_needed (bubble_min y ys).1 x = true := by
        rcases bubble_min_cases y ys with e | ⟨e1, _⟩
        · rw [e]
          exact hs
        · exact swap_needed_trans e1 hs
      generalize (bubble_min y ys).1 = m at ih' hmx ⊢
      generalize (bubble_min y ys).2 = r at ih' ⊢
      by_cases hKx : same_key p d x = true
      · have hKm : ¬ (same_key p d m = true) := by
          rw [swap_needed_iff] at hmx
          rw [same_key_iff] at hKx ⊢
          unfold ahead_of_key at hmx
          omega
        rw [List.filter_cons_of_neg hKm, List.filter_cons_of_pos hKx,
          List.filter_cons_of_pos hKx]
        rw [List.filter_cons_of_neg hKm] at ih'
        rw [ih']
      · rw [List.filter_cons_of_neg hKx] at *
        by_cases hKm : same_key p d m = true
        · rw [List.filter_cons_of_pos hKm, List.filter_cons_of_neg hKx]
          rw [List.filter_cons_of_pos hKm] at ih'
          exact ih'
        · rw [List.filter_cons_of_neg hKm, List.filter_cons_of_neg hKx]
          rw [List.filter_cons_of_neg hKm] at ih'
          exact ih'
    · simp only [hs, if_false, Bool.false_eq_true]
      have ih' := ih x (fun a b c hsub => h a b c (by
        rcases List.sublist_cons_iff.mp hsub with h1 | ⟨t, e, h2⟩
        · exact (h1.cons y).cons x
        · rw [e]
          exact List.cons_sublist_cons.mpr (h2.cons y)))
      rcases bubble_min_cases x ys with e | ⟨e1, e2⟩
      · rw [e]
      · generalize (bubble_min x ys).1 = m at ih' e1 e2 ⊢
        generalize (bubble_min x ys).2 = r at ih' ⊢
        by_cases hKy : same_key p d y = true
        · have hKx : ¬ (same_key p d x = true) := by
            intro hKx
            have hsub : [x, y, m].Sublist (x :: y :: ys) :=
              List.cons_sublist_cons.mpr
                (List.cons_sublist_cons.mpr (List.singleton_sublist.mpr e2))
            refine h x y m hsub hKx hKy ?_
            rw [swap_needed_iff] at e1
            rw [same_key_iff] at hKx
            unfold ahead_of_key at e1 ⊢
            omega
          have hKm : ¬ (same_key p d m = true) := by
            intro hKm
            apply hs
            rw [swap_needed_iff] at e1 ⊢
            rw [same_key_iff] at hKm hKy
            unfold ahead_of_key at e1 ⊢
            omega
          rw [List.filter_cons_of_neg hKm, List.filter_cons_of_pos hKy,
            List.filter_cons_of_neg hKx, List.filter_cons_of_pos hKy]
          rw [List.filter_cons_of_neg hKm, List.filter_cons_of_neg hKx] at ih'
          rw [ih']
        · by_cases hKm : same_key p d m = true
          · rw [List.filter_cons_of_pos hKm, List.filter_cons_of_neg hKy]
            rw [List.filter_cons_of_pos hKm] at ih'
            rw [ih']
            by_cases hKx : same_key p d x = true
            · rw [List.filter_cons_of_pos hKx, List.filter_cons_of_pos hKx,
                List.filter_cons_of_neg hKy]
            · rw [List.filter_cons_of_neg hKx, List.filter_cons_of_neg hKx,
                List.filter_cons_of_neg hKy]
          · rw [List.filter_cons_of_neg hKm, List.filter_cons_of_neg hKy]
            rw [List.filter_cons_of_neg hKm] at ih'
            rw [ih']
            by_cases hKx : same_key p d x = true
            · rw [List.filter_cons_of_pos hKx, List.filter_cons_of_pos hKx,
                List.filter_cons_of_neg hKy]
            · rw [List.filter_cons_of_neg hKx, List.filter_cons_of_neg hKx,
                List.filter_cons_of_neg hKy]
theorem bubble_min_pair (p d : Int) (x : ready_item_t) (xs : List ready_item_t)
    (b c : ready_item_t) (hsub : [b, c].Sublist (bubble_min x xs).2)
    (hb : same_key p d b = true) (hc : ahead_of_key p d c) :
    ∃ b' c', [b', c'].Sublist (x :: xs) ∧ same_key p d b' = true ∧ ahead_of_key p d c' := by
  induction xs generalizing x with
  | nil =>
    have hl := hsub.length_le
    simp [bubble_min] at hl
  | cons y ys ih =>
    unfold bubble_min at hsub
    by_cases hs : swap_needed y x = true
    · simp only [hs, if_true] at hsub
      rcases List.sublist_cons_iff.mp hsub with h1 | ⟨t, e, h2⟩
      · obtain ⟨b', c', g1, g2, g3⟩ := ih y h1
        exact ⟨b', c', g1.cons x, g2, g3⟩
      · have eb : b = x := (List.cons.inj e).1
        have et : [c] = t := (List.cons.inj e).2
        rw [← et] at h2
        have hc1 : c ∈ (bubble_min y ys).2 := List.singleton_sublist.mp h2
        have hc2 : c ∈ y :: ys :=
          (bubble_min_perm y ys).mem_iff.mp (List.mem_cons_of_mem _ hc1)
        refine ⟨x, c, ?_, eb ▸ hb, hc⟩
        exact List.cons_sublist_cons.mpr (List.singleton_sublist.mpr hc2)
    · simp only [hs, if_false, Bool.false_eq_true] at hsub
      rcases List.sublist_cons_iff.mp hsub with h1 | ⟨t, e, h2⟩
      · obtain ⟨b', c', g1, g2, g3⟩ := ih x h1
        refine ⟨b', c', ?_, g2, g3⟩
        rcases List.sublist_cons_iff.mp g1 with k1 | ⟨t', e', k2⟩
        · exact (k1.cons y).cons x
        · rw [e']
          exact List.cons_sublist_cons.mpr (k2.cons y)
      · have eb : b = y := (List.cons.inj e).1
        have et : [c] = t := (List.cons.inj e).2
        rw [← et] at h2
        have hc1 : c ∈ (bubble_min x ys).2 := List.singleton_sublist.mp h2
        rcases bubble_min_mem x ys c hc1 with hin | ⟨ecx, e1, e2⟩
        · refine ⟨y, c, ?_, eb ▸ hb, hc⟩
          exact (List.cons_sublist_cons.mpr (List.singleton_sublist.mpr hin)).cons x
        · refine ⟨y, (bubble_min x ys).1, ?_, eb ▸ hb, ?_⟩
          · exact (List.cons_sublist_cons.mpr (List.singleton_sublist.mpr e2)).cons x
          · rw [swap_needed_iff] at e1
            rw [ecx] at hc
            unfold ahead_of_key at e1 hc ⊢
            omega

theorem bubble_min_triple (p d : Int) (x : ready_item_t) (xs : List ready_item_t)
    (a b c : ready_item_t) (hsub : [a, b, c].Sublist (bubble_min x xs).2)
    (ha : same_key p d a = true) (hb : same_key p d b = true) (hc : ahead_of_key p d c) :
    ∃ a' b' c', [a', b', c'].Sublist (x :: xs) ∧ same_key p d a' = true ∧
      same_key p d b' = true ∧ ahead_of_key p d c' := by
  induction xs generalizing x with
  | nil =>
    have hl := hsub.length_le
    simp [bubble_min] at hl
  | cons y ys ih =>
    unfold bubble_min at hsub
    by_cases hs : swap_needed y x = true
    · simp only [hs, if_true] at hsub
      rcases List.sublist_cons_iff.mp hsub with h1 | ⟨t, e, h2⟩
      · obtain ⟨a', b', c', g1, g2, g3, g4⟩ := ih y h1
        exact ⟨a', b', c', g1.cons x, g2, g3, g4⟩
      · have ea : a = x := (List.cons.inj e).1
        have et : [b, c] = t := (List.cons.inj e).2
        rw [← et] at h2
        obtain ⟨b', c', g1, g2, g3⟩ := bubble_min_pair p d y ys b c h2 hb hc
        exact ⟨x, b', c', List.cons_sublist_cons.mpr g1, ea ▸ ha, g2, g3⟩
    · simp only [hs, if_false, Bool.false_eq_true] at hsub
      rcases List.sublist_cons_iff.mp hsub with h1 | ⟨t, e, h2⟩
      · obtain ⟨a', b', c', g1, g2, g3, g4⟩ := ih x h1
        refine ⟨a', b', c', ?_, g2, g3, g4⟩
        rcases List.sublist_cons_iff.mp g1 with k1 | ⟨t', e', k2⟩
        · exact (k1.cons y).cons x
        · rw [e']
          exact List.cons_sublist_cons.mpr (k2.cons y)
      · have ea : a = y := (List.cons.inj e).1
        have et : [b, c] = t := (List.cons.inj e).2
        rw [← et] at h2
        obtain ⟨b', c', g1, g2, g3⟩ := bubble_min_pair p d x ys b c h2 hb hc
        rcases List.sublist_cons_iff.mp g1 with k1 | ⟨t', e', k2⟩
        · refine ⟨y, b', c', ?_, ea ▸ ha, g2, g3⟩
          exact (List.cons_sublist_cons.mpr k1).cons x
        · have eb' : b' = x := (List.cons.inj e').1
          have et' : [c'] = t' := (List.cons.inj e').2
          rw [← et'] at k2
          refine ⟨x, y, c', ?_, eb' ▸ g2, ea ▸ ha, g3⟩
          exact List.cons_sublist_cons.mpr (List.cons_sublist_cons.mpr k2)

theorem sel_sort_filter (p d : Int) (m : Nat) (l : List ready_item_t)
    (h : ∀ a b c, [a, b, c].Sublist l → same_key p d a = true →
      same_key p d b = true → ¬ ahead_of_key p d c) :
    (sel_sort m l).filter (same_key p d) = l.filter (same_key p d) := by
  induction m generalizing l with
  | zero => rfl
  | succ m ih =>
    cases l with
    | nil => rfl
    | cons x xs =>
      simp only [sel_sort]
      have hr : (sel_sort m (bubble_min x xs).2).filter (same_key p d) =
          (bubble_min x xs).2.filter (same_key p d) := by
        apply ih
        intro a b c hsub ha hb hc
        obtain ⟨a', b', c', g1, g2, g3, g4⟩ := bubble_min_triple p d x xs a b c hsub ha hb hc
        exact h a' b' c' g1 g2 g3 g4
      rw [← bubble_min_filter p d x xs h]
      by_cases hK : same_key p d (bubble_min x xs).1 = true
      · rw [List.filter_cons_of_pos hK, List.filter_cons_of_pos hK, hr]
      · rw [List.filter_cons_of_neg hK, List.filter_cons_of_neg hK, hr]

/-! ## Controller: the period stays within its bounds -/

set_option maxRecDepth 100000 in
theorem relax_period_A : ∀ p, p < 121 → 30 ≤ p →
    30 ≤ relax_period g_adapt_cfg p 120 ∧ relax_period g_adapt_cfg p 120 ≤ 120 := by
  decide

set_option maxRecDepth 100000 in
theorem relax_period_B : ∀ p, p < 301 → 60 ≤ p →
    60 ≤ relax_period g_adapt_cfg p 300 ∧ relax_period g_adapt_cfg p 300 ≤ 300 := by
  decide

set_option maxRecDepth 100000 in
theorem relax_period_C : ∀ p, p < 601 → 120 ≤ p →
    120 ≤ relax_period g_adapt_cfg p 600 ∧ relax_period g_adapt_cfg p 600 ≤ 600 := by
  decide

set_option maxRecDepth 100000 in
theorem tighten_period_A : ∀ p, p < 121 → 30 ≤ p →
    30 ≤ tighten_period g_adapt_cfg p 30 ∧ tighten_period g_adapt_cfg p 30 ≤ 120 := by
  decide

set_option maxRecDepth 100000 in
theorem tighten_period_B : ∀ p, p < 301 → 60 ≤ p →
    60 ≤ tighten_period g_adapt_cfg p 60 ∧ tighten_period g_adapt_cfg p 60 ≤ 300 := by
  decide

set_option maxRecDepth 100000 in
theorem tighten_period_C : ∀ p, p < 601 → 120 ≤ p →
    120 ≤ tighten_period g_adapt_cfg p 120 ∧ tighten_period g_adapt_cfg p 120 ≤ 600 := by
  decide

theorem new_period_in_bounds (ema total_util : f32) (jb : job_desc_t)
    (h : job_in_bounds jb) :
    jb.min_period_ms ≤ new_period g_adapt_cfg ema total_util jb ∧
      new_period g_adapt_cfg ema total_util jb ≤ jb.max_period_ms := by
  obtain ⟨hrow, hlo, hhi⟩ := h
  unfold new_period
  split_ifs with hr ht
  · rcases hrow with ⟨e1, e2⟩ | ⟨e1, e2⟩ | ⟨e1, e2⟩
    · rw [e1, e2]
      rw [e1] at hlo
      rw [e2] at hhi
      exact relax_period_A _ (by omega) hlo
    · rw [e1, e2]
      rw [e1] at hlo
      rw [e2] at hhi
      exact relax_period_B _ (by omega) hlo
    · rw [e1, e2]
      rw [e1] at hlo
      rw [e2] at hhi
      exact relax_period_C _ (by omega) hlo
  · rcases hrow with ⟨e1, e2⟩ | ⟨e1, e2⟩ | ⟨e1, e2⟩
    · rw [e1, e2]
      rw [e1] at hlo
      rw [e2] at hhi
      exact tighten_period_A _ (by omega) hlo
    · rw [e1, e2]
      rw [e1] at hlo
      rw [e2] at hhi
      exact tighten_period_B _ (by omega) hlo
    · rw [e1, e2]
      rw [e1] at hlo
      rw [e2] at hhi
      exact tighten_period_C _ (by omega) hlo
  · exact ⟨hlo, hhi⟩

theorem adaptive_decide_in_bounds (ema total_util : f32) (now_ms : Nat) (jb : job_desc_t)
    (last : Nat) (h : job_in_bounds jb) :
    job_in_bounds (adaptive_decide g_adapt_cfg ema total_util now_ms jb last).1 := by
  unfold adaptive_decide
  split_ifs with h1 h2
  · exact h
  · exact ⟨h.1, new_period_in_bounds ema total_util jb h⟩
  · exact h

theorem adaptive_loop_in_bounds (ema total_util : f32) (now_us : Nat → Int) (i : Nat)
    (jobs : List job_desc_t) (lasts : List Nat) (h : ∀ jb ∈ jobs, job_in_bounds jb) :
    ∀ jb ∈ (adaptive_loop g_adapt_cfg ema total_util now_us i jobs lasts).1,
      job_in_bounds jb := by
  induction jobs generalizing i lasts with
  | nil =>
    intro jb hjb
    unfold adaptive_loop at hjb
    exact absurd hjb (List.not_mem_nil jb)
  | cons j js ih =>
    cases lasts with
    | nil =>
      unfold adaptive_loop
      exact h
    | cons l ls =>
      intro jb hjb
      unfold adaptive_loop at hjb
      rcases List.mem_cons.mp hjb with e | hmem
      · rw [e]
        exact adaptive_decide_in_bounds ema total_util _ j l (h j (List.mem_cons_self _ _))
      · exact ih (i + 1) ls (fun x hx => h x (List.mem_cons_of_mem _ hx)) jb hmem

theorem observe_all_in_bounds (obs : Nat → job_obs) (i : Nat) (jobs : List job_desc_t)
    (h : ∀ jb ∈ jobs, job_in_bounds jb) :
    ∀ jb ∈ observe_all obs i jobs, job_in_bounds jb := by
  induction jobs generalizing i with
  | nil =>
    intro jb hjb
    exact absurd hjb (List.not_mem_nil jb)
  | cons j js ih =>
    intro jb hjb
    unfold observe_all at hjb
    rcases List.mem_cons.mp hjb with e | hmem
    · rw [e]
      exact h j (List.mem_cons_self _ _)
    · exact ih (i + 1) (fun x hx => h x (List.mem_cons_of_mem _ hx)) jb hmem

theorem adaptive_cycle_in_bounds (inp : cycle_input) (s : adapt_state)
    (h : ∀ jb ∈ s.jobs, job_in_bounds jb) :
    ∀ jb ∈ (adaptive_cycle inp s).jobs, job_in_bounds jb := by
  unfold adaptive_cycle
  apply adaptive_loop_in_bounds
  intro jb hjb
  unfold snapshot_phase at hjb
  obtain ⟨j, hj, e⟩ := List.mem_map.mp hjb
  rw [← e]
  exact h j hj

theorem adaptive_run_in_bounds (events : List cycle_event) (s : adapt_state)
    (h : ∀ jb ∈ s.jobs, job_in_bounds jb) :
    ∀ jb ∈ (adaptive_run events s).jobs, job_in_bounds jb := by
  induction events generalizing s with
  | nil => exact h
  | cons e rest ih =>
    unfold adaptive_run
    apply ih
    apply adaptive_cycle_in_bounds
    exact observe_all_in_bounds e.obs 0 s.jobs h

/-- Claim C1 (period clamping): starting from the configured job table, after any
sequence of control cycles, with any values of the counters, `wcet_ms`, queue
lengths and clock, every job has
`min_period_ms <= period_ms <= max_period_ms`. -/
theorem period_clamped (events : List cycle_event) :
    ∀ jb ∈ (adaptive_run events adapt_init).jobs,
      jb.min_period_ms ≤ jb.period_ms ∧ jb.period_ms ≤ jb.max_period_ms := by
  intro jb hjb
  have h0 : ∀ jb ∈ adapt_init.jobs, job_in_bounds jb := by
    unfold adapt_init g_jobs job_init job_in_bounds
    decide
  exact (adaptive_run_in_bounds events adapt_init h0 jb hjb).2
set_option maxRecDepth 100000 in
/-- Instance of the clamping theorem: one cycle at 6 s with full worker queues
relaxes job A from 50 ms to 60 ms, within its bounds 30..120. -/
theorem period_clamped_witness :
    job_init 0 3 60 12 40 30 120 ∈ (adaptive_run [ex_event 6000000] adapt_init).jobs ∧
      ((job_init 0 3 60 12 40 30 120).min_period_ms ≤
          (job_init 0 3 60 12 40 30 120).period_ms ∧
        (job_init 0 3 60 12 40 30 120).period_ms ≤
          (job_init 0 3 60 12 40 30 120).max_period_ms) :=
  ⟨by decide,
    period_clamped [ex_event 6000000] (job_init 0 3 60 12 40 30 120) (by decide)⟩

/-! ## Controller: cooldown -/

theorem adaptive_loop_getElem (ema total_util : f32) (now_us : Nat → Int)
    (jobs : List job_desc_t) (lasts : List Nat) (k i : Nat) :
    (adaptive_loop g_adapt_cfg ema total_util now_us k jobs lasts).1[i]? =
        (match jobs[i]?, lasts[i]? with
          | some jb, some last =>
            some (adaptive_decide g_adapt_cfg ema total_util (millis (now_us (k + i))) jb last).1
          | r, _ => r) ∧
      (adaptive_loop g_adapt_cfg ema total_util now_us k jobs lasts).2[i]? =
        (match jobs[i]?, lasts[i]? with
          | some jb, some last =>
            some (adaptive_decide g_adapt_cfg ema total_util (millis (now_us (k + i))) jb last).2
          | _, r => r) := by
  induction jobs generalizing lasts k i with
  | nil =>
    unfold adaptive_loop
    simp
  | cons j js ih =>
    cases lasts with
    | nil =>
      unfold adaptive_loop
      cases hj : (j :: js)[i]? <;> simp
    | cons l ls =>
      unfold adaptive_loop
      cases i with
      | zero => simp
      | succ i =>
        have h := ih ls (k + 1) i
        have e : k + 1 + i = k + (i + 1) := by omega
        rw [e] at h
        simp only [List.getElem?_cons_succ]
        exact h
theorem observe_all_getElem (obs : Nat → job_obs) (k : Nat) (jobs : List job_desc_t)
    (i : Nat) :
    (observe_all obs k jobs)[i]? = jobs[i]?.map (fun jb => observe jb (obs (k + i))) := by
  induction jobs generalizing k i with
  | nil => simp [observe_all]
  | cons j js ih =>
    unfold observe_all
    cases i with
    | zero => simp
    | succ i =>
      simp only [List.getElem?_cons_succ]
      rw [ih (k + 1) i]
      have e : k + 1 + i = k + (i + 1) := by omega
      rw [e]

theorem adaptive_decide_cases (ema total_util : f32) (now_ms : Nat) (jb : job_desc_t)
    (last : Nat) :
    ((adaptive_decide g_adapt_cfg ema total_util now_ms jb last).1.period_ms = jb.period_ms ∧
        (adaptive_decide g_adapt_cfg ema total_util now_ms jb last).2 = last) ∨
      ((adaptive_decide g_adapt_cfg ema total_util now_ms jb last).1.period_ms ≠ jb.period_ms ∧
        (adaptive_decide g_adapt_cfg ema total_util now_ms jb last).2 = now_ms ∧
        g_adapt_cfg.cooldown_ms ≤ (now_ms + U32_MOD - last) % U32_MOD) := by
  unfold adaptive_decide
  split_ifs with h1 h2
  · exact Or.inl ⟨rfl, rfl⟩
  · exact Or.inr ⟨h2, rfl, Nat.le_of_not_lt h1⟩
  · exact Or.inl ⟨rfl, rfl⟩

theorem cycle_period_step (e : cycle_event) (s : adapt_state) (i : Nat) :
    (period_at (adaptive_cycle e.inp (cycle_start e s)).jobs i ≠
        period_at (cycle_start e s).jobs i →
      ∃ last, s.last_adjust_ms[i]? = some last ∧
        g_adapt_cfg.cooldown_ms ≤ (millis (e.inp.now_us i) + U32_MOD - last) % U32_MOD ∧
        (adaptive_cycle e.inp (cycle_start e s)).last_adjust_ms[i]? =
          some (millis (e.inp.now_us i))) ∧
    (period_at (adaptive_cycle e.inp (cycle_start e s)).jobs i =
        period_at (cycle_start e s).jobs i →
      (adaptive_cycle e.inp (cycle_start e s)).last_adjust_ms[i]? =
        s.last_adjust_ms[i]?) := by
  have hloop := adaptive_loop_getElem
    (ema_update (cycle_start e s).ema_qdepth (qdepth_inst e.inp.qlens))
    (snapshot_phase (cycle_start e s).jobs).2 e.inp.now_us
    (snapshot_phase (cycle_start e s).jobs).1 (cycle_start e s).last_adjust_ms 0 i
  have hj : (adaptive_cycle e.inp (cycle_start e s)).jobs =
      (adaptive_loop g_adapt_cfg
        (ema_update (cycle_start e s).ema_qdepth (qdepth_inst e.inp.qlens))
        (snapshot_phase (cycle_start e s).jobs).2 e.inp.now_us 0
        (snapshot_phase (cycle_start e s).jobs).1 (cycle_start e s).last_adjust_ms).1 := rfl
  have hl : (adaptive_cycle e.inp (cycle_start e s)).last_adjust_ms =
      (adaptive_loop g_adapt_cfg
        (ema_update (cycle_start e s).ema_qdepth (qdepth_inst e.inp.qlens))
        (snapshot_phase (cycle_start e s).jobs).2 e.inp.now_us 0
        (snapshot_phase (cycle_start e s).jobs).1 (cycle_start e s).last_adjust_ms).2 := rfl
  have hls : (cycle_start e s).last_adjust_ms = s.last_adjust_ms := rfl
  have hsn : (snapshot_phase (cycle_start e s).jobs).1[i]? =
      (cycle_start e s).jobs[i]?.map snapshot_job := by
    unfold snapshot_phase
    simp
  unfold period_at
  rw [hj, hl, hloop.1, hloop.2, hsn, hls, Nat.zero_add]
  cases hjb : (cycle_start e s).jobs[i]? with
  | none => simp
  | some jb =>
    cases hlast : s.last_adjust_ms[i]? with
    | none => simp [snapshot_job]
    | some last =>
      simp only [Option.map_some']
      have hp : (snapshot_job jb).period_ms = jb.period_ms := rfl
      rcases adaptive_decide_cases
        (ema_update (cycle_start e s).ema_qdepth (qdepth_inst e.inp.qlens))
        (snapshot_phase (cycle_start e s).jobs).2 (millis (e.inp.now_us i))
        (snapshot_job jb) last with ⟨c1, c2⟩ | ⟨c1, c2, c3⟩
      · rw [hp] at c1
        constructor
        · intro hne
          exact absurd (congrArg some c1) hne
        · intro _
          rw [c2]
      · rw [hp] at c1
        constructor
        · intro _
          exact ⟨last, rfl, c3, by rw [c2]⟩
        · intro heq
          exact absurd (Option.some.inj heq) c1
theorem millis_eq (t : Int) (h0 : 0 ≤ t) (h1 : t < 9223372036854775808) :
    millis t = (t.toNat / 1000) % U32_MOD := by
  unfold millis
  have h2 : t % (U64_MOD : Int) = t := by
    apply Int.emod_eq_of_lt h0
    unfold U64_MOD
    omega
  rw [h2]

theorem period_changes_chain (i : Nat) (events : List cycle_event) (s : adapt_state)
    (T0 : Nat)
    (hlast : ∀ last, s.last_adjust_ms[i]? = some last → last = T0 % U32_MOD)
    (hrange : ∀ e ∈ events, 0 ≤ e.inp.now_us i ∧ e.inp.now_us i < 9223372036854775808)
    (hT0 : ∀ e ∈ events, T0 ≤ cycle_ms e i)
    (hmono : events.Pairwise (fun e1 e2 => e1.inp.now_us i ≤ e2.inp.now_us i)) :
    List.Chain (fun a b => a + 5000 ≤ b) T0 (period_changes i events s) := by
  induction events generalizing s T0 with
  | nil => exact List.Chain.nil
  | cons e rest ih =>
    have hstep := cycle_period_step e s i
    have hr := hrange e (List.mem_cons_self _ _)
    have hm : millis (e.inp.now_us i) = cycle_ms e i % U32_MOD := millis_eq _ hr.1 hr.2
    have hmono' := List.pairwise_cons.mp hmono
    have hrange' : ∀ e' ∈ rest,
        0 ≤ e'.inp.now_us i ∧ e'.inp.now_us i < 9223372036854775808 :=
      fun e' he' => hrange e' (List.mem_cons_of_mem _ he')
    unfold period_changes
    by_cases hch : period_at (adaptive_cycle e.inp (cycle_start e s)).jobs i ≠
        period_at (cycle_start e s).jobs i
    · rw [if_pos hch]
      obtain ⟨last, h1, h2, h3⟩ := hstep.1 hch
      have hl := hlast last h1
      have hT := hT0 e (List.mem_cons_self _ _)
      refine List.Chain.cons ?_ (ih _ (cycle_ms e i) ?_ hrange' ?_ hmono'.2)
      · rw [hm, hl] at h2
        have hc : g_adapt_cfg.cooldown_ms = 5000 := rfl
        rw [hc] at h2
        unfold U32_MOD at h2
        omega
      · intro last' hl'
        rw [h3, hm] at hl'
        exact (Option.some.inj hl').symm
      · intro e' he'
        have hle := hmono'.1 e' he'
        have hr' := hrange' e' he'
        unfold cycle_ms
        apply Nat.div_le_div_right
        omega
    · rw [if_neg hch]
      have heq := hstep.2 (not_not.mp hch)
      refine ih _ T0 ?_ hrange' (fun e' he' => hT0 e' (List.mem_cons_of_mem _ he')) hmono'.2
      intro last' hl'
      rw [heq] at hl'
      exact hlast last' hl'

/-- Claim C2 (cooldown): in every run of the controller whose clock readings
are non-negative `int64_t` values that never decrease, two successive changes
of the period of job `i` happen at clock readings at least `cooldown_ms`
(5000 ms) apart. -/
theorem cooldown_respected (events : List cycle_event) (i : Nat)
    (hrange : ∀ e ∈ events, 0 ≤ e.inp.now_us i ∧ e.inp.now_us i < 9223372036854775808)
    (hmono : events.Pairwise (fun e1 e2 => e1.inp.now_us i ≤ e2.inp.now_us i)) :
    g_adapt_cfg.cooldown_ms = 5000 ∧
      List.Chain' (fun a b => a + g_adapt_cfg.cooldown_ms ≤ b)
        (period_changes i events adapt_init) := by
  refine ⟨rfl, ?_⟩
  have h := period_changes_chain i events adapt_init 0 (by
      intro last hl
      unfold adapt_init at hl
      simp only at hl
      have h3 : ∀ (j : Nat) (x : Nat), ([0, 0, 0] : List Nat)[j]? = some x → x = 0 := by
        intro j x hx
        match j, hx with
        | 0, hx => exact (Option.some.inj hx).symm
        | 1, hx => exact (Option.some.inj hx).symm
        | 2, hx => exact (Option.some.inj hx).symm
        | _ + 3, hx => exact Option.noConfusion hx
      rw [h3 i last hl]
      rfl) hrange (fun _ _ => Nat.zero_le _) hmono
  exact (List.chain'_cons'.mp h).2
set_option maxRecDepth 100000 in
/-- Instance of the cooldown theorem: cycles at 6 s, 8 s and 12 s with full queues
change the period of job A at 6000 ms and at 12000 ms. -/
theorem cooldown_respected_witness :
    period_changes 0 [ex_event 6000000, ex_event 8000000, ex_event 12000000] adapt_init =
        [6000, 12000] ∧
      g_adapt_cfg.cooldown_ms = 5000 ∧
      List.Chain' (fun a b => a + g_adapt_cfg.cooldown_ms ≤ b)
        (period_changes 0 [ex_event 6000000, ex_event 8000000, ex_event 12000000]
          adapt_init) :=
  ⟨by decide,
    cooldown_respected [ex_event 6000000, ex_event 8000000, ex_event 12000000] 0
      (by decide) (by decide)⟩
/-! ## Dispatch to a full worker queue -/

/-- Claim C5 evaluated on the code: with all three jobs due at time 0 and both
worker queues full, the iteration releases the three jobs (first ready item:
job 0 with `release_us = 0`), no send succeeds and the queues are unchanged,
every job has `releases = 1` and `next_release_us` one period ahead; the ready
list of an iteration at time 10000 is empty, and at no later time does a ready
list hold an item with `release_us = 0`: the release is dropped. -/
theorem release_lost_on_full_queue :
    (release_phase 0 ex_sched_full.jobs).2 =
        [⟨0, 3, 40000, 0⟩, ⟨1, 2, 60000, 0⟩, ⟨2, 1, 150000, 0⟩] ∧
      (scheduler_tick 0 ex_sched_full).q_worker = ex_sched_full.q_worker ∧
      (scheduler_tick 0 ex_sched_full).jobs.map (fun jb => (jb.releases, jb.next_release_us)) =
        [(1, 50000), (1, 100000), (1, 200000)] ∧
      (release_phase 10000 (scheduler_tick 0 ex_sched_full).jobs).2 = [] ∧
      (∀ tnow : Int, ∀ r ∈ (release_phase tnow (scheduler_tick 0 ex_sched_full).jobs).2,
        r.release_us ≠ 0) := by
  refine ⟨by decide, by decide, by decide, by decide, ?_⟩
  intro tnow r hr
  have hjobs : (scheduler_tick 0 ex_sched_full).jobs =
      [release_job (job_init 0 3 50 12 40 30 120), release_job (job_init 1 2 100 20 60 60 300),
        release_job (job_init 2 1 200 60 150 120 600)] := by
    decide
  rw [hjobs, release_phase_snd] at hr
  obtain ⟨jb, hjb, e⟩ := List.mem_map.mp hr
  have hmem := (List.mem_filter.mp hjb).1
  rw [← e]
  simp only [List.mem_cons, List.mem_singleton, List.not_mem_nil, or_false] at hmem
  rcases hmem with h | h | h <;> rw [h] <;> decide
/-! ## Release times increase -/

theorem set_periods_getElem (period : Nat → Nat) (k : Nat) (jobs : List job_desc_t)
    (i : Nat) :
    (set_periods period k jobs)[i]? =
      jobs[i]?.map (fun jb => { jb with period_ms := period (k + i) }) := by
  induction jobs generalizing k i with
  | nil => simp [set_periods]
  | cons j js ih =>
    unfold set_periods
    cases i with
    | zero => simp
    | succ i =>
      simp only [List.getElem?_cons_succ]
      rw [ih (k + 1) i]
      have e : k + 1 + i = k + (i + 1) := by omega
      rw [e]

theorem collect_phase_next_release (jobs : List job_desc_t) (q : List completion_t)
    (i : Nat) :
    next_release_at (collect_phase jobs q) i = next_release_at jobs i := by
  induction q generalizing jobs with
  | nil => rfl
  | cons c q ih =>
    have hstep : collect_phase jobs (c :: q) = collect_phase (collect_one jobs c) q := rfl
    rw [hstep, ih (collect_one jobs c)]
    unfold next_release_at
    cases hj : jobs[i]? with
    | none =>
      have hlen : (collect_one jobs c).length = jobs.length := by
        unfold collect_one
        cases job_at jobs c.job_id <;> simp
      have hn : (collect_one jobs c)[i]? = none := by
        rw [List.getElem?_eq_none_iff] at hj ⊢
        omega
      rw [hn]
    | some jb =>
      rw [collect_one_getElem jobs c i jb hj]
      by_cases e : (i : Int) = c.job_id
      · simp only [e, if_true, Option.map_some', account_job]
      · simp only [e, if_false, Option.map_some']

theorem release_phase_getElem (tnow : Int) (jobs : List job_desc_t) (i : Nat) :
    (release_phase tnow jobs).1[i]? =
      jobs[i]?.map (fun jb => if tnow ≥ jb.next_release_us then release_job jb else jb) := by
  rw [release_phase_fst, List.getElem?_map]

theorem release_trace_chain (i : Nat) (inputs : List tick_input) (s : sched_state)
    (cur : Int) (hcur : next_release_at s.jobs i = some cur)
    (hP : ∀ inp ∈ inputs, 0 < inp.period i) :
    List.Chain (fun a b => a < b) cur (release_trace i inputs s) := by
  induction inputs generalizing s cur with
  | nil => exact List.Chain.nil
  | cons inp rest ih =>
    have hpos := hP inp (List.mem_cons_self _ _)
    have hP' : ∀ inp' ∈ rest, 0 < inp'.period i :=
      fun inp' h => hP inp' (List.mem_cons_of_mem _ h)
    unfold next_release_at at hcur
    cases hj : s.jobs[i]? with
    | none =>
      rw [hj] at hcur
      exact Option.noConfusion hcur
    | some jb =>
      rw [hj] at hcur
      have hc : jb.next_release_us = cur := Option.some.inj hcur
      have h0 : (tick_start inp s).jobs[i]? = some { jb with period_ms := inp.period i } := by
        unfold tick_start
        simp only
        rw [set_periods_getElem, hj, Nat.zero_add]
        rfl
      have h1 : next_release_at (scheduler_tick inp.tnow (tick_start inp s)).jobs i =
          some (if inp.tnow ≥ cur then cur + (inp.period i : Int) * 1000 else cur) := by
        unfold scheduler_tick
        simp only
        rw [collect_phase_next_release]
        unfold next_release_at
        rw [release_phase_getElem, h0]
        simp only [Option.map_some', hc]
        by_cases hd : inp.tnow ≥ cur
        · simp only [hd, if_true, release_job, hc]
        · simp only [hd, if_false, hc]
      have hdue : due_at inp.tnow (tick_start inp s).jobs i = decide (inp.tnow ≥ cur) := by
        unfold due_at
        rw [h0]
        simp only [hc]
      unfold release_trace
      rw [hdue]
      by_cases hd : inp.tnow ≥ cur
      · rw [if_pos (decide_eq_true hd)]
        rw [if_pos hd] at h1
        rw [h1, Option.getD_some]
        refine List.Chain.cons ?_ (ih _ _ h1 hP')
        omega
      · rw [if_neg (by simpa using hd)]
        rw [if_neg hd] at h1
        exact ih _ _ h1 hP'

/-- Claim C7 (monotonic release): a release of a job whose period lies within
the bounds of a row of the configured table makes `next_release_us` strictly
greater; and in every run of the scheduler from start time `t0` in which the
controller keeps the period of job `i` within its bounds, the values
`next_release_us` of job `i` takes after its successive releases are strictly
increasing, starting above `t0`. -/
theorem release_monotonic (t0 : Int) (inputs : List tick_input) (i : Nat)
    (hi : i < NUM_JOBS)
    (hP : ∀ inp ∈ inputs, ∀ jb, g_jobs[i]? = some jb →
      jb.min_period_ms ≤ inp.period i ∧ inp.period i ≤ jb.max_period_ms) :
    (∀ jb : job_desc_t, job_in_bounds jb →
        jb.next_release_us < (release_job jb).next_release_us) ∧
      List.Chain (fun a b => a < b) t0 (release_trace i inputs (sched_start t0)) := by
  constructor
  · intro jb hjb
    obtain ⟨hrow, hlo, _⟩ := hjb
    unfold release_job
    simp only
    omega
  · apply release_trace_chain
    · unfold next_release_at sched_start g_jobs
      unfold NUM_JOBS at hi
      match i, hi with
      | 0, _ => rfl
      | 1, _ => rfl
      | 2, _ => rfl
    · intro inp hinp
      unfold NUM_JOBS at hi
      match i, hi with
      | 0, _ => exact lt_of_lt_of_le (by decide) (hP inp hinp _ rfl).1
      | 1, _ => exact lt_of_lt_of_le (by decide) (hP inp hinp _ rfl).1
      | 2, _ => exact lt_of_lt_of_le (by decide) (hP inp hinp _ rfl).1
/-- Instance of the release theorem: job A is released at 0 and at 50000. -/
theorem release_monotonic_witness :
    release_trace 0 [ex_tick 0, ex_tick 10000, ex_tick 50000] (sched_start 0) =
        [50000, 100000] ∧
      ((∀ jb : job_desc_t, job_in_bounds jb →
          jb.next_release_us < (release_job jb).next_release_us) ∧
        List.Chain (fun a b => a < b) 0
          (release_trace 0 [ex_tick 0, ex_tick 10000, ex_tick 50000] (sched_start 0))) :=
  ⟨by decide,
    release_monotonic 0 [ex_tick 0, ex_tick 10000, ex_tick 50000] 0 (by decide) (by
      intro inp hinp jb hjb
      have hjb' : jb = job_init 0 3 50 12 40 30 120 := (Option.some.inj hjb).symm
      rw [hjb']
      simp only [List.mem_cons, List.mem_singleton, List.not_mem_nil, or_false] at hinp
      rcases hinp with h | h | h <;> rw [h] <;> decide)⟩

/-! ## Worker: fields carried from the ready item to the completion record -/

theorem dispatch_phase_cmds (jobs : List job_desc_t) (ready : List ready_item_t) (d : Nat)
    (qs : List (List worker_cmd_t)) :
    ∀ q ∈ (dispatch_phase jobs ready d qs).2, ∀ cmd ∈ q,
      (∃ q0 ∈ qs, cmd ∈ q0) ∨
        ∃ r ∈ ready, ∃ jb, job_at jobs r.job_id = some jb ∧ cmd = cmd_of jb r := by
  induction ready generalizing d qs with
  | nil =>
    intro q hq cmd hcmd
    exact Or.inl ⟨q, hq, hcmd⟩
  | cons r rest ih =>
    intro q hq cmd hcmd
    unfold dispatch_phase at hq
    by_cases hb : d < DISPATCH_BUDGET
    · rw [if_pos hb] at hq
      cases hj : job_at jobs r.job_id with
      | none =>
        rw [hj] at hq
        exact Or.inl ⟨q, hq, hcmd⟩
      | some jb =>
        rw [hj] at hq
        simp only at hq
        by_cases hlen : (qs.getD (select_worker (qs.map List.length)) []).length
            < WORKER_QUEUE_LEN
        · rw [if_pos hlen] at hq
          rcases ih _ _ q hq cmd hcmd with ⟨q0, hq0, hc0⟩ | ⟨r', hr', jb', h1, h2⟩
          · rcases List.mem_or_eq_of_mem_set hq0 with hold | hnew
            · exact Or.inl ⟨q0, hold, hc0⟩
            · rw [hnew] at hc0
              rcases List.mem_append.mp hc0 with hc1 | hc1
              · left
                rw [List.getD_eq_getElem?_getD] at hc1
                cases hw : qs[select_worker (qs.map List.length)]? with
                | none =>
                  rw [hw] at hc1
                  exact absurd hc1 (List.not_mem_nil cmd)
                | some qw =>
                  rw [hw] at hc1
                  exact ⟨qw, List.getElem?_mem hw, hc1⟩
              · right
                exact ⟨r, List.mem_cons_self _ _, jb, hj, List.mem_singleton.mp hc1⟩
          · exact Or.inr ⟨r', List.mem_cons_of_mem _ hr', jb', h1, h2⟩
        · rw [if_neg hlen] at hq
          rcases ih _ _ q hq cmd hcmd with h | ⟨r', hr', jb', h1, h2⟩
          · exact Or.inl h
          · exact Or.inr ⟨r', List.mem_cons_of_mem _ hr', jb', h1, h2⟩
    · rw [if_neg hb] at hq
      exact Or.inl ⟨q, hq, hcmd⟩

/-- Claim C11 (field preservation through the worker): every command that the
dispatch phase puts into a worker queue carries `job_id`, `release_us` and
`abs_deadline_us` of a ready item of this iteration; the command a worker
receives is one of its queue; the record the worker builds for a command carries
the same `job_id`, `release_us` and `abs_deadline_us` and adds only
`finish_us`; and the worker's send adds at most this record to `q_complete`. -/
theorem worker_fields_preserved (jobs : List job_desc_t) (ready : List ready_item_t)
    (d : Nat) (qs : List (List worker_cmd_t)) :
    (∀ q ∈ (dispatch_phase jobs ready d qs).2, ∀ cmd ∈ q,
      (∃ q0 ∈ qs, cmd ∈ q0) ∨
        ∃ r ∈ ready, cmd.job_id = r.job_id ∧ cmd.release_us = r.release_us ∧
          cmd.abs_deadline_us = r.abs_deadline_us) ∧
      (∀ (wid : Nat) (s s' : sched_state) (cmd : worker_cmd_t),
        worker_receive wid s = some (cmd, s') → ∃ q ∈ s.q_worker, cmd ∈ q) ∧
      (∀ (cmd : worker_cmd_t) (fin_us : Int) (s : sched_state),
        (completion_of cmd fin_us).job_id = cmd.job_id ∧
          (completion_of cmd fin_us).release_us = cmd.release_us ∧
          (completion_of cmd fin_us).abs_deadline_us = cmd.abs_deadline_us ∧
          (completion_of cmd fin_us).finish_us = fin_us ∧
          (∀ c ∈ (worker_send cmd fin_us s).q_complete,
            c ∈ s.q_complete ∨ c = completion_of cmd fin_us)) := by
  refine ⟨?_, ?_, ?_⟩
  · intro q hq cmd hcmd
    rcases dispatch_phase_cmds jobs ready d qs q hq cmd hcmd with h | ⟨r, hr, jb, _, e⟩
    · exact Or.inl h
    · right
      refine ⟨r, hr, ?_⟩
      rw [e]
      exact ⟨rfl, rfl, rfl⟩
  · intro wid s s' cmd h
    unfold worker_receive at h
    cases hq : s.q_worker[wid]? with
    | none =>
      rw [hq] at h
      exact Option.noConfusion h
    | some q =>
      rw [hq] at h
      cases q with
      | nil => exact Option.noConfusion h
      | cons c rest =>
        simp only [Option.some.injEq, Prod.mk.injEq] at h
        refine ⟨c :: rest, List.getElem?_mem hq, ?_⟩
        rw [← h.1]
        exact List.mem_cons_self _ _
  · intro cmd fin_us s
    refine ⟨rfl, rfl, rfl, rfl, ?_⟩
    intro c hc
    unfold worker_send at hc
    by_cases h : s.q_complete.length < COMPLETE_QUEUE_LEN
    · rw [if_pos h] at hc
      rcases List.mem_append.mp hc with h1 | h1
      · exact Or.inl h1
      · exact Or.inr (List.mem_singleton.mp h1)
    · rw [if_neg h] at hc
      exact Or.inl hc

/-! ## Completion channel -/

set_option maxRecDepth 100000 in
/-- Claim C12 fails as stated: with `COMPLETE_QUEUE_LEN` = 32 records in
`q_complete`, the worker's send of the record of a finished command of job A
leaves the state as it is; the record is not in the queue, and the next drain
counts 32 completions of job C and none of job A. -/
theorem completion_dropped_when_full :
    ex_complete_full.q_complete.length = COMPLETE_QUEUE_LEN ∧
      worker_send ⟨0, 3, 12, 40000, 0⟩ 12000 ex_complete_full = ex_complete_full ∧
      completion_of ⟨0, 3, 12, 40000, 0⟩ 12000 ∉
        (worker_send ⟨0, 3, 12, 40000, 0⟩ 12000 ex_complete_full).q_complete ∧
      (collect_phase g_jobs
          (worker_send ⟨0, 3, 12, 40000, 0⟩ 12000 ex_complete_full).q_complete).map
        (fun jb => jb.completions) = [0, 0, 32] := by
  decide

/-- Claim C12 as amended: when `q_complete` holds fewer than
`COMPLETE_QUEUE_LEN` records at the moment of the send, the record of the
finished command is appended to it, nothing else changes, and a drain of the
queue counts one completion more for the owning job than it would without the
record. -/
theorem completion_delivered_when_room (cmd : worker_cmd_t) (fin_us : Int)
    (s : sched_state) (h : s.q_complete.length < COMPLETE_QUEUE_LEN) :
    (worker_send cmd fin_us s).q_complete = s.q_complete ++ [completion_of cmd fin_us] ∧
      (worker_send cmd fin_us s).jobs = s.jobs ∧
      (worker_send cmd fin_us s).q_worker = s.q_worker ∧
      (∀ (jobs : List job_desc_t) (k : Nat) (jb1 : job_desc_t),
        (collect_phase jobs s.q_complete)[k]? = some jb1 → (k : Int) = cmd.job_id →
        ∃ jb2, (collect_phase jobs (worker_send cmd fin_us s).q_complete)[k]? = some jb2 ∧
          jb2.completions = (jb1.completions + 1) % U32_MOD) := by
  have hs : worker_send cmd fin_us s =
      { s with q_complete := s.q_complete ++ [completion_of cmd fin_us] } := by
    unfold worker_send
    rw [if_pos h]
  rw [hs]
  refine ⟨rfl, rfl, rfl, ?_⟩
  intro jobs k jb1 hk e
  have hfold : collect_phase jobs (s.q_complete ++ [completion_of cmd fin_us]) =
      collect_one (collect_phase jobs s.q_complete) (completion_of cmd fin_us) := by
    unfold collect_phase
    rw [List.foldl_append]
    rfl
  simp only
  rw [hfold, collect_one_getElem _ _ k jb1 hk]
  have e' : (k : Int) = (completion_of cmd fin_us).job_id := e
  rw [if_pos e']
  exact ⟨_, rfl, rfl⟩

/-- Instance of the amended delivery theorem: at start-up the completion queue is empty. -/
theorem completion_delivered_when_room_witness :
    (worker_send ⟨0, 3, 12, 40000, 0⟩ 12000 (sched_start 0)).q_complete =
        [⟨0, 12000, 40000, 0⟩] ∧
      (collect_phase g_jobs
          (worker_send ⟨0, 3, 12, 40000, 0⟩ 12000 (sched_start 0)).q_complete).map
        (fun jb => jb.completions) = [1, 0, 0] := by
  obtain ⟨h1, _, _, _⟩ :=
    completion_delivered_when_room ⟨0, 3, 12, 40000, 0⟩ 12000 (sched_start 0) (by decide)
  exact ⟨h1, by decide⟩

/-! ## Controller: snapshot and reset -/

/-- Claim C13 (snapshot and reset): step 1 of a control cycle keeps the number
of jobs, and for every job the five snapshot fields hold the values the five
live counters had before the step, the five live counters are 0, and `id`,
`priority`, `period_ms`, `wcet_ms`, `deadline_ms`, the period bounds and
`next_release_us` are unchanged. -/
theorem snapshot_reset (jobs : List job_desc_t) :
    (snapshot_phase jobs).1.length = jobs.length ∧
      (∀ (i : Nat) (jb : job_desc_t), jobs[i]? = some jb →
        ∃ jb', (snapshot_phase jobs).1[i]? = some jb' ∧
          jb'.snap_releases = jb.releases ∧
          jb'.snap_completions = jb.completions ∧
          jb'.snap_deadline_miss = jb.deadline_miss ∧
          jb'.snap_sum_response_ms = jb.sum_response_ms ∧
          jb'.snap_max_response_ms = jb.max_response_ms ∧
          jb'.releases = 0 ∧ jb'.completions = 0 ∧ jb'.deadline_miss = 0 ∧
          jb'.sum_response_ms = 0 ∧ jb'.max_response_ms = 0 ∧
          jb'.period_ms = jb.period_ms ∧ jb'.next_release_us = jb.next_release_us ∧
          jb'.wcet_ms = jb.wcet_ms ∧ jb'.deadline_ms = jb.deadline_ms ∧
          jb'.min_period_ms = jb.min_period_ms ∧ jb'.max_period_ms = jb.max_period_ms ∧
          jb'.id = jb.id ∧ jb'.priority = jb.priority) := by
  constructor
  · unfold snapshot_phase
    simp only [List.length_map]
  · intro i jb hi
    refine ⟨snapshot_job jb, ?_, rfl, rfl, rfl, rfl, rfl, rfl, rfl, rfl, rfl, rfl, rfl, rfl,
      rfl, rfl, rfl, rfl, rfl, rfl⟩
    unfold snapshot_phase
    simp only [List.getElem?_map, hi, Option.map_some']

/-! ## Controller: the decision for one job -/

theorem adaptive_decide_eq (cfg : adapt_cfg_t) (ema total_util : f32) (now_ms : Nat)
    (jb : job_desc_t) (last : Nat) :
    adaptive_decide cfg ema total_util now_ms jb last =
      if cfg.cooldown_ms ≤ (now_ms + U32_MOD - last) % U32_MOD ∧
          new_period cfg ema total_util jb ≠ jb.period_ms then
        ({ jb with period_ms := new_period cfg ema total_util jb }, now_ms)
      else (jb, last) := by
  unfold adaptive_decide
  by_cases h1 : (now_ms + U32_MOD - last) % U32_MOD < cfg.cooldown_ms
  · have h1' : ¬ (cfg.cooldown_ms ≤ (now_ms + U32_MOD - last) % U32_MOD) := Nat.not_le.mpr h1
    rw [if_pos h1, if_neg (fun h => h1' h.1)]
  · have h1' : cfg.cooldown_ms ≤ (now_ms + U32_MOD - last) % U32_MOD := Nat.le_of_not_lt h1
    rw [if_neg h1]
    by_cases h2 : new_period cfg ema total_util jb ≠ jb.period_ms
    · rw [if_pos h2, if_pos ⟨h1', h2⟩]
    · rw [if_neg h2, if_neg (fun h => h2 h.2)]

theorem new_period_of_relax (cfg : adapt_cfg_t) (ema total_util : f32) (jb : job_desc_t)
    (h : should_relax cfg ema total_util jb = true) :
    new_period cfg ema total_util jb = relax_period cfg jb.period_ms jb.max_period_ms := by
  unfold new_period
  rw [if_pos h]

/-- Claim C18 (relax precedence): for every configuration and all metric values,
when the relax condition holds the new period is the value of the relax
formula, whether or not the tighten condition holds as well, and this is the
value a decision outside the cooldown writes. -/
theorem relax_precedence (cfg : adapt_cfg_t) (ema total_util : f32) (now_ms : Nat)
    (jb : job_desc_t) (last : Nat) (h : should_relax cfg ema total_util jb = true) :
    new_period cfg ema total_util jb = relax_period cfg jb.period_ms jb.max_period_ms ∧
      (cfg.cooldown_ms ≤ (now_ms + U32_MOD - last) % U32_MOD →
        (adaptive_decide cfg ema total_util now_ms jb last).1.period_ms =
          relax_period cfg jb.period_ms jb.max_period_ms) := by
  have hn := new_period_of_relax cfg ema total_util jb h
  refine ⟨hn, ?_⟩
  intro hc
  rw [adaptive_decide_eq]
  by_cases h2 : new_period cfg ema total_util jb ≠ jb.period_ms
  · rw [if_pos ⟨hc, h2⟩]
    exact hn
  · rw [if_neg (fun h => h2 h.2)]
    rw [← hn]
    exact (not_not.mp h2).symm

/-- Instance of the precedence theorem: with `qdepth_hi = 0.1f`, smoothed depth
0.2 and utilization 50 both conditions hold for job A; the period becomes 60
(relax), not 45 (tighten). -/
theorem relax_precedence_witness :
    should_tighten ex_cfg_overlap (f32_lit 2 10) (f32_lit 50 1) (job_init 0 3 50 12 40 30 120)
        = true ∧
      tighten_period ex_cfg_overlap 50 30 = 45 ∧
      (adaptive_decide ex_cfg_overlap (f32_lit 2 10) (f32_lit 50 1) 6000
          (job_init 0 3 50 12 40 30 120) 0).1.period_ms = 60 := by
  obtain ⟨_, h2⟩ := relax_precedence ex_cfg_overlap (f32_lit 2 10) (f32_lit 50 1) 6000
    (job_init 0 3 50 12 40 30 120) 0 (by decide)
  refine ⟨by decide, by decide, ?_⟩
  rw [h2 (by decide)]
  decide

/-- Claim C19 (cooldown restart only on change): a decision sets
`g_last_adjust_ms[i]` to the current time and `period_ms` to the new period
exactly when the job is outside its cooldown and the computed period differs
from the old one; a job skipped for cooldown, and a job whose computed period
equals the old one, keep both values, and no other field of the job ever
changes.  A relax decision for a job of the configured table that stands at
`max_period_ms` computes the old period. -/
theorem cooldown_restart_only_on_change (cfg : adapt_cfg_t) (ema total_util : f32)
    (now_ms : Nat) (jb : job_desc_t) (last : Nat) :
    (cfg.cooldown_ms ≤ (now_ms + U32_MOD - last) % U32_MOD →
        new_period cfg ema total_util jb ≠ jb.period_ms →
        adaptive_decide cfg ema total_util now_ms jb last =
          ({ jb with period_ms := new_period cfg ema total_util jb }, now_ms)) ∧
      (cfg.cooldown_ms ≤ (now_ms + U32_MOD - last) % U32_MOD →
        new_period cfg ema total_util jb = jb.period_ms →
        adaptive_decide cfg ema total_util now_ms jb last = (jb, last)) ∧
      ((now_ms + U32_MOD - last) % U32_MOD < cfg.cooldown_ms →
        adaptive_decide cfg ema total_util now_ms jb last = (jb, last)) ∧
      ((adaptive_decide cfg ema total_util now_ms jb last).2 ≠ last →
        (adaptive_decide cfg ema total_util now_ms jb last).2 = now_ms ∧
          (adaptive_decide cfg ema total_util now_ms jb last).1.period_ms ≠ jb.period_ms) ∧
      (relax_period g_adapt_cfg 120 120 = 120 ∧ relax_period g_adapt_cfg 300 300 = 300 ∧
        relax_period g_adapt_cfg 600 600 = 600) := by
  refine ⟨?_, ?_, ?_, ?_, by decide⟩
  · intro hc hn
    rw [adaptive_decide_eq, if_pos ⟨hc, hn⟩]
  · intro _ hn
    rw [adaptive_decide_eq, if_neg (fun h => h.2 hn)]
  · intro hc
    rw [adaptive_decide_eq, if_neg (fun h => Nat.not_le.mpr hc h.1)]
  · rw [adaptive_decide_eq]
    by_cases h : cfg.cooldown_ms ≤ (now_ms + U32_MOD - last) % U32_MOD ∧
        new_period cfg ema total_util jb ≠ jb.period_ms
    · rw [if_pos h]
      intro _
      exact ⟨rfl, h.2⟩
    · rw [if_neg h]
      intro hne
      exact absurd rfl hne

/-! ## Controller: the relax and tighten formulas on the configured table -/

set_option maxRecDepth 100000 in
theorem relax_formula_A : ∀ p, p < 121 → 30 ≤ p →
    relax_period g_adapt_cfg p 120 = min ((12 * p + 5) / 10) 120 := by
  decide

set_option maxRecDepth 100000 in
theorem relax_formula_B : ∀ p, p < 301 → 60 ≤ p →
    relax_period g_adapt_cfg p 300 = min ((12 * p + 5) / 10) 300 := by
  decide

set_option maxRecDepth 100000 in
theorem relax_formula_C : ∀ p, p < 601 → 120 ≤ p →
    relax_period g_adapt_cfg p 600 = min ((12 * p + 5) / 10) 600 := by
  decide

set_option maxRecDepth 100000 in
theorem tighten_formula_A : ∀ p, p < 121 → 30 ≤ p →
    tighten_period g_adapt_cfg p 30 = max ((9 * p + 5) / 10) 30 := by
  decide

set_option maxRecDepth 100000 in
theorem tighten_formula_B : ∀ p, p < 301 → 60 ≤ p →
    tighten_period g_adapt_cfg p 60 = max ((9 * p + 5) / 10) 60 := by
  decide

set_option maxRecDepth 100000 in
theorem tighten_formula_C : ∀ p, p < 601 → 120 ≤ p →
    tighten_period g_adapt_cfg p 120 = max ((9 * p + 5) / 10) 120 := by
  decide

theorem round_relax_eq (p M : Nat) :
    ⌊min ((p : ℚ) * (1 + 20 / 100)) (M : ℚ) + 1 / 2⌋₊ = min ((12 * p + 5) / 10) M := by
  have h1 : 10 * ((12 * p + 5) / 10) ≤ 12 * p + 5 := Nat.mul_div_le _ _
  have h2 : 12 * p + 5 < 10 * ((12 * p + 5) / 10 + 1) := by omega
  have h1q : (10 : ℚ) * (((12 * p + 5) / 10 : Nat) : ℚ) ≤ 12 * (p : ℚ) + 5 := by
    exact_mod_cast h1
  have h2q : 12 * (p : ℚ) + 5 < 10 * ((((12 * p + 5) / 10 : Nat) : ℚ) + 1) := by
    exact_mod_cast h2
  by_cases hc : 12 * p ≤ 10 * M
  · have hcq : (p : ℚ) * (1 + 20 / 100) ≤ (M : ℚ) := by
      have : (12 : ℚ) * (p : ℚ) ≤ 10 * (M : ℚ) := by exact_mod_cast hc
      linarith
    rw [min_eq_left hcq, min_eq_left (by omega)]
    rw [Nat.floor_eq_iff (by positivity)]
    constructor <;> linarith
  · have hcq : (M : ℚ) ≤ (p : ℚ) * (1 + 20 / 100) := by
      have : (10 : ℚ) * (M : ℚ) ≤ 12 * (p : ℚ) := by exact_mod_cast (Nat.le_of_lt (Nat.lt_of_not_le hc))
      linarith
    rw [min_eq_right hcq, min_eq_right (by omega)]
    rw [Nat.floor_eq_iff (by positivity)]
    constructor <;> linarith

theorem round_tighten_eq (p m : Nat) :
    ⌊max ((p : ℚ) * (1 - 10 / 100)) (m : ℚ) + 1 / 2⌋₊ = max ((9 * p + 5) / 10) m := by
  have h1 : 10 * ((9 * p + 5) / 10) ≤ 9 * p + 5 := Nat.mul_div_le _ _
  have h2 : 9 * p + 5 < 10 * ((9 * p + 5) / 10 + 1) := by omega
  have h1q : (10 : ℚ) * (((9 * p + 5) / 10 : Nat) : ℚ) ≤ 9 * (p : ℚ) + 5 := by
    exact_mod_cast h1
  have h2q : 9 * (p : ℚ) + 5 < 10 * ((((9 * p + 5) / 10 : Nat) : ℚ) + 1) := by
    exact_mod_cast h2
  by_cases hc : 10 * m ≤ 9 * p
  · have hcq : (m : ℚ) ≤ (p : ℚ) * (1 - 10 / 100) := by
      have : (10 : ℚ) * (m : ℚ) ≤ 9 * (p : ℚ) := by exact_mod_cast hc
      linarith
    rw [max_eq_left hcq, max_eq_left (by omega)]
    rw [Nat.floor_eq_iff (by positivity)]
    constructor <;> linarith
  · have hcq : (p : ℚ) * (1 - 10 / 100) ≤ (m : ℚ) := by
      have : (9 : ℚ) * (p : ℚ) ≤ 10 * (m : ℚ) := by exact_mod_cast (Nat.le_of_lt (Nat.lt_of_not_le hc))
      linarith
    rw [max_eq_right hcq, max_eq_right (by omega)]
    rw [Nat.floor_eq_iff (by positivity)]
    constructor <;> linarith

theorem relax_period_formula (jb : job_desc_t) (hb : job_in_bounds jb) :
    relax_period g_adapt_cfg jb.period_ms jb.max_period_ms =
      ⌊min ((jb.period_ms : ℚ) * (1 + 20 / 100)) (jb.max_period_ms : ℚ) + 1 / 2⌋₊ := by
  rw [round_relax_eq]
  obtain ⟨hrow, hlo, hhi⟩ := hb
  rcases hrow with ⟨e1, e2⟩ | ⟨e1, e2⟩ | ⟨e1, e2⟩
  · rw [e2]
    rw [e1] at hlo
    rw [e2] at hhi
    exact relax_formula_A _ (by omega) hlo
  · rw [e2]
    rw [e1] at hlo
    rw [e2] at hhi
    exact relax_formula_B _ (by omega) hlo
  · rw [e2]
    rw [e1] at hlo
    rw [e2] at hhi
    exact relax_formula_C _ (by omega) hlo

theorem tighten_period_formula (jb : job_desc_t) (hb : job_in_bounds jb) :
    tighten_period g_adapt_cfg jb.period_ms jb.min_period_ms =
      ⌊max ((jb.period_ms : ℚ) * (1 - 10 / 100)) (jb.min_period_ms : ℚ) + 1 / 2⌋₊ := by
  rw [round_tighten_eq]
  obtain ⟨hrow, hlo, hhi⟩ := hb
  rcases hrow with ⟨e1, e2⟩ | ⟨e1, e2⟩ | ⟨e1, e2⟩
  · rw [e1]
    rw [e1] at hlo
    rw [e2] at hhi
    exact tighten_formula_A _ (by omega) hlo
  · rw [e1]
    rw [e1] at hlo
    rw [e2] at hhi
    exact tighten_formula_B _ (by omega) hlo
  · rw [e1]
    rw [e1] at hlo
    rw [e2] at hhi
    exact tighten_formula_C _ (by omega) hlo

/-- Claim C14 (relax step, Scenario C): for a job of the configured table with
its period within its bounds that is outside its cooldown and whose miss rate
`snap_deadline_miss*100/snap_releases` exceeds `miss_hi_pct`, whatever the other
conditions are, the decision leaves
`period_ms = round(min(old_period*(1+0.20), max_period_ms))` (rounding half up);
when this differs from the old period the last-adjust time becomes the current
`millis`, otherwise it is kept.  Examples: 50 -> 60, and 110 -> 120 with
`max_period_ms = 120`. -/
theorem relax_step (ema total_util : f32) (now_ms : Nat) (jb : job_desc_t) (last : Nat)
    (hb : job_in_bounds jb)
    (hcool : g_adapt_cfg.cooldown_ms ≤ (now_ms + U32_MOD - last) % U32_MOD)
    (hmiss : f32_gt (miss_rate_pct jb) g_adapt_cfg.miss_hi_pct = true) :
    (adaptive_decide g_adapt_cfg ema total_util now_ms jb last).1.period_ms =
        ⌊min ((jb.period_ms : ℚ) * (1 + 20 / 100)) (jb.max_period_ms : ℚ) + 1 / 2⌋₊ ∧
      ((adaptive_decide g_adapt_cfg ema total_util now_ms jb last).1.period_ms ≠ jb.period_ms →
        (adaptive_decide g_adapt_cfg ema total_util now_ms jb last).2 = now_ms) ∧
      ((adaptive_decide g_adapt_cfg ema total_util now_ms jb last).1.period_ms = jb.period_ms →
        (adaptive_decide g_adapt_cfg ema total_util now_ms jb last).2 = last) ∧
      relax_period g_adapt_cfg 50 120 = 60 ∧ relax_period g_adapt_cfg 110 120 = 120 := by
  have hr : should_relax g_adapt_cfg ema total_util jb = true := by
    unfold should_relax
    rw [hmiss]
    rfl
  have hn : new_period g_adapt_cfg ema total_util jb =
      ⌊min ((jb.period_ms : ℚ) * (1 + 20 / 100)) (jb.max_period_ms : ℚ) + 1 / 2⌋₊ := by
    rw [new_period_of_relax _ _ _ _ hr]
    exact relax_period_formula jb hb
  rw [adaptive_decide_eq]
  by_cases h2 : new_period g_adapt_cfg ema total_util jb ≠ jb.period_ms
  · rw [if_pos ⟨hcool, h2⟩]
    exact ⟨hn, fun _ => rfl, fun h => absurd h h2, by decide, by decide⟩
  · rw [if_neg (fun h => h2 h.2)]
    refine ⟨?_, fun h => absurd rfl h, fun _ => rfl, by decide, by decide⟩
    rw [← hn]
    exact (not_not.mp h2).symm

/-- Instance of the relax step: job A with 1 miss in 10 releases (10 % > 1.5 %)
at 6000 ms goes from 50 ms to 60 ms and its last-adjust time becomes 6000. -/
theorem relax_step_witness :
    (adaptive_decide g_adapt_cfg (f32_lit 0 1) (f32_lit 74 1) 6000
        { job_init 0 3 50 12 40 30 120 with snap_releases := 10, snap_deadline_miss := 1 }
        0).1.period_ms = 60 ∧
      (adaptive_decide g_adapt_cfg (f32_lit 0 1) (f32_lit 74 1) 6000
        { job_init 0 3 50 12 40 30 120 with snap_releases := 10, snap_deadline_miss := 1 }
        0).2 = 6000 :=
  ⟨by decide,
    (relax_step (f32_lit 0 1) (f32_lit 74 1) 6000
      { job_init 0 3 50 12 40 30 120 with snap_releases := 10, snap_deadline_miss := 1 } 0
      (by unfold job_in_bounds job_init; decide) (by decide) (by decide)).2.1 (by decide)⟩

/-- Claim C15 (tighten step, Scenario D): for a job of the configured table
with its period within its bounds that is outside its cooldown, when the relax
condition is false (all four relax tests fail) and the tighten condition is
true (all four tighten tests hold), the decision leaves
`period_ms = round(max(old_period*(1-0.10), min_period_ms))`, rounding half
up.  Examples: 200 -> 180, and 32 -> 30 with `min_period_ms = 30`. -/
theorem tighten_step (ema total_util : f32) (now_ms : Nat) (jb : job_desc_t) (last : Nat)
    (hb : job_in_bounds jb)
    (hcool : g_adapt_cfg.cooldown_ms ≤ (now_ms + U32_MOD - last) % U32_MOD)
    (hrelax : should_relax g_adapt_cfg ema total_util jb = false)
    (htight : should_tighten g_adapt_cfg ema total_util jb = true) :
    (adaptive_decide g_adapt_cfg ema total_util now_ms jb last).1.period_ms =
        ⌊max ((jb.period_ms : ℚ) * (1 - 10 / 100)) (jb.min_period_ms : ℚ) + 1 / 2⌋₊ ∧
      tighten_period g_adapt_cfg 200 120 = 180 ∧ tighten_period g_adapt_cfg 32 30 = 30 := by
  have hn : new_period g_adapt_cfg ema total_util jb =
      ⌊max ((jb.period_ms : ℚ) * (1 - 10 / 100)) (jb.min_period_ms : ℚ) + 1 / 2⌋₊ := by
    unfold new_period
    rw [hrelax, htight]
    simp only [Bool.false_eq_true, if_false, if_true]
    exact tighten_period_formula jb hb
  rw [adaptive_decide_eq]
  by_cases h2 : new_period g_adapt_cfg ema total_util jb ≠ jb.period_ms
  · rw [if_pos ⟨hcool, h2⟩]
    exact ⟨hn, by decide, by decide⟩
  · rw [if_neg (fun h => h2 h.2)]
    refine ⟨?_, by decide, by decide⟩
    rw [← hn]
    exact (not_not.mp h2).symm

/-- Instance of the tighten step: job C without misses, with empty queues and a
total utilization of 50 % goes from 200 ms to 180 ms. -/
theorem tighten_step_witness :
    (adaptive_decide g_adapt_cfg (f32_lit 0 1) (f32_lit 50 1) 6000
        (job_init 2 1 200 60 150 120 600) 0).1.period_ms = 180 ∧
      (adaptive_decide g_adapt_cfg (f32_lit 0 1) (f32_lit 50 1) 6000
          (job_init 2 1 200 60 150 120 600) 0).1.period_ms =
        ⌊max (((job_init 2 1 200 60 150 120 600).period_ms : ℚ) * (1 - 10 / 100))
          ((job_init 2 1 200 60 150 120 600).min_period_ms : ℚ) + 1 / 2⌋₊ :=
  ⟨by decide,
    (tighten_step (f32_lit 0 1) (f32_lit 50 1) 6000 (job_init 2 1 200 60 150 120 600) 0
      (by unfold job_in_bounds job_init; decide) (by decide) (by decide) (by decide)).1⟩

/-! ## binary32: magnitude of rounded results -/

theorem ilog2_fold_inv (n : Nat) (ks : List Nat) (acc : Nat × Nat)
    (h1 : 1 ≤ acc.1) (h2 : acc.1 * 2 ^ acc.2 ≤ n) :
    1 ≤ (ks.foldl
        (fun (acc : Nat × Nat) k => if 2 ^ k ≤ acc.1 then (acc.1 / 2 ^ k, acc.2 + k) else acc)
        acc).1 ∧
      (ks.foldl
        (fun (acc : Nat × Nat) k => if 2 ^ k ≤ acc.1 then (acc.1 / 2 ^ k, acc.2 + k) else acc)
        acc).1 *
        2 ^ (ks.foldl
          (fun (acc : Nat × Nat) k => if 2 ^ k ≤ acc.1 then (acc.1 / 2 ^ k, acc.2 + k) else acc)
          acc).2 ≤ n := by
  induction ks generalizing acc with
  | nil => exact ⟨h1, h2⟩
  | cons k ks ih =>
    rw [List.foldl_cons]
    apply ih
    · by_cases hk : 2 ^ k ≤ acc.1
      · rw [if_pos hk]
        exact (Nat.le_div_iff_mul_le (Nat.pow_pos (by decide))).mpr (by rw [Nat.one_mul]; exact hk)
      · rw [if_neg hk]
        exact h1
    · by_cases hk : 2 ^ k ≤ acc.1
      · rw [if_pos hk]
        show acc.1 / 2 ^ k * 2 ^ (acc.2 + k) ≤ n
        have e : acc.1 / 2 ^ k * 2 ^ (acc.2 + k) = (acc.1 / 2 ^ k * 2 ^ k) * 2 ^ acc.2 := by
          rw [Nat.pow_add]
          ring
        rw [e]
        exact le_trans (Nat.mul_le_mul_right _ (Nat.div_mul_le_self _ _)) h2
      · rw [if_neg hk]
        exact h2

theorem ilog2_le (n : Nat) (hn : 1 ≤ n) : 2 ^ ilog2 n ≤ n := by
  have h := (ilog2_fold_inv n [256, 128, 64, 32, 16, 8, 4, 2, 1] (n, 0) hn (by simp)).2
  have h1 := (ilog2_fold_inv n [256, 128, 64, 32, 16, 8, 4, 2, 1] (n, 0) hn (by simp)).1
  unfold ilog2
  exact le_trans (Nat.le_mul_of_pos_left _ h1) h

theorem rne_div_ge (a b : Nat) : a / b ≤ rne_div a b := by
  unfold rne_div
  split_ifs
  · exact Nat.le_succ _
  · exact le_refl _

theorem rne_div_le (a b : Nat) : rne_div a b ≤ a / b + 1 := by
  unfold rne_div
  split_ifs
  · exact le_refl _
  · exact Nat.le_succ _

theorem rne_div_of_dvd (a b : Nat) (hb : 0 < b) (h : a % b = 0) : rne_div a b = a / b := by
  unfold rne_div
  rw [h]
  have h1 : ¬ (b < 2 * 0 ∨ (2 * 0 = b ∧ a / b % 2 = 1)) := by omega
  rw [if_neg h1]

/-- The shift `s` that `f32_round` uses for the quotient `q`. -/
theorem round_shift_le (q : Nat) :
    2 ^ (if q < 2 ^ 24 then 0 else ilog2 q - 23) ≤ max q 1 := by
  by_cases hq : q < 2 ^ 24
  · rw [if_pos hq]
    exact le_max_right _ _
  · rw [if_neg hq]
    have h1 : 1 ≤ q := le_trans (Nat.pow_pos (by decide)) (Nat.le_of_not_lt hq)
    have h2 := ilog2_le q h1
    exact le_trans (Nat.pow_le_pow_right (by decide) (Nat.sub_le _ _)) (le_trans h2 (le_max_left _ _))

theorem round_shift_quot (q : Nat) (hq : ¬ q < 2 ^ 24) :
    2 ^ 23 ≤ q / 2 ^ (ilog2 q - 23) := by
  have h1 : 1 ≤ q := le_trans (Nat.pow_pos (by decide)) (Nat.le_of_not_lt hq)
  have h2 := ilog2_le q h1
  by_cases h3 : 23 ≤ ilog2 q
  · rw [Nat.le_div_iff_mul_le (Nat.pow_pos (by decide)), ← Nat.pow_add]
    have e : 23 + (ilog2 q - 23) = ilog2 q := by omega
    rw [e]
    exact h2
  · have e : ilog2 q - 23 = 0 := by omega
    rw [e, Nat.pow_zero, Nat.div_one]
    exact le_trans (by decide) (Nat.le_of_not_lt hq)

theorem rne_div_le_of_le (a b K : Nat) (hb : 0 < b) (h : a ≤ b * K) : rne_div a b ≤ K := by
  have hq : a / b ≤ K := by
    rw [Nat.div_le_iff_le_mul_add_pred hb]
    have : b * K ≤ b * K + (b - 1) := Nat.le_add_right _ _
    exact le_trans h this
  by_cases hlt : a / b < K
  · exact le_trans (rne_div_le a b) hlt
  · have heq : a / b = K := le_antisymm hq (Nat.le_of_not_lt hlt)
    have hmul : b * (a / b) + a % b = a := Nat.div_add_mod a b
    rw [heq] at hmul
    have hmod : a % b = 0 := by omega
    rw [rne_div_of_dvd a b hb hmod, heq]

theorem f32_round_eq (a b : Nat) :
    f32_round a b =
      if rne_div a (b * 2 ^ (if a / b < 2 ^ 24 then 0 else ilog2 (a / b) - 23)) *
          2 ^ (if a / b < 2 ^ 24 then 0 else ilog2 (a / b) - 23) < F32_OVF then
        f32.fin (rne_div a (b * 2 ^ (if a / b < 2 ^ 24 then 0 else ilog2 (a / b) - 23)) *
          2 ^ (if a / b < 2 ^ 24 then 0 else ilog2 (a / b) - 23))
      else f32.inf := rfl

/-- A quotient of at least `2 ^ k` units rounds to at least `2 ^ k` units. -/
theorem f32_round_ge (a b k : Nat) (hb : 0 < b) (h : b * 2 ^ k ≤ a) :
    f32_round a b = f32.inf ∨ ∃ n, f32_round a b = f32.fin n ∧ 2 ^ k ≤ n := by
  have hq : 2 ^ k ≤ a / b := by
    rw [Nat.le_div_iff_mul_le hb, Nat.mul_comm]
    exact h
  have hq1 : 1 ≤ a / b := le_trans (Nat.pow_pos (by decide)) hq
  have hs := round_shift_le (a / b)
  rw [max_eq_left hq1] at hs
  have hn : 2 ^ k ≤ rne_div a (b * 2 ^ (if a / b < 2 ^ 24 then 0 else ilog2 (a / b) - 23)) *
      2 ^ (if a / b < 2 ^ 24 then 0 else ilog2 (a / b) - 23) := by
    generalize (if a / b < 2 ^ 24 then 0 else ilog2 (a / b) - 23) = s at hs ⊢
    have h1 : a / b / 2 ^ s ≤ rne_div a (b * 2 ^ s) := by
      rw [Nat.div_div_eq_div_mul]
      exact rne_div_ge _ _
    by_cases hsk : s ≤ k
    · have h2 : 2 ^ (k - s) ≤ a / b / 2 ^ s := by
        rw [Nat.le_div_iff_mul_le (Nat.pow_pos (by decide)), ← Nat.pow_add]
        have e : k - s + s = k := by omega
        rw [e]
        exact hq
      have h3 : 2 ^ k = 2 ^ (k - s) * 2 ^ s := by
        rw [← Nat.pow_add]
        congr 1
        omega
      rw [h3]
      exact Nat.mul_le_mul_right _ (le_trans h2 h1)
    · have h2 : 1 ≤ a / b / 2 ^ s := by
        rw [Nat.le_div_iff_mul_le (Nat.pow_pos (by decide)), Nat.one_mul]
        exact hs
      have h3 : 2 ^ k ≤ 2 ^ s := Nat.pow_le_pow_right (by decide) (by omega)
      exact le_trans h3 (Nat.le_mul_of_pos_left _ (le_trans h2 h1))
  rw [f32_round_eq]
  generalize rne_div a (b * 2 ^ (if a / b < 2 ^ 24 then 0 else ilog2 (a / b) - 23)) *
      2 ^ (if a / b < 2 ^ 24 then 0 else ilog2 (a / b) - 23) = N at hn ⊢
  by_cases hlt : N < F32_OVF
  · rw [if_pos hlt]
    exact Or.inr ⟨N, rfl, hn⟩
  · rw [if_neg hlt]
    exact Or.inl rfl

/-- A quotient of at most `2 ^ k` units, below the overflow threshold, rounds
to a finite value of at most `2 ^ k` units. -/
theorem f32_round_le (a b k : Nat) (hb : 0 < b) (h : a ≤ b * 2 ^ k) (hk : 2 ^ k < F32_OVF) :
    ∃ n, f32_round a b = f32.fin n ∧ n ≤ 2 ^ k := by
  have hq : a / b ≤ 2 ^ k := by
    rw [Nat.div_le_iff_le_mul_add_pred hb]
    exact le_trans h (Nat.le_add_right _ _)
  have hs := round_shift_le (a / b)
  have hs2 : 2 ^ (if a / b < 2 ^ 24 then 0 else ilog2 (a / b) - 23) ≤ 2 ^ k :=
    le_trans hs (max_le hq (Nat.pow_pos (by decide)))
  have hsk : (if a / b < 2 ^ 24 then 0 else ilog2 (a / b) - 23) ≤ k :=
    (Nat.pow_le_pow_iff_right (by decide)).mp hs2
  have hn : rne_div a (b * 2 ^ (if a / b < 2 ^ 24 then 0 else ilog2 (a / b) - 23)) *
      2 ^ (if a / b < 2 ^ 24 then 0 else ilog2 (a / b) - 23) ≤ 2 ^ k := by
    generalize (if a / b < 2 ^ 24 then 0 else ilog2 (a / b) - 23) = s at hsk ⊢
    have h3 : 2 ^ k = 2 ^ (k - s) * 2 ^ s := by
      rw [← Nat.pow_add]
      congr 1
      omega
    have h4 : a ≤ b * 2 ^ s * 2 ^ (k - s) := by
      rw [Nat.mul_assoc, Nat.mul_comm (2 ^ s), ← h3]
      exact h
    have h5 := rne_div_le_of_le a (b * 2 ^ s) (2 ^ (k - s))
      (Nat.mul_pos hb (Nat.pow_pos (by decide))) h4
    rw [h3]
    exact Nat.mul_le_mul_right _ h5
  rw [f32_round_eq, if_pos (lt_of_le_of_lt hn hk)]
  exact ⟨_, rfl, hn⟩

theorem f32_mul_fin (x y : Nat) :
    f32_mul (f32.fin x) (f32.fin y) = f32_round (x * y) F32_UNIT := rfl

theorem f32_div_fin (x y : Nat) :
    f32_div (f32.fin x) (f32.fin y) =
      if y = 0 then (if x = 0 then f32.nan else f32.inf) else f32_round (x * F32_UNIT) y := rfl

theorem f32_add_fin (x y : Nat) :
    f32_add (f32.fin x) (f32.fin y) = f32_round (x + y) 1 := rfl

theorem f32_lit_100 : f32_lit 100 1 = f32.fin (100 * 2 ^ 149) := by decide

theorem f32_lit_0 : f32_lit 0 1 = f32.fin 0 := by decide

theorem relax_period_ge (jb : job_desc_t) (hb : job_in_bounds jb) :
    jb.period_ms ≤ relax_period g_adapt_cfg jb.period_ms jb.max_period_ms := by
  rw [relax_period_formula jb hb, round_relax_eq]
  have h := hb.2.2
  omega

/-- Claim C16 (relax trigger): the relax condition of a job holds iff its miss
rate exceeds `miss_hi_pct` (1.5), or its response ratio exceeds `resp_hi_ratio`
(0.80f), or the smoothed queue depth exceeds `qdepth_hi` (4.0), or the total
utilization exceeds `target_total_util_pct + 3` (78); the miss rate is
`snap_deadline_miss*100/snap_releases`, and 0 without releases; the response
ratio is the average response `snap_sum_response_ms/snap_completions` (0 without
completions) divided by `deadline_ms`; and a decision outside the cooldown
leaves the value of the relax formula when the condition holds, and otherwise
the value of the tighten formula or the old period.  All comparisons are those
of the binary32 values the controller computes. -/
theorem relax_trigger (ema total_util : f32) (jb : job_desc_t) :
    (should_relax g_adapt_cfg ema total_util jb = true ↔
        (f32_gt (miss_rate_pct jb) (f32_lit 15 10) = true ∨
          f32_gt (resp_ratio jb) (f32_lit 80 100) = true ∨
          f32_gt ema (f32_lit 4 1) = true ∨
          f32_gt total_util (f32_lit 78 1) = true)) ∧
      (f32_lit 15 10 = f32.fin (3 * 2 ^ 148) ∧ f32_lit 4 1 = f32.fin (4 * 2 ^ 149) ∧
        f32_add g_adapt_cfg.target_total_util_pct (f32_lit 3 1) = f32_lit 78 1 ∧
        f32_lit 78 1 = f32.fin (78 * 2 ^ 149)) ∧
      (miss_rate_pct jb =
        if jb.snap_releases > 0 then
          f32_div (f32_mul (f32_of_uint jb.snap_deadline_miss) (f32_lit 100 1))
            (f32_of_uint jb.snap_releases)
        else f32.fin 0) ∧
      (resp_ratio jb =
        if jb.deadline_ms > 0 then
          f32_div
            (if jb.snap_completions > 0 then
              f32_div (f32_of_uint jb.snap_sum_response_ms) (f32_of_uint jb.snap_completions)
            else f32.fin 0)
            (f32_of_uint jb.deadline_ms)
        else f32.fin 0) ∧
      (∀ now_ms last : Nat, g_adapt_cfg.cooldown_ms ≤ (now_ms + U32_MOD - last) % U32_MOD →
        (adaptive_decide g_adapt_cfg ema total_util now_ms jb last).1.period_ms =
          if should_relax g_adapt_cfg ema total_util jb = true then
            relax_period g_adapt_cfg jb.period_ms jb.max_period_ms
          else if should_tighten g_adapt_cfg ema total_util jb = true then
            tighten_period g_adapt_cfg jb.period_ms jb.min_period_ms
          else jb.period_ms) := by
  have h78 : f32_add g_adapt_cfg.target_total_util_pct (f32_lit 3 1) = f32_lit 78 1 := by
    decide
  refine ⟨?_, ⟨by decide, by decide, h78, by decide⟩, ?_, ?_, ?_⟩
  · unfold should_relax
    rw [h78]
    simp only [Bool.or_eq_true]
    have e1 : g_adapt_cfg.miss_hi_pct = f32_lit 15 10 := rfl
    have e2 : g_adapt_cfg.resp_hi_ratio = f32_lit 80 100 := rfl
    have e3 : g_adapt_cfg.qdepth_hi = f32_lit 4 1 := rfl
    rw [e1, e2, e3]
    tauto
  · unfold miss_rate_pct
    rw [f32_lit_0]
  · unfold resp_ratio avg_resp
    rw [f32_lit_0]
  · intro now_ms last hc
    rw [adaptive_decide_eq]
    by_cases h2 : new_period g_adapt_cfg ema total_util jb ≠ jb.period_ms
    · rw [if_pos ⟨hc, h2⟩]
      rfl
    · rw [if_neg (fun h => h2 h.2)]
      exact (not_not.mp h2).symm

theorem rne_div_err (a b : Nat) (hb : 0 < b) :
    2 * (rne_div a b * b) ≤ 2 * a + b ∧ 2 * a ≤ 2 * (rne_div a b * b) + b := by
  have hdm : b * (a / b) + a % b = a := Nat.div_add_mod a b
  have hlt : a % b < b := Nat.mod_lt a hb
  unfold rne_div
  by_cases h : b < 2 * (a % b) ∨ (2 * (a % b) = b ∧ a / b % 2 = 1)
  · rw [if_pos h]
    have e : (a / b + 1) * b = b * (a / b) + b := by ring
    rw [e]
    constructor <;> omega
  · rw [if_neg h]
    have e : a / b * b = b * (a / b) := Nat.mul_comm _ _
    rw [e]
    constructor <;> omega

/-- Relative error of `f32_round` for a quotient in the normal range: the
result `n` differs from `a / b` by at most `a / b / 2 ^ 24`. -/
theorem f32_round_err (a b n : Nat) (hb : 0 < b) (hnorm : b * 2 ^ 23 ≤ a)
    (hr : f32_round a b = f32.fin n) :
    n * b * 2 ^ 24 ≤ a * 2 ^ 24 + a ∧ a * 2 ^ 24 ≤ n * b * 2 ^ 24 + a := by
  rw [f32_round_eq] at hr
  have hs : b * 2 ^ (if a / b < 2 ^ 24 then 0 else ilog2 (a / b) - 23) * 2 ^ 23 ≤ a := by
    by_cases hq : a / b < 2 ^ 24
    · rw [if_pos hq, Nat.pow_zero, Nat.mul_one]
      exact hnorm
    · rw [if_neg hq]
      have h1 := round_shift_quot (a / b) hq
      rw [Nat.le_div_iff_mul_le (Nat.pow_pos (by decide))] at h1
      have h2 : b * (a / b) ≤ a := Nat.mul_div_le a b
      have h3 : b * (2 ^ 23 * 2 ^ (ilog2 (a / b) - 23)) ≤ b * (a / b) :=
        Nat.mul_le_mul_left _ h1
      have e : b * 2 ^ (ilog2 (a / b) - 23) * 2 ^ 23 =
          b * (2 ^ 23 * 2 ^ (ilog2 (a / b) - 23)) := by ring
      rw [e]
      exact le_trans h3 h2
  generalize (if a / b < 2 ^ 24 then 0 else ilog2 (a / b) - 23) = s at hr hs
  have hb' : 0 < b * 2 ^ s := Nat.mul_pos hb (Nat.pow_pos (by decide))
  have herr := rne_div_err a (b * 2 ^ s) hb'
  by_cases hlt : rne_div a (b * 2 ^ s) * 2 ^ s < F32_OVF
  · rw [if_pos hlt] at hr
    have hn : n = rne_div a (b * 2 ^ s) * 2 ^ s := (f32.fin.inj hr).symm
    have e : n * b = rne_div a (b * 2 ^ s) * (b * 2 ^ s) := by
      rw [hn]
      ring
    rw [e]
    generalize rne_div a (b * 2 ^ s) * (b * 2 ^ s) = P at herr
    generalize b * 2 ^ s = B at hs herr
    have h24 : (2 : Nat) ^ 24 = 2 * 2 ^ 23 := by decide
    rw [h24]
    constructor
    · have : P * (2 * 2 ^ 23) = (2 * P) * 2 ^ 23 := by ring
      rw [this]
      have h5 : (2 * P) * 2 ^ 23 ≤ (2 * a + B) * 2 ^ 23 := Nat.mul_le_mul_right _ herr.1
      have h6 : (2 * a + B) * 2 ^ 23 = a * (2 * 2 ^ 23) + B * 2 ^ 23 := by ring
      omega
    · have : P * (2 * 2 ^ 23) = (2 * P) * 2 ^ 23 := by ring
      rw [this]
      have h5 : (2 * a) * 2 ^ 23 ≤ (2 * P + B) * 2 ^ 23 := Nat.mul_le_mul_right _ herr.2
      have h6 : (2 * P + B) * 2 ^ 23 = (2 * P) * 2 ^ 23 + B * 2 ^ 23 := by ring
      have h7 : (2 * a) * 2 ^ 23 = a * (2 * 2 ^ 23) := by ring
      omega
  · rw [if_neg hlt] at hr
    exact f32.noConfusion hr

/-- Conversion of an integer below `2 ^ 24` to `float` is exact. -/
theorem f32_of_uint_exact (n : Nat) (hn : n < 2 ^ 24) :
    f32_of_uint n = f32.fin (n * 2 ^ 149) := by
  unfold f32_of_uint F32_UNIT
  rw [f32_round_eq]
  simp only [Nat.div_one, Nat.one_mul]
  have hs : (if n * 2 ^ 149 < 2 ^ 24 then 0 else ilog2 (n * 2 ^ 149) - 23) ≤ 149 := by
    by_cases hq : n * 2 ^ 149 < 2 ^ 24
    · rw [if_pos hq]
      exact Nat.zero_le _
    · rw [if_neg hq]
      have h1 : 1 ≤ n * 2 ^ 149 := le_trans (Nat.pow_pos (by decide)) (Nat.le_of_not_lt hq)
      have h2 := ilog2_le _ h1
      have h3 : n * 2 ^ 149 < 2 ^ 24 * 2 ^ 149 :=
        Nat.mul_lt_mul_of_pos_right hn (Nat.pow_pos (by decide))
      have h4 : (2 : Nat) ^ 24 * 2 ^ 149 = 2 ^ 173 := by rw [← Nat.pow_add]
      rw [h4] at h3
      have h5 : ilog2 (n * 2 ^ 149) < 173 :=
        (Nat.pow_lt_pow_iff_right (by decide)).mp (lt_of_le_of_lt h2 h3)
      omega
  generalize (if n * 2 ^ 149 < 2 ^ 24 then 0 else ilog2 (n * 2 ^ 149) - 23) = s at hs
  have e149 : (2 : Nat) ^ 149 = 2 ^ (149 - s) * 2 ^ s := by
    rw [← Nat.pow_add]
    congr 1
    omega
  have hdvd : n * 2 ^ 149 % 2 ^ s = 0 := by
    rw [e149, ← Nat.mul_assoc]
    exact Nat.mul_mod_left _ _
  rw [rne_div_of_dvd _ _ (Nat.pow_pos (by decide)) hdvd]
  have hdiv : n * 2 ^ 149 / 2 ^ s * 2 ^ s = n * 2 ^ 149 :=
    Nat.div_mul_cancel (Nat.dvd_of_mod_eq_zero hdvd)
  rw [hdiv]
  have hovf : n * 2 ^ 149 < F32_OVF := by
    unfold F32_OVF
    apply Nat.mul_lt_mul_of_pos_right _ (Nat.pow_pos (by decide))
    exact lt_trans hn (by decide)
  rw [if_pos hovf]

theorem f32_round_band (a b n : Nat) (hb : 0 < b) (hnorm : b * 2 ^ 23 ≤ a)
    (hr : f32_round a b = f32.fin n) :
    (a : ℚ) / b * (1 - 1 / 2 ^ 24) ≤ n ∧ (n : ℚ) ≤ (a : ℚ) / b * (1 + 1 / 2 ^ 24) := by
  obtain ⟨h1, h2⟩ := f32_round_err a b n hb hnorm hr
  have hbq : (0 : ℚ) < b := by exact_mod_cast hb
  have h1q : (n : ℚ) * b * 2 ^ 24 ≤ a * 2 ^ 24 + a := by exact_mod_cast h1
  have h2q : (a : ℚ) * 2 ^ 24 ≤ n * b * 2 ^ 24 + a := by exact_mod_cast h2
  constructor
  · rw [div_mul_eq_mul_div, div_le_iff₀ hbq]
    have e : (a : ℚ) * (1 - 1 / 2 ^ 24) = (a * 2 ^ 24 - a) / 2 ^ 24 := by ring
    rw [e, div_le_iff₀ (by positivity)]
    linarith
  · rw [div_mul_eq_mul_div, le_div_iff₀ hbq]
    have e : (a : ℚ) * (1 + 1 / 2 ^ 24) = (a * 2 ^ 24 + a) / 2 ^ 24 := by ring
    rw [e, le_div_iff₀ (by positivity)]
    linarith

/-- The summand of `total_util` for one job: finite, of a bounded size, and
within two roundings of `100 * wcet_ms / period_ms`. -/
theorem util_of_band (jb : job_desc_t) (hw1 : 1 ≤ jb.wcet_ms) (hw2 : jb.wcet_ms < 2 ^ 24)
    (hp1 : 1 ≤ jb.period_ms) (hp2 : jb.period_ms < 2 ^ 24) :
    ∃ n, util_of jb = f32.fin n ∧ 2 ^ 125 ≤ n ∧ n ≤ 2 ^ 180 ∧
      100 * ((jb.wcet_ms : ℚ) / jb.period_ms) * (1 - 1 / 2 ^ 24) ^ 2 ≤ (n : ℚ) / 2 ^ 149 ∧
      (n : ℚ) / 2 ^ 149 ≤ 100 * ((jb.wcet_ms : ℚ) / jb.period_ms) * (1 + 1 / 2 ^ 24) ^ 2 := by
  unfold util_of
  generalize jb.wcet_ms = w at hw1 hw2 ⊢
  generalize jb.period_ms = p at hp1 hp2 ⊢
  rw [f32_of_uint_exact w hw2, f32_of_uint_exact p hp2, f32_lit_100, f32_div_fin]
  have hpU : p * 2 ^ 149 ≠ 0 := Nat.mul_ne_zero (by omega) (Nat.pos_iff_ne_zero.mp (Nat.pow_pos (by decide)))
  have hpUpos : 0 < p * 2 ^ 149 := Nat.pos_of_ne_zero hpU
  rw [if_neg hpU]
  unfold F32_UNIT
  -- the quotient
  have e149 : (2 : Nat) ^ 149 = 2 ^ 24 * 2 ^ 125 := by rw [← Nat.pow_add]
  have e173 : (2 : Nat) ^ 173 = 2 ^ 24 * 2 ^ 149 := by rw [← Nat.pow_add]
  have hlow : p * 2 ^ 149 * 2 ^ 125 ≤ w * 2 ^ 149 * 2 ^ 149 := by
    have h1 : p * 2 ^ 125 ≤ 2 ^ 149 := by
      rw [e149]
      exact Nat.mul_le_mul_right _ (Nat.le_of_lt hp2)
    have h2 : 2 ^ 149 ≤ w * 2 ^ 149 := Nat.le_mul_of_pos_left _ hw1
    have e : p * 2 ^ 149 * 2 ^ 125 = p * 2 ^ 125 * 2 ^ 149 := by ring
    rw [e]
    exact Nat.mul_le_mul_right _ (le_trans h1 h2)
  have hhigh : w * 2 ^ 149 * 2 ^ 149 ≤ p * 2 ^ 149 * 2 ^ 173 := by
    have h1 : w * 2 ^ 149 ≤ p * 2 ^ 173 := by
      rw [e173, ← Nat.mul_assoc]
      apply Nat.mul_le_mul_right
      exact le_trans (Nat.le_of_lt hw2) (Nat.le_mul_of_pos_left _ hp1)
    have e : p * 2 ^ 149 * 2 ^ 173 = p * 2 ^ 173 * 2 ^ 149 := by ring
    rw [e]
    exact Nat.mul_le_mul_right _ h1
  obtain ⟨n1, hn1, hn1le⟩ := f32_round_le _ _ 173 hpUpos hhigh (by decide)
  have hn1ge : 2 ^ 125 ≤ n1 := by
    rcases f32_round_ge _ _ 125 hpUpos hlow with hinf | ⟨y, hy, hge⟩
    · rw [hinf] at hn1
      exact f32.noConfusion hn1
    · rw [hy] at hn1
      rw [← f32.fin.inj hn1]
      exact hge
  have hnorm1 : p * 2 ^ 149 * 2 ^ 23 ≤ w * 2 ^ 149 * 2 ^ 149 :=
    le_trans (Nat.mul_le_mul_left _ (Nat.pow_le_pow_right (by decide) (by decide))) hlow
  obtain ⟨b1lo, b1hi⟩ := f32_round_band _ _ n1 hpUpos hnorm1 hn1
  rw [hn1, f32_mul_fin]
  unfold F32_UNIT
  -- the product with 100
  have e180 : (2 : Nat) ^ 180 = 2 ^ 7 * 2 ^ 173 := by rw [← Nat.pow_add]
  have hlow2 : 2 ^ 149 * 2 ^ 125 ≤ n1 * (100 * 2 ^ 149) := by
    have e : n1 * (100 * 2 ^ 149) = 2 ^ 149 * (n1 * 100) := by ring
    rw [e]
    apply Nat.mul_le_mul_left
    exact le_trans hn1ge (Nat.le_mul_of_pos_right _ (by decide))
  have hhigh2 : n1 * (100 * 2 ^ 149) ≤ 2 ^ 149 * 2 ^ 180 := by
    have e : n1 * (100 * 2 ^ 149) = 2 ^ 149 * (100 * n1) := by ring
    rw [e, e180]
    apply Nat.mul_le_mul_left
    exact Nat.mul_le_mul (by decide) hn1le
  obtain ⟨n2, hn2, hn2le⟩ := f32_round_le _ _ 180 (Nat.pow_pos (by decide)) hhigh2 (by decide)
  have hn2ge : 2 ^ 125 ≤ n2 := by
    rcases f32_round_ge _ _ 125 (Nat.pow_pos (by decide)) hlow2 with hinf | ⟨y, hy, hge⟩
    · rw [hinf] at hn2
      exact f32.noConfusion hn2
    · rw [hy] at hn2
      rw [← f32.fin.inj hn2]
      exact hge
  have hnorm2 : 2 ^ 149 * 2 ^ 23 ≤ n1 * (100 * 2 ^ 149) :=
    le_trans (Nat.mul_le_mul_left _ (Nat.pow_le_pow_right (by decide) (by decide))) hlow2
  obtain ⟨b2lo, b2hi⟩ := f32_round_band _ _ n2 (Nat.pow_pos (by decide)) hnorm2 hn2
  have hwq : (0 : ℚ) < w := by exact_mod_cast hw1
  have hpq : (0 : ℚ) < p := by exact_mod_cast hp1
  simp only [Nat.cast_mul, Nat.cast_pow, Nat.cast_ofNat] at b1lo b1hi b2lo b2hi
  have hU : (0 : ℚ) < 2 ^ 149 := by positivity
  refine ⟨n2, hn2, hn2ge, hn2le, ?_, ?_⟩
  · generalize (2 : ℚ) ^ 149 = U at b1lo b2lo hU ⊢
    have hL : (0 : ℚ) ≤ 1 - 1 / 2 ^ 24 := by norm_num
    have e1 : (w : ℚ) * U * U / (p * U) = w / p * U := by
      field_simp
      ring
    rw [e1] at b1lo
    have e2 : (n1 : ℚ) * (100 * U) / U = 100 * n1 := by
      field_simp
      ring
    rw [e2] at b2lo
    rw [le_div_iff₀ hU]
    calc 100 * ((w : ℚ) / p) * (1 - 1 / 2 ^ 24) ^ 2 * U
        = 100 * ((w : ℚ) / p * U * (1 - 1 / 2 ^ 24)) * (1 - 1 / 2 ^ 24) := by ring
      _ ≤ 100 * (n1 : ℚ) * (1 - 1 / 2 ^ 24) := by
          apply mul_le_mul_of_nonneg_right _ hL
          exact mul_le_mul_of_nonneg_left b1lo (by norm_num)
      _ ≤ (n2 : ℚ) := b2lo
  · generalize (2 : ℚ) ^ 149 = U at b1hi b2hi hU ⊢
    have hR : (0 : ℚ) ≤ 1 + 1 / 2 ^ 24 := by norm_num
    have e1 : (w : ℚ) * U * U / (p * U) = w / p * U := by
      field_simp
      ring
    rw [e1] at b1hi
    have e2 : (n1 : ℚ) * (100 * U) / U = 100 * n1 := by
      field_simp
      ring
    rw [e2] at b2hi
    rw [div_le_iff₀ hU]
    calc (n2 : ℚ) ≤ 100 * (n1 : ℚ) * (1 + 1 / 2 ^ 24) := b2hi
      _ ≤ 100 * ((w : ℚ) / p * U * (1 + 1 / 2 ^ 24)) * (1 + 1 / 2 ^ 24) := by
          apply mul_le_mul_of_nonneg_right _ hR
          exact mul_le_mul_of_nonneg_left b1hi (by norm_num)
      _ = 100 * ((w : ℚ) / p) * (1 + 1 / 2 ^ 24) ^ 2 * U := by ring

theorem util_exact_cons (jb : job_desc_t) (rest : List job_desc_t) :
    util_exact (jb :: rest) = 100 * ((jb.wcet_ms : ℚ) / jb.period_ms) + util_exact rest := by
  unfold util_exact
  rw [List.map_cons, List.sum_cons]
  ring

theorem util_fold_band (jobs : List job_desc_t) :
    ∀ (A j : Nat) (S : ℚ),
      (∀ jb ∈ jobs, 1 ≤ jb.wcet_ms ∧ jb.wcet_ms < 2 ^ 24 ∧
        1 ≤ jb.period_ms ∧ jb.period_ms < 2 ^ 24) →
      j + jobs.length ≤ 64 → A ≤ 2 ^ (180 + j) → 0 ≤ S →
      S * (1 - 1 / 2 ^ 24) ^ (j + 2) ≤ (A : ℚ) / 2 ^ 149 →
      (A : ℚ) / 2 ^ 149 ≤ S * (1 + 1 / 2 ^ 24) ^ (j + 2) →
      ∃ n, jobs.foldl (fun acc jb => f32_add acc (util_of jb)) (f32.fin A) = f32.fin n ∧
        n ≤ 2 ^ (180 + (j + jobs.length)) ∧
        (S + util_exact jobs) * (1 - 1 / 2 ^ 24) ^ (j + jobs.length + 2) ≤ (n : ℚ) / 2 ^ 149 ∧
        (n : ℚ) / 2 ^ 149 ≤ (S + util_exact jobs) * (1 + 1 / 2 ^ 24) ^ (j + jobs.length + 2) := by
  induction jobs with
  | nil =>
    intro A j S _ _ hA _ hlo hhi
    refine ⟨A, rfl, ?_, ?_, ?_⟩
    · simpa using hA
    · simpa [util_exact] using hlo
    · simpa [util_exact] using hhi
  | cons jb rest ih =>
    intro A j S hb hlen hA hS hlo hhi
    obtain ⟨hw1, hw2, hp1, hp2⟩ := hb jb (List.mem_cons_self _ _)
    obtain ⟨u, hu, huge, hule, hulo, huhi⟩ := util_of_band jb hw1 hw2 hp1 hp2
    rw [List.length_cons] at hlen
    rw [List.foldl_cons, hu, f32_add_fin]
    have hsum : A + u ≤ 1 * 2 ^ (180 + (j + 1)) := by
      have h1 : 2 ^ 180 ≤ 2 ^ (180 + j) := Nat.pow_le_pow_right (by decide) (by omega)
      have h2 : 2 ^ (180 + (j + 1)) = 2 ^ (180 + j) * 2 := by
        rw [← Nat.add_assoc, Nat.pow_succ]
      omega
    have hk : 2 ^ (180 + (j + 1)) < F32_OVF := by
      have h1 : 2 ^ (180 + (j + 1)) ≤ 2 ^ 245 := Nat.pow_le_pow_right (by decide) (by omega)
      have h2 : 2 ^ 245 < F32_OVF := by decide
      omega
    obtain ⟨A2, hA2, hA2le⟩ := f32_round_le (A + u) 1 (180 + (j + 1)) (by decide) hsum hk
    have hnorm : 1 * 2 ^ 23 ≤ A + u := by
      have h1 : 2 ^ 23 ≤ 2 ^ 125 := by decide
      omega
    obtain ⟨blo, bhi⟩ := f32_round_band (A + u) 1 A2 (by decide) hnorm hA2
    rw [hA2]
    have hwq : (0 : ℚ) ≤ (jb.wcet_ms : ℚ) / jb.period_ms := by positivity
    rw [util_exact_cons]
    generalize (jb.wcet_ms : ℚ) / jb.period_ms = t at hulo huhi hwq ⊢
    have hU : (0 : ℚ) < 2 ^ 149 := by positivity
    have hL0 : (0 : ℚ) ≤ 1 - 1 / 2 ^ 24 := by norm_num
    have hL1 : (1 - 1 / 2 ^ 24 : ℚ) ≤ 1 := by norm_num
    have hR1 : (1 : ℚ) ≤ 1 + 1 / 2 ^ 24 := by norm_num
    have hR0 : (0 : ℚ) ≤ 1 + 1 / 2 ^ 24 := by norm_num
    simp only [Nat.cast_add, Nat.cast_one, div_one] at blo bhi
    have h100 : (0 : ℚ) ≤ 100 * t := mul_nonneg (by norm_num) hwq
    have hS2 : 0 ≤ S + 100 * t := add_nonneg hS h100
    have hlo2 : (S + 100 * t) * (1 - 1 / 2 ^ 24) ^ (j + 1 + 2) ≤ (A2 : ℚ) / 2 ^ 149 := by
      have hpw : (1 - 1 / 2 ^ 24 : ℚ) ^ (j + 2) ≤ (1 - 1 / 2 ^ 24) ^ 2 :=
        pow_le_pow_of_le_one hL0 hL1 (by omega)
      have h3 : 100 * t * (1 - 1 / 2 ^ 24) ^ (j + 2) ≤ (u : ℚ) / 2 ^ 149 :=
        le_trans (mul_le_mul_of_nonneg_left hpw h100) hulo
      have h4 : (S + 100 * t) * (1 - 1 / 2 ^ 24) ^ (j + 2) ≤ ((A : ℚ) + u) / 2 ^ 149 := by
        rw [add_mul, add_div]
        exact add_le_add hlo h3
      have h5 : ((A : ℚ) + u) / 2 ^ 149 * (1 - 1 / 2 ^ 24) ≤ (A2 : ℚ) / 2 ^ 149 := by
        rw [div_mul_eq_mul_div]
        exact div_le_div_of_nonneg_right blo (le_of_lt hU)
      calc (S + 100 * t) * (1 - 1 / 2 ^ 24) ^ (j + 1 + 2)
          = (S + 100 * t) * (1 - 1 / 2 ^ 24) ^ (j + 2) * (1 - 1 / 2 ^ 24) := by ring
        _ ≤ ((A : ℚ) + u) / 2 ^ 149 * (1 - 1 / 2 ^ 24) := mul_le_mul_of_nonneg_right h4 hL0
        _ ≤ (A2 : ℚ) / 2 ^ 149 := h5
    have hhi2 : (A2 : ℚ) / 2 ^ 149 ≤ (S + 100 * t) * (1 + 1 / 2 ^ 24) ^ (j + 1 + 2) := by
      have hpw : (1 + 1 / 2 ^ 24 : ℚ) ^ 2 ≤ (1 + 1 / 2 ^ 24) ^ (j + 2) :=
        pow_le_pow_right₀ hR1 (by omega)
      have h3 : (u : ℚ) / 2 ^ 149 ≤ 100 * t * (1 + 1 / 2 ^ 24) ^ (j + 2) :=
        le_trans huhi (mul_le_mul_of_nonneg_left hpw h100)
      have h4 : ((A : ℚ) + u) / 2 ^ 149 ≤ (S + 100 * t) * (1 + 1 / 2 ^ 24) ^ (j + 2) := by
        rw [add_mul, add_div]
        exact add_le_add hhi h3
      have h5 : (A2 : ℚ) / 2 ^ 149 ≤ ((A : ℚ) + u) / 2 ^ 149 * (1 + 1 / 2 ^ 24) := by
        rw [div_mul_eq_mul_div]
        exact div_le_div_of_nonneg_right bhi (le_of_lt hU)
      calc (A2 : ℚ) / 2 ^ 149 ≤ ((A : ℚ) + u) / 2 ^ 149 * (1 + 1 / 2 ^ 24) := h5
        _ ≤ (S + 100 * t) * (1 + 1 / 2 ^ 24) ^ (j + 2) * (1 + 1 / 2 ^ 24) :=
            mul_le_mul_of_nonneg_right h4 hR0
        _ = (S + 100 * t) * (1 + 1 / 2 ^ 24) ^ (j + 1 + 2) := by ring
    obtain ⟨n, hn, hnle, hnlo, hnhi⟩ := ih A2 (j + 1) (S + 100 * t)
      (fun x hx => hb x (List.mem_cons_of_mem _ hx)) (by omega) hA2le hS2 hlo2 hhi2
    refine ⟨n, hn, ?_, ?_, ?_⟩
    · rw [List.length_cons]
      have e : j + (rest.length + 1) = j + 1 + rest.length := by omega
      rw [e]
      exact hnle
    · rw [List.length_cons]
      have e : j + (rest.length + 1) + 2 = j + 1 + rest.length + 2 := by omega
      rw [e, ← add_assoc]
      exact hnlo
    · rw [List.length_cons]
      have e : j + (rest.length + 1) + 2 = j + 1 + rest.length + 2 := by omega
      rw [e, ← add_assoc]
      exact hnhi

theorem total_util_band (jobs : List job_desc_t)
    (hb : ∀ jb ∈ jobs, 1 ≤ jb.wcet_ms ∧ jb.wcet_ms < 2 ^ 24 ∧
      1 ≤ jb.period_ms ∧ jb.period_ms < 2 ^ 24)
    (hlen : jobs.length ≤ 64) :
    ∃ n, (snapshot_phase jobs).2 = f32.fin n ∧
      util_exact jobs * (1 - 1 / 2 ^ 24) ^ (jobs.length + 2) ≤ (n : ℚ) / 2 ^ 149 ∧
      (n : ℚ) / 2 ^ 149 ≤ util_exact jobs * (1 + 1 / 2 ^ 24) ^ (jobs.length + 2) := by
  obtain ⟨n, hn, _, hlo, hhi⟩ := util_fold_band jobs 0 0 0 hb (by omega)
    (Nat.zero_le _) (le_refl _) (by simp) (by simp)
  refine ⟨n, ?_, ?_, ?_⟩
  · unfold snapshot_phase
    rw [f32_lit_0]
    exact hn
  · simpa using hlo
  · simpa using hhi

theorem util_exact_g_jobs : util_exact g_jobs = 74 := by
  unfold util_exact g_jobs job_init
  norm_num

/-! ## Controller: total utilization -/

theorem f32_ne_185_thirds (n : Nat) : (n : ℚ) / 2 ^ 149 ≠ 185 / 3 := by
  intro h
  have hU : (0 : ℚ) < 2 ^ 149 := by positivity
  have h1 : (n : ℚ) * 3 = 185 * 2 ^ 149 := by
    field_simp at h
    linarith
  have h2 : n * 3 = 185 * 2 ^ 149 := by exact_mod_cast h1
  have h3 : (185 * 2 ^ 149) % 3 = 1 := by decide
  omega

set_option maxRecDepth 100000 in
/-- Claim C20 fails as stated: the control cycle at 6 s with full worker queues
relaxes the three periods to 60, 120 and 240; in the next cycle outside the
cooldown, at 12 s, the table holds wcet/period = 12/60, 20/120, 60/240, so
`100 * Σ wcet_ms / period_ms = 185/3`, while `total_util` is the binary32 value
`16165547 * 2 ^ (-18) = 61.66666793823242`; no binary32 value equals `185/3`. -/
theorem total_util_not_exact :
    (cycle_start (ex_event 12000000) (adaptive_run [ex_event 6000000] adapt_init)).jobs.map
        (fun jb => (jb.wcet_ms, jb.period_ms)) = [(12, 60), (20, 120), (60, 240)] ∧
      (snapshot_phase
        (cycle_start (ex_event 12000000) (adaptive_run [ex_event 6000000] adapt_init)).jobs).2 =
        f32.fin (16165547 * 2 ^ 131) ∧
      util_exact
        (cycle_start (ex_event 12000000) (adaptive_run [ex_event 6000000] adapt_init)).jobs =
        185 / 3 ∧
      ((16165547 * 2 ^ 131 : Nat) : ℚ) / 2 ^ 149 ≠ 185 / 3 ∧
      (∀ n : Nat, (n : ℚ) / 2 ^ 149 ≠ 185 / 3) := by
  have hjobs : (cycle_start (ex_event 12000000)
      (adaptive_run [ex_event 6000000] adapt_init)).jobs =
      [job_init 0 3 60 12 40 30 120, job_init 1 2 120 20 60 60 300,
        job_init 2 1 240 60 150 120 600] := by
    decide
  refine ⟨by decide, by decide, ?_, f32_ne_185_thirds _, f32_ne_185_thirds⟩
  rw [hjobs]
  unfold util_exact job_init
  norm_num


/-- Claim C20 as it holds on the code (total utilization): `total_util` is the
binary32 sum over the job table, in table order and starting from 0, of
`(float)wcet_ms / (float)period_ms * 100`, every operation rounded, taken on the
table as it stands when the snapshot step of the cycle runs; every per-job
decision of the cycle uses this one value; for the configured table (12/50,
20/100, 60/200) it is exactly 74, which is also the rational value
`100 * Σ wcet_ms / period_ms` of that table; for any table of at most 64 jobs
with `1 ≤ wcet_ms, period_ms < 2 ^ 24` the binary32 value is finite and lies
within the factor `(1 ± 2 ^ -24) ^ (length + 2)` of the rational sum. -/
theorem total_utilization (inp : cycle_input) (s : adapt_state) :
    (snapshot_phase s.jobs).2 =
        s.jobs.foldl
          (fun acc jb =>
            f32_add acc
              (f32_mul (f32_div (f32_of_uint jb.wcet_ms) (f32_of_uint jb.period_ms))
                (f32.fin (100 * 2 ^ 149))))
          (f32.fin 0) ∧
      (∀ (i : Nat) (jb : job_desc_t) (last : Nat), s.jobs[i]? = some jb →
        s.last_adjust_ms[i]? = some last →
        (adaptive_cycle inp s).jobs[i]? =
            some (adaptive_decide g_adapt_cfg
              (ema_update s.ema_qdepth (qdepth_inst inp.qlens)) (snapshot_phase s.jobs).2
              (millis (inp.now_us i)) (snapshot_job jb) last).1 ∧
          (adaptive_cycle inp s).last_adjust_ms[i]? =
            some (adaptive_decide g_adapt_cfg
              (ema_update s.ema_qdepth (qdepth_inst inp.qlens)) (snapshot_phase s.jobs).2
              (millis (inp.now_us i)) (snapshot_job jb) last).2) ∧
      (snapshot_phase g_jobs).2 = f32_lit 74 1 ∧
      f32_lit 74 1 = f32.fin (74 * 2 ^ 149) ∧
      util_exact g_jobs = 74 ∧
      ((∀ jb ∈ s.jobs, 1 ≤ jb.wcet_ms ∧ jb.wcet_ms < 2 ^ 24 ∧
          1 ≤ jb.period_ms ∧ jb.period_ms < 2 ^ 24) →
        s.jobs.length ≤ 64 →
        ∃ n, (snapshot_phase s.jobs).2 = f32.fin n ∧
          util_exact s.jobs * (1 - 1 / 2 ^ 24) ^ (s.jobs.length + 2) ≤ (n : ℚ) / 2 ^ 149 ∧
          (n : ℚ) / 2 ^ 149 ≤
            util_exact s.jobs * (1 + 1 / 2 ^ 24) ^ (s.jobs.length + 2)) := by
  refine ⟨?_, ?_, by decide, by decide, util_exact_g_jobs,
    fun hb hlen => total_util_band s.jobs hb hlen⟩
  · unfold snapshot_phase util_of
    rw [f32_lit_0, f32_lit_100]
  · intro i jb last hj hl
    have hloop := adaptive_loop_getElem
      (ema_update s.ema_qdepth (qdepth_inst inp.qlens))
      (snapshot_phase s.jobs).2 inp.now_us (snapshot_phase s.jobs).1 s.last_adjust_ms 0 i
    have hsn : (snapshot_phase s.jobs).1[i]? = some (snapshot_job jb) := by
      unfold snapshot_phase
      simp only [List.getElem?_map, hj, Option.map_some']
    rw [hsn, hl, Nat.zero_add] at hloop
    exact hloop

/-! ## Controller: relax and tighten exclude each other -/

theorem f32_lt_trans (a b c : f32) (h1 : f32_lt a b = true) (h2 : f32_lt b c = true) :
    f32_lt a c = true := by
  cases a <;> cases b <;> cases c <;> simp_all [f32_lt]
  omega

theorem f32_eq_zero (a : f32) (h : f32_eq a (f32_lit 0 1) = true) : a = f32.fin 0 := by
  rw [f32_lit_0] at h
  cases a <;> simp_all [f32_eq]

theorem should_relax_eq (cfg : adapt_cfg_t) (ema total_util : f32) (jb : job_desc_t) :
    should_relax cfg ema total_util jb =
      relax_cond cfg (miss_rate_pct jb) (resp_ratio jb) ema total_util := rfl

theorem should_tighten_eq (cfg : adapt_cfg_t) (ema total_util : f32) (jb : job_desc_t) :
    should_tighten cfg ema total_util jb =
      tighten_cond cfg (miss_rate_pct jb) (resp_ratio jb) ema total_util := rfl

theorem relax_tighten_cond_exclusive (miss resp ema total_util : f32) :
    ¬ (relax_cond g_adapt_cfg miss resp ema total_util = true ∧
      tighten_cond g_adapt_cfg miss resp ema total_util = true) := by
  rintro ⟨hr, ht⟩
  unfold tighten_cond at ht
  simp only [Bool.and_eq_true] at ht
  obtain ⟨⟨⟨t1, t2⟩, t3⟩, t4⟩ := ht
  unfold relax_cond at hr
  simp only [Bool.or_eq_true] at hr
  unfold f32_gt at hr
  rcases hr with ((r1 | r2) | r3) | r4
  · rw [f32_eq_zero miss t1] at r1
    revert r1
    decide
  · have h := f32_lt_trans _ _ _ r2 t2
    revert h
    decide
  · have h := f32_lt_trans _ _ _ r3 t3
    revert h
    decide
  · have h := f32_lt_trans _ _ _ r4 t4
    revert h
    decide

/-- Claim C27 (relax and tighten are mutually exclusive under the built-in
configuration): with `g_adapt_cfg` as initialised (`miss_hi_pct = 1.5f`,
`resp_hi_ratio = 0.80f` above `resp_lo_ratio = 0.45f`, `qdepth_hi = 4.0f` above
`qdepth_lo = 0.5f`, `target + 3 = 78` above `low = 55`, all as binary32 values)
no values of miss rate, response ratio, smoothed queue depth and total
utilization, infinities and NaN included, make the expressions of
`should_relax` and `should_tighten` both true; in particular the two flags of
the controller are never both true for a job. -/
theorem relax_tighten_exclusive :
    (∀ miss resp ema total_util : f32,
      ¬ (relax_cond g_adapt_cfg miss resp ema total_util = true ∧
        tighten_cond g_adapt_cfg miss resp ema total_util = true)) ∧
    (∀ (ema total_util : f32) (jb : job_desc_t),
      ¬ (should_relax g_adapt_cfg ema total_util jb = true ∧
        should_tighten g_adapt_cfg ema total_util jb = true)) ∧
    f32_lt g_adapt_cfg.resp_lo_ratio g_adapt_cfg.resp_hi_ratio = true ∧
    f32_lt g_adapt_cfg.qdepth_lo g_adapt_cfg.qdepth_hi = true ∧
    f32_lt g_adapt_cfg.low_total_util_pct
      (f32_add g_adapt_cfg.target_total_util_pct (f32_lit 3 1)) = true ∧
    f32_add g_adapt_cfg.target_total_util_pct (f32_lit 3 1) = f32_lit 78 1 ∧
    f32_lt (f32_lit 0 1) g_adapt_cfg.miss_hi_pct = true := by
  refine ⟨relax_tighten_cond_exclusive, ?_, by decide, by decide, by decide, by decide,
    by decide⟩
  intro ema total_util jb
  rw [should_relax_eq, should_tighten_eq]
  exact relax_tighten_cond_exclusive _ _ _ _

/-! ## Release phase: one release per job and tick -/

theorem release_phase_append (tnow : Int) (l1 l2 : List job_desc_t) :
    release_phase tnow (l1 ++ l2) =
      ((release_phase tnow l1).1 ++ (release_phase tnow l2).1,
        (release_phase tnow l1).2 ++ (release_phase tnow l2).2) := by
  induction l1 with
  | nil => rfl
  | cons jb rest ih =>
    have e : (jb :: rest) ++ l2 = jb :: (rest ++ l2) := rfl
    rw [e]
    by_cases h : tnow ≥ jb.next_release_us
    · rw [release_phase, release_phase, ih]
      simp only [h, if_true, List.cons_append]
    · rw [release_phase, release_phase, ih]
      simp only [h, if_false, List.cons_append]

theorem release_job_iterate (jb : job_desc_t) (k : Nat) :
    (release_job^[k] jb).next_release_us =
        jb.next_release_us + (k : Int) * ((jb.period_ms : Int) * 1000) ∧
      (release_job^[k] jb).releases % U32_MOD = (jb.releases + k) % U32_MOD ∧
      (release_job^[k] jb).period_ms = jb.period_ms := by
  induction k with
  | zero => exact ⟨by simp, rfl, rfl⟩
  | succ k ih =>
    obtain ⟨h1, h2, h3⟩ := ih
    rw [Function.iterate_succ_apply']
    generalize release_job^[k] jb = x at h1 h2 h3 ⊢
    refine ⟨?_, ?_, ?_⟩
    · unfold release_job
      simp only [h1, h3]
      push_cast
      ring
    · unfold release_job
      simp only
      rw [Nat.mod_mod, Nat.add_mod, h2, ← Nat.add_mod, Nat.add_assoc]
    · unfold release_job
      simp only [h3]

theorem release_backlog (jb : job_desc_t) (ticks : List Int) :
    ∀ k : Nat,
      (∀ t ∈ ticks, t ≥ jb.next_release_us +
        ((k + ticks.length : Nat) : Int) * ((jb.period_ms : Int) * 1000)) →
      ticks.foldl (fun jobs t => (release_phase t jobs).1) [release_job^[k] jb] =
        [release_job^[k + ticks.length] jb] := by
  induction ticks with
  | nil => intro k _; rfl
  | cons t rest ih =>
    intro k h
    have ht := h t (List.mem_cons_self _ _)
    rw [List.length_cons] at ht
    obtain ⟨h1, _, _⟩ := release_job_iterate jb k
    have hdue : t ≥ (release_job^[k] jb).next_release_us := by
      rw [h1]
      have hp : (0 : Int) ≤ (jb.period_ms : Int) * 1000 := by positivity
      have hk : ((k : Nat) : Int) ≤ ((k + (rest.length + 1) : Nat) : Int) := by
        exact_mod_cast Nat.le_add_right _ _
      have := mul_le_mul_of_nonneg_right hk hp
      omega
    have hstep : (release_phase t [release_job^[k] jb]).1 = [release_job^[k + 1] jb] := by
      rw [Function.iterate_succ_apply']
      simp only [release_phase, hdue, if_true]
    rw [List.foldl_cons, hstep, ih (k + 1)]
    · rw [List.length_cons]
      have e : k + 1 + rest.length = k + (rest.length + 1) := by omega
      rw [e]
    · intro t' ht'
      have := h t' (List.mem_cons_of_mem _ ht')
      rw [List.length_cons] at this
      have e : k + 1 + rest.length = k + (rest.length + 1) := by omega
      rw [e]
      exact this

/-- Claim C26 (at most one release per job per tick): for a job that is due at
tick time `tnow`, however far `tnow` lies past `next_release_us`, the release
phase replaces the job by `release_job`, that is `releases + 1` (as a
`uint32_t`) and `next_release_us` advanced by one period, and appends exactly
one ready item for it, whose `release_us` is the scheduled release time (the
old `next_release_us`, not `tnow`); when `tnow` lies a period or more past
`next_release_us` the job is still due after the tick; and ticks that all lie
at least `n` periods past `next_release_us` release the job once each, the
`k`-th of them with `release_us = next_release_us + k * period`. -/
theorem one_release_per_tick (tnow : Int) (pre post : List job_desc_t) (jb : job_desc_t)
    (hdue : tnow ≥ jb.next_release_us) :
    (release_phase tnow (pre ++ jb :: post)).1 =
        (release_phase tnow pre).1 ++ release_job jb :: (release_phase tnow post).1 ∧
      (release_phase tnow (pre ++ jb :: post)).2 =
        (release_phase tnow pre).2 ++ ready_of jb :: (release_phase tnow post).2 ∧
      (release_job jb).releases = (jb.releases + 1) % U32_MOD ∧
      (jb.releases + 1 < U32_MOD → (release_job jb).releases = jb.releases + 1) ∧
      (release_job jb).next_release_us =
        jb.next_release_us + (jb.period_ms : Int) * 1000 ∧
      (ready_of jb).release_us = jb.next_release_us ∧
      (tnow ≥ jb.next_release_us + (jb.period_ms : Int) * 1000 →
        tnow ≥ (release_job jb).next_release_us) ∧
      (∀ ticks : List Int,
        (∀ t ∈ ticks, t ≥ jb.next_release_us +
          (ticks.length : Int) * ((jb.period_ms : Int) * 1000)) →
        ticks.foldl (fun jobs t => (release_phase t jobs).1) [jb] =
          [release_job^[ticks.length] jb]) ∧
      (∀ k : Nat,
        (ready_of (release_job^[k] jb)).release_us =
            jb.next_release_us + (k : Int) * ((jb.period_ms : Int) * 1000) ∧
          (release_job^[k] jb).releases % U32_MOD = (jb.releases + k) % U32_MOD) := by
  refine ⟨?_, ?_, rfl, ?_, rfl, rfl, fun h => h, ?_, ?_⟩
  · rw [release_phase_append]
    simp only [release_phase, hdue, if_true]
  · rw [release_phase_append]
    simp only [release_phase, hdue, if_true]
  · intro h
    exact Nat.mod_eq_of_lt h
  · intro ticks h
    have := release_backlog jb ticks 0 (by simpa using h)
    simpa using this
  · intro k
    obtain ⟨h1, h2, _⟩ := release_job_iterate jb k
    exact ⟨h1, h2⟩

set_option maxRecDepth 100000 in
/-- Instance of the release-per-tick theorem: job A of the configured table, due
since time 0, at the tick at 1 s: one ready item with `release_us = 0`, one
release counted, and `next_release_us = 50000` still lies before the tick. -/
theorem one_release_per_tick_witness :
    release_phase 1000000 g_jobs =
        (g_jobs.map release_job, g_jobs.map ready_of) ∧
      (g_jobs.map release_job).map (fun jb => (jb.releases, jb.next_release_us)) =
        [(1, 50000), (1, 100000), (1, 200000)] ∧
      (release_job (job_init 0 3 50 12 40 30 120)).next_release_us ≤ 1000000 ∧
      (release_phase 1000000 ([] ++ job_init 0 3 50 12 40 30 120 :: [])).2 =
        (release_phase 1000000 []).2 ++ ready_of (job_init 0 3 50 12 40 30 120) ::
          (release_phase 1000000 []).2 :=
  ⟨by decide, by decide, by decide,
    (one_release_per_tick 1000000 [] [] (job_init 0 3 50 12 40 30 120) (by decide)).2.1⟩

/-! ## Commands in flight -/

theorem dispatch_phase_bounded (jobs : List job_desc_t) (ready : List ready_item_t) (d : Nat)
    (qs : List (List worker_cmd_t)) (hq : ∀ q ∈ qs, q.length ≤ WORKER_QUEUE_LEN) :
    (dispatch_phase jobs ready d qs).2.length = qs.length ∧
      ∀ q ∈ (dispatch_phase jobs ready d qs).2, q.length ≤ WORKER_QUEUE_LEN := by
  induction ready generalizing d qs with
  | nil => exact ⟨rfl, hq⟩
  | cons r rest ih =>
    unfold dispatch_phase
    by_cases hb : d < DISPATCH_BUDGET
    · rw [if_pos hb]
      cases hj : job_at jobs r.job_id with
      | none => exact ⟨rfl, hq⟩
      | some jb =>
        simp only
        by_cases hlen : (qs.getD (select_worker (qs.map List.length)) []).length
            < WORKER_QUEUE_LEN
        · rw [if_pos hlen]
          have hq' : ∀ q ∈ qs.set (select_worker (qs.map List.length))
              (qs.getD (select_worker (qs.map List.length)) [] ++ [cmd_of jb r]),
              q.length ≤ WORKER_QUEUE_LEN := by
            intro q hmem
            rcases List.mem_or_eq_of_mem_set hmem with h | h
            · exact hq q h
            · rw [h, List.length_append, List.length_singleton]
              omega
          obtain ⟨h1, h2⟩ := ih (d + 1) _ hq'
          exact ⟨by rw [h1, List.length_set], h2⟩
        · rw [if_neg hlen]
          exact ih d qs hq
    · rw [if_neg hb]
      exact ⟨rfl, hq⟩

/-- The shape every reachable state of the system has. -/
theorem sys_step_shape (s : sys_state) (e : sys_event)
    (h : s.sched.q_worker.length = NUM_WORKERS ∧ s.held.length = NUM_WORKERS ∧
      ∀ q ∈ s.sched.q_worker, q.length ≤ WORKER_QUEUE_LEN) :
    (sys_step s e).sched.q_worker.length = NUM_WORKERS ∧
      (sys_step s e).held.length = NUM_WORKERS ∧
      ∀ q ∈ (sys_step s e).sched.q_worker, q.length ≤ WORKER_QUEUE_LEN := by
  obtain ⟨h1, h2, h3⟩ := h
  cases e with
  | tick tnow =>
    obtain ⟨d1, d2⟩ := dispatch_phase_bounded (release_phase tnow s.sched.jobs).1
      (sort_ready (release_phase tnow s.sched.jobs).2) 0 s.sched.q_worker h3
    exact ⟨by simp only [sys_step, scheduler_tick]; rw [d1, h1], h2,
      by simp only [sys_step, scheduler_tick]; exact d2⟩
  | recv wid =>
    unfold sys_step
    simp only
    cases hh : s.held[wid]? with
    | none => exact ⟨h1, h2, h3⟩
    | some o =>
      cases o with
      | some cmd => exact ⟨h1, h2, h3⟩
      | none =>
        simp only
        unfold worker_receive
        cases hq : s.sched.q_worker[wid]? with
        | none => exact ⟨h1, h2, h3⟩
        | some q =>
          cases q with
          | nil => exact ⟨h1, h2, h3⟩
          | cons c rest =>
            simp only
            refine ⟨by rw [List.length_set, h1], by rw [List.length_set, h2], ?_⟩
            intro q hmem
            rcases List.mem_or_eq_of_mem_set hmem with h | h
            · exact h3 q h
            · have := h3 _ (List.getElem?_mem hq)
              rw [h]
              rw [List.length_cons] at this
              omega
  | done wid fin_us =>
    unfold sys_step
    simp only
    cases hh : s.held[wid]? with
    | none => exact ⟨h1, h2, h3⟩
    | some o =>
      cases o with
      | none => exact ⟨h1, h2, h3⟩
      | some cmd =>
        simp only
        have hw : (worker_send cmd fin_us s.sched).q_worker = s.sched.q_worker := by
          unfold worker_send
          split <;> rfl
        rw [hw]
        exact ⟨h1, by rw [List.length_set, h2], h3⟩
  | writes ws => exact ⟨h1, h2, h3⟩

theorem sys_run_shape (events : List sys_event) (s : sys_state)
    (h : s.sched.q_worker.length = NUM_WORKERS ∧ s.held.length = NUM_WORKERS ∧
      ∀ q ∈ s.sched.q_worker, q.length ≤ WORKER_QUEUE_LEN) :
    (sys_run events s).sched.q_worker.length = NUM_WORKERS ∧
      (sys_run events s).held.length = NUM_WORKERS ∧
      ∀ q ∈ (sys_run events s).sched.q_worker, q.length ≤ WORKER_QUEUE_LEN := by
  induction events generalizing s with
  | nil => exact h
  | cons e rest ih => exact ih (sys_step s e) (sys_step_shape s e h)

theorem sys_init_shape (t0 : Int) :
    (sys_init t0).sched.q_worker.length = NUM_WORKERS ∧
      (sys_init t0).held.length = NUM_WORKERS ∧
      ∀ q ∈ (sys_init t0).sched.q_worker, q.length ≤ WORKER_QUEUE_LEN := by
  refine ⟨rfl, rfl, ?_⟩
  intro q hq
  simp only [sys_init, sched_start, List.mem_cons, List.mem_singleton, List.not_mem_nil,
    or_false, or_self] at hq
  rw [hq]
  exact Nat.zero_le _

set_option maxRecDepth 100000 in
/-- Claim C21 evaluated on the code: in the run `ex_fill_run` from start time 0
the first iteration dispatches three commands, each worker receives one, and
eleven more iterations fill both worker queues: 32 commands are queued and 2
more are held by the workers, so 34 commands have been dispatched and not yet
answered, more than `NUM_WORKERS * WORKER_QUEUE_LEN = 32`. -/
theorem in_flight_exceeds_queue_capacity :
    queued (sys_run ex_fill_run (sys_init 0)) = 32 ∧
      in_flight (sys_run ex_fill_run (sys_init 0)) = 34 ∧
      (sys_run ex_fill_run (sys_init 0)).sched.q_complete = [] ∧
      ¬ in_flight (sys_run ex_fill_run (sys_init 0)) ≤ NUM_WORKERS * WORKER_QUEUE_LEN := by
  decide

/-- Claim C21 as it holds on the code (in-flight bound): in every reachable
state of the system of scheduler iterations, worker receives, worker sends and
writes of the other tasks, at most `NUM_WORKERS * WORKER_QUEUE_LEN = 32`
commands wait in the worker queues, and the commands dispatched and not yet
answered, which are those and the ones the workers hold, are at most
`NUM_WORKERS * (WORKER_QUEUE_LEN + 1) = 34`. -/
theorem in_flight_bound (t0 : Int) (events : List sys_event) :
    queued (sys_run events (sys_init t0)) ≤ NUM_WORKERS * WORKER_QUEUE_LEN ∧
      in_flight (sys_run events (sys_init t0)) ≤ NUM_WORKERS * (WORKER_QUEUE_LEN + 1) ∧
      NUM_WORKERS * WORKER_QUEUE_LEN = 32 ∧ NUM_WORKERS * (WORKER_QUEUE_LEN + 1) = 34 := by
  obtain ⟨h1, h2, h3⟩ := sys_run_shape events (sys_init t0) (sys_init_shape t0)
  have hq : queued (sys_run events (sys_init t0)) ≤ NUM_WORKERS * WORKER_QUEUE_LEN := by
    unfold queued
    have := List.sum_le_card_nsmul ((sys_run events (sys_init t0)).sched.q_worker.map List.length)
      WORKER_QUEUE_LEN (by
        intro x hx
        obtain ⟨q, hq, e⟩ := List.mem_map.mp hx
        rw [← e]
        exact h3 q hq)
    rw [List.length_map, h1, smul_eq_mul] at this
    exact this
  refine ⟨hq, ?_, by decide, by decide⟩
  unfold in_flight
  have hf := List.length_filter_le Option.isSome (sys_run events (sys_init t0)).held
  rw [h2] at hf
  rw [Nat.mul_add, Nat.mul_one]
  exact Nat.add_le_add hq hf

/-! ## Index safety of the job table -/

theorem write_all_getElem (ws : Nat → job_writes) (k : Nat) (jobs : List job_desc_t)
    (i : Nat) :
    (write_all ws k jobs)[i]? = jobs[i]?.map (fun jb => write_job jb (ws (k + i))) := by
  induction jobs generalizing k i with
  | nil => simp [write_all]
  | cons j js ih =>
    unfold write_all
    cases i with
    | zero => simp
    | succ i =>
      simp only [List.getElem?_cons_succ]
      rw [ih (k + 1) i]
      have e : k + 1 + i = k + (i + 1) := by omega
      rw [e]

theorem write_all_length (ws : Nat → job_writes) (k : Nat) (jobs : List job_desc_t) :
    (write_all ws k jobs).length = jobs.length := by
  induction jobs generalizing k with
  | nil => rfl
  | cons j js ih =>
    unfold write_all
    rw [List.length_cons, List.length_cons, ih]

theorem ids_ok_write_all (ws : Nat → job_writes) (jobs : List job_desc_t)
    (h : ids_ok jobs) : ids_ok (write_all ws 0 jobs) := by
  refine ⟨by rw [write_all_length]; exact h.1, ?_⟩
  intro i jb hi
  rw [write_all_getElem] at hi
  cases hj : jobs[i]? with
  | none =>
    rw [hj] at hi
    exact Option.noConfusion hi
  | some jb0 =>
    rw [hj] at hi
    have e : jb = write_job jb0 (ws (0 + i)) := (Option.some.inj hi).symm
    rw [e]
    exact h.2 i jb0 hj

theorem release_phase_length (tnow : Int) (jobs : List job_desc_t) :
    (release_phase tnow jobs).1.length = jobs.length ∧
      (release_phase tnow jobs).2.length ≤ jobs.length := by
  rw [release_phase_fst, release_phase_snd, List.length_map, List.length_map]
  exact ⟨rfl, List.length_filter_le _ _⟩

theorem ids_ok_release (tnow : Int) (jobs : List job_desc_t) (h : ids_ok jobs) :
    ids_ok (release_phase tnow jobs).1 := by
  refine ⟨by rw [(release_phase_length tnow jobs).1]; exact h.1, ?_⟩
  intro i jb hi
  rw [release_phase_getElem] at hi
  cases hj : jobs[i]? with
  | none =>
    rw [hj] at hi
    exact Option.noConfusion hi
  | some jb0 =>
    rw [hj] at hi
    have e := (Option.some.inj hi).symm
    rw [e]
    by_cases hd : tnow ≥ jb0.next_release_us
    · simp only [hd, if_true, release_job]
      exact h.2 i jb0 hj
    · simp only [hd, if_false]
      exact h.2 i jb0 hj

theorem collect_one_length (jobs : List job_desc_t) (c : completion_t) :
    (collect_one jobs c).length = jobs.length := by
  unfold collect_one
  cases job_at jobs c.job_id <;> simp

theorem ids_ok_collect_one (jobs : List job_desc_t) (c : completion_t) (h : ids_ok jobs) :
    ids_ok (collect_one jobs c) := by
  refine ⟨by rw [collect_one_length]; exact h.1, ?_⟩
  intro i jb hi
  have hlt : i < jobs.length := by
    have := (List.getElem?_eq_some_iff.mp hi).1
    rw [collect_one_length] at this
    exact this
  have hj : jobs[i]? = some jobs[i] := List.getElem?_eq_getElem hlt
  rw [collect_one_getElem jobs c i _ hj] at hi
  have e := (Option.some.inj hi).symm
  rw [e]
  by_cases hc : (i : Int) = c.job_id
  · simp only [hc, if_true, account_job]
    rw [← hc]
    exact h.2 i _ hj
  · simp only [hc, if_false]
    exact h.2 i _ hj

theorem ids_ok_collect (jobs : List job_desc_t) (q : List completion_t) (h : ids_ok jobs) :
    ids_ok (collect_phase jobs q) := by
  induction q generalizing jobs with
  | nil => exact h
  | cons c q ih => exact ih (collect_one jobs c) (ids_ok_collect_one jobs c h)

theorem job_at_of_ids (jobs : List job_desc_t) (h : ids_ok jobs) (id : Int)
    (hid : id_in_range id) : ∃ jb, job_at jobs id = some jb ∧ jb.id = id := by
  obtain ⟨h0, h1⟩ := hid
  have hlt : id.toNat < jobs.length := by
    rw [h.1]
    omega
  refine ⟨jobs[id.toNat], ?_, ?_⟩
  · unfold job_at
    rw [if_pos h0]
    exact List.getElem?_eq_getElem hlt
  · rw [h.2 id.toNat _ (List.getElem?_eq_getElem hlt)]
    omega

theorem ready_item_origin (tnow : Int) (jobs : List job_desc_t) (h : ids_ok jobs)
    (r : ready_item_t) (hr : r ∈ (release_phase tnow jobs).2) :
    id_in_range r.job_id ∧
      ∃ jb, jobs[r.job_id.toNat]? = some jb ∧ tnow ≥ jb.next_release_us ∧ r = ready_of jb := by
  rw [release_phase_snd] at hr
  obtain ⟨jb, hjb, e⟩ := List.mem_map.mp hr
  obtain ⟨hmem, hdue⟩ := List.mem_filter.mp hjb
  obtain ⟨i, hi, hget⟩ := List.getElem_of_mem hmem
  have hsome : jobs[i]? = some jb := by
    rw [List.getElem?_eq_getElem hi, hget]
  have hid := h.2 i jb hsome
  have hrid : r.job_id = (i : Int) := by
    rw [← e]
    exact hid
  refine ⟨?_, jb, ?_, by simpa using hdue, e.symm⟩
  · rw [hrid]
    refine ⟨by omega, ?_⟩
    rw [h.1] at hi
    exact_mod_cast hi
  · rw [hrid]
    exact hsome

theorem sort_ready_mem (ready : List ready_item_t) (r : ready_item_t) :
    r ∈ sort_ready ready ↔ r ∈ ready := by
  rw [sort_ready_eq_sel_sort]
  exact (sel_sort_perm _ _).mem_iff

theorem sys_step_ids (s : sys_state) (e : sys_event) (h : sys_ids_ok s) :
    sys_ids_ok (sys_step s e) := by
  obtain ⟨h1, h2, h3, h4⟩ := h
  cases e with
  | tick tnow =>
    refine ⟨?_, ?_, h3, ?_⟩
    · exact ids_ok_collect _ _ (ids_ok_release tnow _ h1)
    · intro q hq cmd hcmd
      rcases dispatch_phase_cmds _ _ _ _ q hq cmd hcmd with ⟨q0, hq0, hc0⟩ | ⟨r, hr, jb, _, e⟩
      · exact h2 q0 hq0 cmd hc0
      · rw [e]
        exact (ready_item_origin tnow _ h1 r ((sort_ready_mem _ r).mp hr)).1
    · intro comp hcomp
      exact absurd hcomp (List.not_mem_nil comp)
  | recv wid =>
    unfold sys_step
    simp only
    cases hh : s.held[wid]? with
    | none => exact ⟨h1, h2, h3, h4⟩
    | some o =>
      cases o with
      | some cmd => exact ⟨h1, h2, h3, h4⟩
      | none =>
        simp only
        unfold worker_receive
        cases hq : s.sched.q_worker[wid]? with
        | none => exact ⟨h1, h2, h3, h4⟩
        | some q =>
          cases q with
          | nil => exact ⟨h1, h2, h3, h4⟩
          | cons c rest =>
            simp only
            have hqm := List.getElem?_mem hq
            refine ⟨h1, ?_, ?_, h4⟩
            · intro q hmem cmd hcmd
              rcases List.mem_or_eq_of_mem_set hmem with hm | hm
              · exact h2 q hm cmd hcmd
              · rw [hm] at hcmd
                exact h2 _ hqm cmd (List.mem_cons_of_mem _ hcmd)
            · intro cmd hcmd
              rcases List.mem_or_eq_of_mem_set hcmd with hm | hm
              · exact h3 cmd hm
              · rw [Option.some.inj hm]
                exact h2 _ hqm c (List.mem_cons_self _ _)
  | done wid fin_us =>
    unfold sys_step
    simp only
    cases hh : s.held[wid]? with
    | none => exact ⟨h1, h2, h3, h4⟩
    | some o =>
      cases o with
      | none => exact ⟨h1, h2, h3, h4⟩
      | some cmd =>
        simp only
        have hcmd : id_in_range cmd.job_id := h3 cmd (List.getElem?_mem hh)
        unfold worker_send
        by_cases hl : s.sched.q_complete.length < COMPLETE_QUEUE_LEN
        · rw [if_pos hl]
          refine ⟨h1, h2, ?_, ?_⟩
          · intro c hc
            rcases List.mem_or_eq_of_mem_set hc with hm | hm
            · exact h3 c hm
            · exact Option.noConfusion hm
          · intro comp hcomp
            rcases List.mem_append.mp hcomp with hm | hm
            · exact h4 comp hm
            · rw [List.mem_singleton.mp hm]
              exact hcmd
        · rw [if_neg hl]
          refine ⟨h1, h2, ?_, h4⟩
          intro c hc
          rcases List.mem_or_eq_of_mem_set hc with hm | hm
          · exact h3 c hm
          · exact Option.noConfusion hm
  | writes ws => exact ⟨ids_ok_write_all ws _ h1, h2, h3, h4⟩

theorem sys_run_ids (events : List sys_event) (s : sys_state) (h : sys_ids_ok s) :
    sys_ids_ok (sys_run events s) := by
  induction events generalizing s with
  | nil => exact h
  | cons e rest ih => exact ih (sys_step s e) (sys_step_ids s e h)

theorem sys_init_ids (t0 : Int) : sys_ids_ok (sys_init t0) := by
  refine ⟨⟨rfl, ?_⟩, ?_, ?_, ?_⟩
  · intro i jb hi
    simp only [sys_init, sched_start, g_jobs, List.map_cons, List.map_nil] at hi
    match i, hi with
    | 0, hi =>
      simp only [List.getElem?_cons_zero, Option.some.injEq] at hi
      rw [← hi]
      rfl
    | 1, hi =>
      simp only [List.getElem?_cons_succ, List.getElem?_cons_zero, Option.some.injEq] at hi
      rw [← hi]
      rfl
    | 2, hi =>
      simp only [List.getElem?_cons_succ, List.getElem?_cons_zero, Option.some.injEq] at hi
      rw [← hi]
      rfl
    | n + 3, hi => simp at hi
  · intro q hq cmd hcmd
    simp only [sys_init, sched_start, List.mem_cons, List.mem_singleton, List.not_mem_nil,
      or_false, or_self] at hq
    rw [hq] at hcmd
    exact absurd hcmd (List.not_mem_nil cmd)
  · intro cmd hcmd
    simp [sys_init] at hcmd
  · intro comp hcomp
    exact absurd hcomp (List.not_mem_nil comp)

/-- Claim C25 (index safety of the job table): `g_jobs[i].id == i` for every
`i < NUM_JOBS`; in every reachable state of the system the table keeps its
`NUM_JOBS` rows with `id == i`; the release phase of an iteration at any time
`tnow` writes at most `NUM_JOBS` ready items; every ranked ready item carries
a `job_id` in `[0, NUM_JOBS)`, is the item built from the row with that index,
which was due, and the lookup `g_jobs[ready[k].job_id]` of the dispatch phase
finds the row with that `id`; every queued or held command and every queued
completion record carries a `job_id` in `[0, NUM_JOBS)`, and the lookup
`g_jobs[comp.job_id]` of the collection phase finds the row with that `id`. -/
theorem job_index_safe (t0 : Int) (events : List sys_event) :
    (∀ i : Nat, i < NUM_JOBS → g_jobs[i]?.map (fun jb => jb.id) = some (i : Int)) ∧
      ids_ok (sys_run events (sys_init t0)).sched.jobs ∧
      (∀ tnow : Int,
        (release_phase tnow (sys_run events (sys_init t0)).sched.jobs).2.length ≤ NUM_JOBS ∧
        (∀ r ∈ sort_ready (release_phase tnow (sys_run events (sys_init t0)).sched.jobs).2,
          id_in_range r.job_id ∧
            (∃ jb, (sys_run events (sys_init t0)).sched.jobs[r.job_id.toNat]? = some jb ∧
              tnow ≥ jb.next_release_us ∧ r = ready_of jb) ∧
            ∃ jb, job_at (release_phase tnow (sys_run events (sys_init t0)).sched.jobs).1
                r.job_id = some jb ∧ jb.id = r.job_id) ∧
        (∀ comp ∈ (sys_run events (sys_init t0)).sched.q_complete,
          ∃ jb, job_at (release_phase tnow (sys_run events (sys_init t0)).sched.jobs).1
              comp.job_id = some jb ∧ jb.id = comp.job_id)) ∧
      (∀ q ∈ (sys_run events (sys_init t0)).sched.q_worker, ∀ cmd ∈ q,
        id_in_range cmd.job_id) ∧
      (∀ cmd : worker_cmd_t, some cmd ∈ (sys_run events (sys_init t0)).held →
        id_in_range cmd.job_id ∧
          ∀ fin_us : Int, id_in_range (completion_of cmd fin_us).job_id) ∧
      (∀ comp ∈ (sys_run events (sys_init t0)).sched.q_complete,
        id_in_range comp.job_id) := by
  obtain ⟨h1, h2, h3, h4⟩ := sys_run_ids events (sys_init t0) (sys_init_ids t0)
  refine ⟨?_, h1, ?_, h2, ?_, h4⟩
  · intro i hi
    unfold NUM_JOBS at hi
    match i, hi with
    | 0, _ => rfl
    | 1, _ => rfl
    | 2, _ => rfl
  · intro tnow
    refine ⟨?_, ?_, ?_⟩
    · rw [← h1.1]
      exact (release_phase_length tnow _).2
    · intro r hr
      obtain ⟨ha, hb⟩ := ready_item_origin tnow _ h1 r ((sort_ready_mem _ r).mp hr)
      exact ⟨ha, hb, job_at_of_ids _ (ids_ok_release tnow _ h1) _ ha⟩
    · intro comp hcomp
      exact job_at_of_ids _ (ids_ok_release tnow _ h1) _ (h4 comp hcomp)
  · intro cmd hcmd
    exact ⟨h3 cmd hcmd, fun _ => h3 cmd hcmd⟩

/-! ## Scenario A -/

theorem scheduler_tick_idle (tnow : Int) (s : sched_state)
    (h : ∀ jb ∈ s.jobs, ¬ tnow ≥ jb.next_release_us) :
    (release_phase tnow s.jobs).2 = [] ∧
      scheduler_tick tnow s =
        { jobs := collect_phase s.jobs s.q_complete, q_worker := s.q_worker,
          q_complete := [] } := by
  have h1 : (release_phase tnow s.jobs).1 = s.jobs := by
    rw [release_phase_fst]
    conv_rhs => rw [← List.map_id s.jobs]
    apply List.map_congr_left
    intro jb hjb
    rw [if_neg (h jb hjb)]
    rfl
  have h2 : (release_phase tnow s.jobs).2 = [] := by
    rw [release_phase_snd, List.map_eq_nil_iff, List.filter_eq_nil_iff]
    intro jb hjb
    simpa using h jb hjb
  refine ⟨h2, ?_⟩
  unfold scheduler_tick
  simp only [h1, h2]
  rfl

theorem sort_ready_single (r : ready_item_t) : sort_ready [r] = [r] := rfl

theorem dispatch_phase_single (jobs : List job_desc_t) (r : ready_item_t) (jb : job_desc_t)
    (h : job_at jobs r.job_id = some jb) :
    dispatch_phase jobs [r] 0 [[], []] = (1, [[cmd_of jb r], []]) := by
  have hb : 0 < DISPATCH_BUDGET := by decide
  have hw : select_worker (([[], []] : List (List worker_cmd_t)).map List.length) = 0 := by
    decide
  have hl : (([[], []] : List (List worker_cmd_t)).getD 0 []).length < WORKER_QUEUE_LEN := by
    decide
  rw [dispatch_phase, if_pos hb, h]
  simp only [hw]
  rw [if_pos hl]
  rfl

theorem scenario_a_first_tick (t0 : Int) :
    (release_phase t0 [scenario_a_job t0]).2 = [ready_of (scenario_a_job t0)] ∧
      scheduler_tick t0 (scenario_a_init t0).sched =
        { jobs := [release_job (scenario_a_job t0)],
          q_worker := [[cmd_of (release_job (scenario_a_job t0)) (ready_of (scenario_a_job t0))],
            []],
          q_complete := [] } := by
  have hdue : t0 ≥ (scenario_a_job t0).next_release_us := le_refl _
  have h1 : release_phase t0 [scenario_a_job t0] =
      ([release_job (scenario_a_job t0)], [ready_of (scenario_a_job t0)]) := by
    simp only [release_phase, hdue, if_true]
  refine ⟨by rw [h1], ?_⟩
  unfold scheduler_tick scenario_a_init
  simp only [h1, sort_ready_single]
  have hj : job_at [release_job (scenario_a_job t0)] (ready_of (scenario_a_job t0)).job_id =
      some (release_job (scenario_a_job t0)) := rfl
  rw [dispatch_phase_single _ _ _ hj]
  rfl

theorem scenario_a_release_job (t0 : Int) :
    release_job (scenario_a_job t0) =
      { scenario_a_job t0 with next_release_us := t0 + 100000, releases := 1 } := by
  unfold release_job scenario_a_job job_init
  simp only [U32_MOD]
  norm_num

theorem scenario_a_account (t0 : Int) :
    account_job (release_job (scenario_a_job t0))
        (completion_of (cmd_of (release_job (scenario_a_job t0)) (ready_of (scenario_a_job t0)))
          (t0 + 10000)) =
      { scenario_a_job t0 with
        next_release_us := t0 + 100000, releases := 1, completions := 1,
        deadline_miss := 0, sum_response_ms := 10, max_response_ms := 10 } := by
  rw [scenario_a_release_job]
  unfold account_job resp_ms_of completion_of cmd_of ready_of scenario_a_job job_init
  simp only [U32_MOD, U64_MOD]
  have e : (t0 + 10000 - t0).tdiv 1000 = 10 := by
    rw [add_sub_cancel_left]
    decide
  rw [e]
  have e2 : ((10 : Int) % ((4294967296 : Nat) : Int)).toNat = 10 := by decide
  have e3 : ¬ (t0 + 10000 > t0 + ((50 : Nat) : Int) * 1000) := by omega
  rw [e2]
  simp only [e3, decide_False]
  norm_num

theorem scenario_a_idle (t0 : Int) (k : Nat) (hk : k < 10) (jb : job_desc_t)
    (q : List completion_t) (qs : List (List worker_cmd_t))
    (hjb : jb.next_release_us = t0 + 100000) :
    (release_phase (t0 + 10000 * (k : Int)) [jb]).2 = [] ∧
      scheduler_tick (t0 + 10000 * (k : Int)) { jobs := [jb], q_worker := qs, q_complete := q } =
        { jobs := collect_phase [jb] q, q_worker := qs, q_complete := [] } := by
  apply scheduler_tick_idle (t0 + 10000 * (k : Int))
    { jobs := [jb], q_worker := qs, q_complete := q }
  intro x hx
  rw [List.mem_singleton.mp hx, hjb]
  omega

theorem scenario_a_collect (t0 : Int) :
    collect_phase [release_job (scenario_a_job t0)]
        [completion_of (cmd_of (release_job (scenario_a_job t0)) (ready_of (scenario_a_job t0)))
          (t0 + 10000)] =
      [{ scenario_a_job t0 with
        next_release_us := t0 + 100000, releases := 1, completions := 1,
        deadline_miss := 0, sum_response_ms := 10, max_response_ms := 10 }] := by
  rw [← scenario_a_account]
  rfl

theorem scenario_a_tick_step (t0 : Int) (k : Nat) (hk : k < 10) (jb : job_desc_t)
    (q : List completion_t) (qs : List (List worker_cmd_t)) (held : List (Option worker_cmd_t))
    (hjb : jb.next_release_us = t0 + 100000) :
    sys_step { sched := { jobs := [jb], q_worker := qs, q_complete := q }, held := held }
        (.tick (t0 + 10000 * (k : Int))) =
      { sched := { jobs := collect_phase [jb] q, q_worker := qs, q_complete := [] },
        held := held } := by
  unfold sys_step
  simp only
  rw [(scenario_a_idle t0 k hk jb q qs hjb).2]

/-- Claim C22 (scenario A): for the single job with period 100 ms, cost 10 ms
and relative deadline 50 ms whose `next_release_us` is the start time `t0`, the
release phases at the ten tick times `t0, t0 + 10 ms, ..., t0 + 90 ms` release
the job exactly once, at the first tick, with `release_us = t0`
(`releases == 1`, nine empty ready lists); and in the run in which a worker
receives the command and sends its record 10 ms after the release, the ten
iterations leave `releases = 1`, `completions = 1` and `deadline_miss = 0`
(response time 10 ms), all queues empty and both workers idle. -/
theorem scenario_a_outcome (t0 : Int) :
    release_run (scenario_a_ticks t0) [scenario_a_job t0] =
        ([{ scenario_a_job t0 with next_release_us := t0 + 100000, releases := 1 }],
          [ready_of (scenario_a_job t0)] :: List.replicate 9 []) ∧
      (ready_of (scenario_a_job t0)).release_us = t0 ∧
      (sys_run (scenario_a_run t0) (scenario_a_init t0)).sched =
        { jobs := [{ scenario_a_job t0 with
            next_release_us := t0 + 100000, releases := 1, completions := 1,
            deadline_miss := 0, sum_response_ms := 10, max_response_ms := 10 }],
          q_worker := [[], []], q_complete := [] } ∧
      (sys_run (scenario_a_run t0) (scenario_a_init t0)).held = [none, none] := by
  have hJ := scenario_a_release_job t0
  have hnr : (release_job (scenario_a_job t0)).next_release_us = t0 + 100000 := by
    rw [hJ]
  refine ⟨?_, rfl, ?_⟩
  · have hticks : scenario_a_ticks t0 =
        [t0, t0 + 10000 * ((1 : Nat) : Int), t0 + 10000 * ((2 : Nat) : Int),
          t0 + 10000 * ((3 : Nat) : Int), t0 + 10000 * ((4 : Nat) : Int),
          t0 + 10000 * ((5 : Nat) : Int), t0 + 10000 * ((6 : Nat) : Int),
          t0 + 10000 * ((7 : Nat) : Int), t0 + 10000 * ((8 : Nat) : Int),
          t0 + 10000 * ((9 : Nat) : Int)] := by
      unfold scenario_a_ticks
      simp [List.range, List.range.loop]
    have h0 : release_phase t0 [scenario_a_job t0] =
        ([release_job (scenario_a_job t0)], [ready_of (scenario_a_job t0)]) := by
      have hdue : t0 ≥ (scenario_a_job t0).next_release_us := le_refl _
      simp only [release_phase, hdue, if_true]
    have hidle : ∀ k : Nat, k < 10 → 1 ≤ k →
        release_phase (t0 + 10000 * (k : Int)) [release_job (scenario_a_job t0)] =
          ([release_job (scenario_a_job t0)], []) := by
      intro k hk hk1
      have hnd : ¬ (t0 + 10000 * (k : Int) ≥ (release_job (scenario_a_job t0)).next_release_us) := by
        rw [hnr]
        omega
      simp only [release_phase, hnd, if_false]
    rw [hticks]
    simp only [release_run, h0, hidle 1 (by decide) (by decide), hidle 2 (by decide) (by decide),
      hidle 3 (by decide) (by decide), hidle 4 (by decide) (by decide),
      hidle 5 (by decide) (by decide), hidle 6 (by decide) (by decide),
      hidle 7 (by decide) (by decide), hidle 8 (by decide) (by decide),
      hidle 9 (by decide) (by decide)]
    rw [hJ]
    rfl
  · have hrun : scenario_a_run t0 =
        [.tick t0, .recv 0, .done 0 (t0 + 10000),
          .tick (t0 + 10000 * ((1 : Nat) : Int)), .tick (t0 + 10000 * ((2 : Nat) : Int)),
          .tick (t0 + 10000 * ((3 : Nat) : Int)), .tick (t0 + 10000 * ((4 : Nat) : Int)),
          .tick (t0 + 10000 * ((5 : Nat) : Int)), .tick (t0 + 10000 * ((6 : Nat) : Int)),
          .tick (t0 + 10000 * ((7 : Nat) : Int)), .tick (t0 + 10000 * ((8 : Nat) : Int)),
          .tick (t0 + 10000 * ((9 : Nat) : Int))] := rfl
    have st1 : sys_step (scenario_a_init t0) (.tick t0) =
        { sched :=
            { jobs := [release_job (scenario_a_job t0)],
              q_worker :=
                [[cmd_of (release_job (scenario_a_job t0)) (ready_of (scenario_a_job t0))], []],
              q_complete := [] },
          held := [none, none] } := by
      unfold sys_step
      simp only
      rw [(scenario_a_first_tick t0).2]
      rfl
    have st2 : sys_step
        { sched :=
            { jobs := [release_job (scenario_a_job t0)],
              q_worker :=
                [[cmd_of (release_job (scenario_a_job t0)) (ready_of (scenario_a_job t0))], []],
              q_complete := [] },
          held := [none, none] } (.recv 0) =
        { sched :=
            { jobs := [release_job (scenario_a_job t0)], q_worker := [[], []],
              q_complete := [] },
          held :=
            [some (cmd_of (release_job (scenario_a_job t0)) (ready_of (scenario_a_job t0))),
              none] } := rfl
    have st3 : sys_step
        { sched :=
            { jobs := [release_job (scenario_a_job t0)], q_worker := [[], []],
              q_complete := [] },
          held :=
            [some (cmd_of (release_job (scenario_a_job t0)) (ready_of (scenario_a_job t0))),
              none] } (.done 0 (t0 + 10000)) =
        { sched :=
            { jobs := [release_job (scenario_a_job t0)], q_worker := [[], []],
              q_complete :=
                [completion_of
                  (cmd_of (release_job (scenario_a_job t0)) (ready_of (scenario_a_job t0)))
                  (t0 + 10000)] },
          held := [none, none] } := rfl
    have hc0 : ∀ jb : job_desc_t, collect_phase [jb] [] = [jb] := fun _ => rfl
    rw [hrun]
    unfold sys_run
    simp only [List.foldl_cons, List.foldl_nil]
    rw [st1, st2, st3,
      scenario_a_tick_step t0 1 (by decide) _ _ _ _ hnr, scenario_a_collect,
      scenario_a_tick_step t0 2 (by decide) _ _ _ _ rfl, hc0,
      scenario_a_tick_step t0 3 (by decide) _ _ _ _ rfl, hc0,
      scenario_a_tick_step t0 4 (by decide) _ _ _ _ rfl, hc0,
      scenario_a_tick_step t0 5 (by decide) _ _ _ _ rfl, hc0,
      scenario_a_tick_step t0 6 (by decide) _ _ _ _ rfl, hc0,
      scenario_a_tick_step t0 7 (by decide) _ _ _ _ rfl, hc0,
      scenario_a_tick_step t0 8 (by decide) _ _ _ _ rfl, hc0,
      scenario_a_tick_step t0 9 (by decide) _ _ _ _ rfl, hc0]
    exact ⟨rfl, rfl⟩

/-! ## binary32: rounding keeps the order with representable values -/

/-- A quotient of at least `c * 2 ^ e` units, `c < 2 ^ 24`, rounds to at least
that many units. -/
theorem f32_round_ge_rep (a b c e : Nat) (hb : 0 < b) (hc : c < 2 ^ 24)
    (h : b * (c * 2 ^ e) ≤ a) :
    f32_round a b = f32.inf ∨ ∃ n, f32_round a b = f32.fin n ∧ c * 2 ^ e ≤ n := by
  have hq : c * 2 ^ e ≤ a / b := by
    rw [Nat.le_div_iff_mul_le hb, Nat.mul_comm]
    exact h
  have hn : c * 2 ^ e ≤ rne_div a (b * 2 ^ (if a / b < 2 ^ 24 then 0 else ilog2 (a / b) - 23)) *
      2 ^ (if a / b < 2 ^ 24 then 0 else ilog2 (a / b) - 23) := by
    by_cases hlt : a / b < 2 ^ 24
    · rw [if_pos hlt, Nat.pow_zero, Nat.mul_one, Nat.mul_one]
      exact le_trans hq (rne_div_ge _ _)
    · rw [if_neg hlt]
      have hsq := round_shift_quot (a / b) hlt
      generalize ilog2 (a / b) - 23 = s at hsq ⊢
      have h1 : a / b / 2 ^ s ≤ rne_div a (b * 2 ^ s) := by
        rw [Nat.div_div_eq_div_mul]
        exact rne_div_ge _ _
      by_cases hse : s ≤ e
      · have e1 : c * 2 ^ e = c * 2 ^ (e - s) * 2 ^ s := by
          rw [Nat.mul_assoc, ← Nat.pow_add]
          congr 2
          omega
        have h2 : c * 2 ^ (e - s) ≤ a / b / 2 ^ s := by
          rw [Nat.le_div_iff_mul_le (Nat.pow_pos (by decide)), ← e1]
          exact hq
        rw [e1]
        exact Nat.mul_le_mul_right _ (le_trans h2 h1)
      · have h3 : 2 ^ 23 * 2 ^ s ≤ rne_div a (b * 2 ^ s) * 2 ^ s :=
          Nat.mul_le_mul_right _ (le_trans hsq h1)
        have h4 : c * 2 ^ e ≤ 2 ^ 24 * 2 ^ e :=
          Nat.mul_le_mul_right _ (Nat.le_of_lt hc)
        have h5 : 2 ^ 24 * 2 ^ e ≤ 2 ^ 23 * 2 ^ s := by
          rw [← Nat.pow_add, ← Nat.pow_add]
          exact Nat.pow_le_pow_right (by decide) (by omega)
        exact le_trans h4 (le_trans h5 h3)
  rw [f32_round_eq]
  generalize rne_div a (b * 2 ^ (if a / b < 2 ^ 24 then 0 else ilog2 (a / b) - 23)) *
      2 ^ (if a / b < 2 ^ 24 then 0 else ilog2 (a / b) - 23) = N at hn ⊢
  by_cases hlt : N < F32_OVF
  · rw [if_pos hlt]
    exact Or.inr ⟨N, rfl, hn⟩
  · rw [if_neg hlt]
    exact Or.inl rfl

/-- A quotient of at most `c * 2 ^ e` units, `c < 2 ^ 24`, below the overflow
threshold, rounds to a finite value of at most that many units. -/
theorem f32_round_le_rep (a b c e : Nat) (hb : 0 < b) (hc : c < 2 ^ 24)
    (h : a ≤ b * (c * 2 ^ e)) (hovf : c * 2 ^ e < F32_OVF) :
    ∃ n, f32_round a b = f32.fin n ∧ n ≤ c * 2 ^ e := by
  have hq : a / b ≤ c * 2 ^ e := by
    rw [Nat.div_le_iff_le_mul_add_pred hb]
    exact le_trans h (Nat.le_add_right _ _)
  have hse : (if a / b < 2 ^ 24 then 0 else ilog2 (a / b) - 23) ≤ e := by
    by_cases hlt : a / b < 2 ^ 24
    · rw [if_pos hlt]
      exact Nat.zero_le _
    · rw [if_neg hlt]
      have h1 : 1 ≤ a / b := le_trans (Nat.pow_pos (by decide)) (Nat.le_of_not_lt hlt)
      have h2 := ilog2_le (a / b) h1
      have h3 : c * 2 ^ e < 2 ^ 24 * 2 ^ e :=
        Nat.mul_lt_mul_of_pos_right hc (Nat.pow_pos (by decide))
      rw [← Nat.pow_add] at h3
      have h4 : 2 ^ ilog2 (a / b) < 2 ^ (24 + e) := lt_of_le_of_lt (le_trans h2 hq) h3
      have h5 := (Nat.pow_lt_pow_iff_right (by decide)).mp h4
      omega
  have hn : rne_div a (b * 2 ^ (if a / b < 2 ^ 24 then 0 else ilog2 (a / b) - 23)) *
      2 ^ (if a / b < 2 ^ 24 then 0 else ilog2 (a / b) - 23) ≤ c * 2 ^ e := by
    generalize (if a / b < 2 ^ 24 then 0 else ilog2 (a / b) - 23) = s at hse ⊢
    have e1 : c * 2 ^ e = c * 2 ^ (e - s) * 2 ^ s := by
      rw [Nat.mul_assoc, ← Nat.pow_add]
      congr 2
      omega
    have h4 : a ≤ b * 2 ^ s * (c * 2 ^ (e - s)) := by
      have e2 : b * 2 ^ s * (c * 2 ^ (e - s)) = b * (c * 2 ^ (e - s) * 2 ^ s) := by ring
      rw [e2, ← e1]
      exact h
    have h5 := rne_div_le_of_le a (b * 2 ^ s) (c * 2 ^ (e - s))
      (Nat.mul_pos hb (Nat.pow_pos (by decide))) h4
    rw [e1]
    exact Nat.mul_le_mul_right _ h5
  rw [f32_round_eq, if_pos (lt_of_le_of_lt hn hovf)]
  exact ⟨_, rfl, hn⟩

theorem relax_factor :
    f32_add (f32_lit 1 1) g_adapt_cfg.step_up_pct = f32.fin (10066330 * 2 ^ 126) := by
  decide

theorem tighten_factor :
    f32_sub (f32_lit 1 1) g_adapt_cfg.step_down_pct = f32.fin (15099494 * 2 ^ 125) := by
  decide

theorem f32_lit_half : f32_lit 5 10 = f32.fin (2 ^ 148) := by decide

theorem f32_to_uint32_fin (n : Nat) :
    f32_to_uint32 (f32.fin n) =
      if n / 2 ^ 149 < U32_MOD then n / 2 ^ 149 else U32_MOD - 1 := rfl

theorem f32_to_uint32_ge (x : f32) (p : Nat) (hp : p < 2 ^ 24)
    (h : x = f32.inf ∨ ∃ n, x = f32.fin n ∧ p * 2 ^ 149 ≤ n) :
    p ≤ f32_to_uint32 x := by
  have hp32 : p ≤ U32_MOD - 1 := by
    unfold U32_MOD
    have : (2 : Nat) ^ 24 = 16777216 := by decide
    omega
  rcases h with h | ⟨n, h, hn⟩
  · rw [h]
    exact hp32
  · rw [h, f32_to_uint32_fin]
    split_ifs
    · exact (Nat.le_div_iff_mul_le (Nat.pow_pos (by decide))).mpr hn
    · exact hp32

/-- The relax formula never returns less than the old period, for period
bounds below `2 ^ 24` ms. -/
theorem relax_period_ge_general (p maxP : Nat) (h1 : p ≤ maxP) (h2 : maxP < 2 ^ 24) :
    p ≤ relax_period g_adapt_cfg p maxP := by
  have hp : p < 2 ^ 24 := lt_of_le_of_lt h1 h2
  unfold relax_period
  simp only
  rw [relax_factor, f32_of_uint_exact p hp, f32_of_uint_exact maxP h2, f32_lit_half,
    f32_mul_fin]
  apply f32_to_uint32_ge _ p hp
  have hmul := f32_round_ge_rep (p * 2 ^ 149 * (10066330 * 2 ^ 126)) F32_UNIT p 149
    (Nat.pow_pos (by decide)) hp (by
      unfold F32_UNIT
      have e : (10066330 : Nat) * 2 ^ 126 = 2 ^ 149 + 1677722 * 2 ^ 126 := by decide
      rw [Nat.mul_comm (2 ^ 149) (p * 2 ^ 149), e, Nat.mul_add]
      exact Nat.le_add_right _ _)
  have hclamp : ∃ n2,
      (if f32_gt (f32_round (p * 2 ^ 149 * (10066330 * 2 ^ 126)) F32_UNIT)
          (f32.fin (maxP * 2 ^ 149)) = true
        then f32.fin (maxP * 2 ^ 149)
        else f32_round (p * 2 ^ 149 * (10066330 * 2 ^ 126)) F32_UNIT) = f32.fin n2 ∧
        p * 2 ^ 149 ≤ n2 := by
    rcases hmul with hinf | ⟨n1, hn1, hge⟩
    · rw [hinf]
      exact ⟨maxP * 2 ^ 149, rfl, Nat.mul_le_mul_right _ h1⟩
    · rw [hn1]
      by_cases hg : f32_gt (f32.fin n1) (f32.fin (maxP * 2 ^ 149)) = true
      · rw [if_pos hg]
        exact ⟨maxP * 2 ^ 149, rfl, Nat.mul_le_mul_right _ h1⟩
      · rw [if_neg hg]
        exact ⟨n1, rfl, hge⟩
  obtain ⟨n2, hn2, hge2⟩ := hclamp
  rw [hn2, f32_add_fin]
  exact f32_round_ge_rep (n2 + 2 ^ 148) 1 p 149 (by decide) hp (by
    rw [Nat.one_mul]
    exact le_trans hge2 (Nat.le_add_right _ _))

/-- The tighten formula never returns more than the old period, for periods
below `2 ^ 23` ms. -/
theorem tighten_period_le_general (p minP : Nat) (h1 : minP ≤ p) (h2 : p < 2 ^ 23) :
    tighten_period g_adapt_cfg p minP ≤ p := by
  have hp : p < 2 ^ 24 := lt_trans h2 (by decide)
  have hm : minP < 2 ^ 24 := lt_of_le_of_lt h1 hp
  have hU : (2 : Nat) ^ 149 = 2 ^ 24 * 2 ^ 125 := by rw [← Nat.pow_add]
  have hU2 : (2 : Nat) ^ 149 = 2 * 2 ^ 148 := by rw [← Nat.pow_succ']
  have hovf : p * 2 ^ 149 < F32_OVF := by
    unfold F32_OVF
    have : p * 2 ^ 149 < 2 ^ 24 * 2 ^ 149 :=
      Nat.mul_lt_mul_of_pos_right hp (Nat.pow_pos (by decide))
    exact lt_of_lt_of_le this (Nat.mul_le_mul_right _ (by decide))
  unfold tighten_period
  simp only
  rw [tighten_factor, f32_of_uint_exact p hp, f32_of_uint_exact minP hm, f32_lit_half,
    f32_mul_fin]
  obtain ⟨n1, hn1, hle1⟩ := f32_round_le_rep (p * 2 ^ 149 * (15099494 * 2 ^ 125)) F32_UNIT p 149
    (Nat.pow_pos (by decide)) hp (by
      unfold F32_UNIT
      rw [Nat.mul_comm (2 ^ 149) (p * 2 ^ 149)]
      apply Nat.mul_le_mul_left
      rw [hU]
      exact Nat.mul_le_mul_right _ (by decide)) hovf
  rw [hn1]
  have hclamp : ∃ n2,
      (if f32_lt (f32.fin n1) (f32.fin (minP * 2 ^ 149)) = true
        then f32.fin (minP * 2 ^ 149) else f32.fin n1) = f32.fin n2 ∧ n2 ≤ p * 2 ^ 149 := by
    by_cases hg : f32_lt (f32.fin n1) (f32.fin (minP * 2 ^ 149)) = true
    · rw [if_pos hg]
      exact ⟨minP * 2 ^ 149, rfl, Nat.mul_le_mul_right _ h1⟩
    · rw [if_neg hg]
      exact ⟨n1, rfl, hle1⟩
  obtain ⟨n2, hn2, hle2⟩ := hclamp
  rw [hn2, f32_add_fin]
  have hc : 2 * p + 1 < 2 ^ 24 := by
    have : (2 : Nat) ^ 24 = 2 * 2 ^ 23 := by decide
    omega
  have hm2 : (2 * p + 1) * 2 ^ 148 = p * 2 ^ 149 + 2 ^ 148 := by
    rw [hU2]
    ring
  obtain ⟨n3, hn3, hle3⟩ := f32_round_le_rep (n2 + 2 ^ 148) 1 (2 * p + 1) 148 (by decide) hc
    (by
      rw [Nat.one_mul, hm2]
      exact Nat.add_le_add_right hle2 _)
    (by
      unfold F32_OVF
      have : (2 * p + 1) * 2 ^ 148 < 2 ^ 24 * 2 ^ 148 :=
        Nat.mul_lt_mul_of_pos_right hc (Nat.pow_pos (by decide))
      have e : (2 : Nat) ^ 24 * 2 ^ 148 ≤ 2 ^ 128 * 2 ^ 149 :=
        Nat.mul_le_mul (by decide) (by decide)
      exact lt_of_lt_of_le this e)
  rw [hn3, f32_to_uint32_fin]
  have hdiv : n3 / 2 ^ 149 ≤ p := by
    rw [Nat.div_le_iff_le_mul_add_pred (Nat.pow_pos (by decide))]
    rw [hm2] at hle3
    have : 2 ^ 148 ≤ 2 ^ 149 - 1 := by
      rw [hU2]
      have := Nat.pow_pos (n := 148) (show 0 < 2 by decide)
      omega
    rw [Nat.mul_comm]
    exact le_trans hle3 (Nat.add_le_add_left this _)
  have h32 : n3 / 2 ^ 149 < U32_MOD := by
    unfold U32_MOD
    have : (2 : Nat) ^ 24 = 16777216 := by decide
    omega
  rw [if_pos h32]
  exact hdiv

/-! ## Controller: direction of an adjustment -/

theorem adapt_init_in_bounds : ∀ jb ∈ adapt_init.jobs, job_in_bounds jb := by
  unfold adapt_init g_jobs job_init job_in_bounds
  decide

theorem job_in_bounds_small (jb : job_desc_t) (h : job_in_bounds jb) :
    jb.min_period_ms ≤ jb.period_ms ∧ jb.period_ms ≤ jb.max_period_ms ∧
      jb.max_period_ms < 2 ^ 23 := by
  obtain ⟨hrow, hlo, hhi⟩ := h
  refine ⟨hlo, hhi, ?_⟩
  have e : (2 : Nat) ^ 23 = 8388608 := by decide
  rcases hrow with ⟨_, e2⟩ | ⟨_, e2⟩ | ⟨_, e2⟩ <;> omega

theorem adaptive_decide_period (cfg : adapt_cfg_t) (ema total_util : f32) (now_ms : Nat)
    (jb : job_desc_t) (last : Nat) :
    (adaptive_decide cfg ema total_util now_ms jb last).1.period_ms = jb.period_ms ∨
      (adaptive_decide cfg ema total_util now_ms jb last).1.period_ms =
        new_period cfg ema total_util jb := by
  rw [adaptive_decide_eq]
  split_ifs
  · exact Or.inr rfl
  · exact Or.inl rfl

/-- Claim C28 (direction of an adjustment): for every job whose old period lies
in `[min_period_ms, max_period_ms]`, with bounds below `2 ^ 23` ms as they are
for every job of every table the controller reaches from the configured one,
the period computed under a relax decision, and the period the decision leaves
in the table, is at least the old period, and under a tighten decision it is at
most the old period: clamping and rounding do not reverse the step. -/
theorem adjust_direction (ema total_util : f32) (now_ms : Nat) (jb : job_desc_t)
    (last : Nat) (hlo : jb.min_period_ms ≤ jb.period_ms)
    (hhi : jb.period_ms ≤ jb.max_period_ms) (hmax : jb.max_period_ms < 2 ^ 23) :
    (should_relax g_adapt_cfg ema total_util jb = true →
        jb.period_ms ≤ new_period g_adapt_cfg ema total_util jb ∧
          jb.period_ms ≤
            (adaptive_decide g_adapt_cfg ema total_util now_ms jb last).1.period_ms) ∧
      (should_relax g_adapt_cfg ema total_util jb = false →
        should_tighten g_adapt_cfg ema total_util jb = true →
        new_period g_adapt_cfg ema total_util jb ≤ jb.period_ms ∧
          (adaptive_decide g_adapt_cfg ema total_util now_ms jb last).1.period_ms ≤
            jb.period_ms) ∧
      jb.period_ms ≤ relax_period g_adapt_cfg jb.period_ms jb.max_period_ms ∧
      tighten_period g_adapt_cfg jb.period_ms jb.min_period_ms ≤ jb.period_ms ∧
      (∀ events : List cycle_event, ∀ j ∈ (adaptive_run events adapt_init).jobs,
        j.min_period_ms ≤ j.period_ms ∧ j.period_ms ≤ j.max_period_ms ∧
          j.max_period_ms < 2 ^ 23) := by
  have hr := relax_period_ge_general jb.period_ms jb.max_period_ms hhi
    (lt_trans hmax (by decide))
  have ht := tighten_period_le_general jb.period_ms jb.min_period_ms hlo
    (lt_of_le_of_lt hhi hmax)
  refine ⟨?_, ?_, hr, ht, ?_⟩
  · intro h
    have e : new_period g_adapt_cfg ema total_util jb =
        relax_period g_adapt_cfg jb.period_ms jb.max_period_ms := new_period_of_relax _ _ _ _ h
    refine ⟨by rw [e]; exact hr, ?_⟩
    rcases adaptive_decide_period g_adapt_cfg ema total_util now_ms jb last with h1 | h1
    · rw [h1]
    · rw [h1, e]
      exact hr
  · intro h1 h2
    have e : new_period g_adapt_cfg ema total_util jb =
        tighten_period g_adapt_cfg jb.period_ms jb.min_period_ms := by
      unfold new_period
      rw [h1, h2]
      simp
    refine ⟨by rw [e]; exact ht, ?_⟩
    rcases adaptive_decide_period g_adapt_cfg ema total_util now_ms jb last with h3 | h3
    · rw [h3]
    · rw [h3, e]
      exact ht
  · intro events j hj
    exact job_in_bounds_small j (adaptive_run_in_bounds events adapt_init adapt_init_in_bounds j hj)

set_option maxRecDepth 100000 in
/-- Instance of the direction theorem: job A at its configured period 50 ms is
relaxed to 60 ms and tightened to 45 ms. -/
theorem adjust_direction_witness :
    relax_period g_adapt_cfg 50 120 = 60 ∧ tighten_period g_adapt_cfg 50 30 = 45 ∧
      (job_init 0 3 50 12 40 30 120).period_ms ≤
        relax_period g_adapt_cfg (job_init 0 3 50 12 40 30 120).period_ms
          (job_init 0 3 50 12 40 30 120).max_period_ms ∧
      tighten_period g_adapt_cfg (job_init 0 3 50 12 40 30 120).period_ms
          (job_init 0 3 50 12 40 30 120).min_period_ms ≤
        (job_init 0 3 50 12 40 30 120).period_ms :=
  ⟨by decide, by decide,
    (adjust_direction (f32_lit 0 1) (f32_lit 74 1) 6000 (job_init 0 3 50 12 40 30 120) 0
      (by decide) (by decide) (by decide)).2.2.1,
    (adjust_direction (f32_lit 0 1) (f32_lit 74 1) 6000 (job_init 0 3 50 12 40 30 120) 0
      (by decide) (by decide) (by decide)).2.2.2.1⟩

/-! ## Controller: the first period change of a run -/

theorem wcet_after_mod (n : Nat) :
    wcet_after n = [[12, 20, 60], [12, 35, 60], [12, 35, 90], [12, 20, 90]].getD (n % 4) [] := by
  induction n with
  | zero => decide
  | succ n ih =>
    rw [wcet_after, ih, Nat.add_mod]
    have h : n % 4 < 4 := Nat.mod_lt _ (by decide)
    generalize n % 4 = r at h
    match r, h with
    | 0, _ => decide
    | 1, _ => decide
    | 2, _ => decide
    | 3, _ => decide

theorem wcet_after_values (n : Nat) :
    wcet_after n = [12, 20, 60] ∨ wcet_after n = [12, 35, 60] ∨
      wcet_after n = [12, 35, 90] ∨ wcet_after n = [12, 20, 90] := by
  rw [wcet_after_mod]
  have h : n % 4 < 4 := Nat.mod_lt _ (by decide)
  generalize n % 4 = r at h
  match r, h with
  | 0, _ => exact Or.inl rfl
  | 1, _ => exact Or.inr (Or.inl rfl)
  | 2, _ => exact Or.inr (Or.inr (Or.inl rfl))
  | 3, _ => exact Or.inr (Or.inr (Or.inr rfl))

theorem total_util_three (a b c : job_desc_t) :
    (snapshot_phase [a, b, c]).2 =
      f32_add (f32_add (f32_add (f32_lit 0 1)
        (f32_mul (f32_div (f32_of_uint a.wcet_ms) (f32_of_uint a.period_ms)) (f32_lit 100 1)))
        (f32_mul (f32_div (f32_of_uint b.wcet_ms) (f32_of_uint b.period_ms)) (f32_lit 100 1)))
        (f32_mul (f32_div (f32_of_uint c.wcet_ms) (f32_of_uint c.period_ms)) (f32_lit 100 1)) :=
  rfl

theorem map_eq_three {α β : Type} (f : α → β) (l : List α) (x y z : β)
    (h : l.map f = [x, y, z]) :
    ∃ a b c, l = [a, b, c] ∧ f a = x ∧ f b = y ∧ f c = z := by
  match l, h with
  | [a, b, c], h =>
    simp only [List.map_cons, List.map_nil, List.cons.injEq, and_true] at h
    exact ⟨a, b, c, rfl, h.1, h.2.1, h.2.2⟩

set_option maxRecDepth 100000 in
theorem total_util_unchanged (a b c : job_desc_t)
    (p1 : a.period_ms = 50) (p2 : b.period_ms = 100) (p3 : c.period_ms = 200)
    (w1 : a.wcet_ms = 12) (w2 : b.wcet_ms = 20 ∨ b.wcet_ms = 35)
    (w3 : c.wcet_ms = 60 ∨ c.wcet_ms = 90) :
    ((snapshot_phase [a, b, c]).2 = f32_lit 74 1 ∧ b.wcet_ms = 20 ∧ c.wcet_ms = 60) ∨
      ((snapshot_phase [a, b, c]).2 = f32_lit 89 1 ∧
        ((b.wcet_ms = 35 ∧ c.wcet_ms = 60) ∨ (b.wcet_ms = 20 ∧ c.wcet_ms = 90))) ∨
      ((snapshot_phase [a, b, c]).2 = f32_lit 104 1 ∧ b.wcet_ms = 35 ∧ c.wcet_ms = 90) := by
  rw [total_util_three, p1, p2, p3, w1]
  rcases w2 with w2 | w2 <;> rcases w3 with w3 | w3 <;> rw [w2, w3]
  · exact Or.inl ⟨by decide, rfl, rfl⟩
  · exact Or.inr (Or.inl ⟨by decide, Or.inr ⟨rfl, rfl⟩⟩)
  · exact Or.inr (Or.inl ⟨by decide, Or.inl ⟨rfl, rfl⟩⟩)
  · exact Or.inr (Or.inr ⟨by decide, rfl, rfl⟩)

theorem should_tighten_false_of_util (ema total_util : f32) (jb : job_desc_t)
    (h : f32_lt total_util g_adapt_cfg.low_total_util_pct = false) :
    should_tighten g_adapt_cfg ema total_util jb = false := by
  unfold should_tighten
  rw [h, Bool.and_false]

theorem new_period_ge_of_util (ema total_util : f32) (jb : job_desc_t)
    (hb : job_in_bounds jb)
    (h : f32_lt total_util g_adapt_cfg.low_total_util_pct = false) :
    jb.period_ms ≤ new_period g_adapt_cfg ema total_util jb := by
  unfold new_period
  rw [should_tighten_false_of_util ema total_util jb h]
  by_cases hr : should_relax g_adapt_cfg ema total_util jb = true
  · rw [if_pos hr]
    exact relax_period_ge jb hb
  · rw [if_neg hr]
    simp

theorem period_at_cycle_start (e : cycle_event) (s : adapt_state) (i : Nat) :
    period_at (cycle_start e s).jobs i = period_at s.jobs i := by
  unfold period_at cycle_start
  simp only
  rw [observe_all_getElem]
  cases s.jobs[i]? <;> rfl

theorem cycle_period_mono (e : cycle_event) (s : adapt_state)
    (hb : ∀ jb ∈ s.jobs, job_in_bounds jb)
    (h : f32_lt (snapshot_phase (cycle_start e s).jobs).2 g_adapt_cfg.low_total_util_pct =
      false)
    (i p q : Nat) (hp : period_at s.jobs i = some p)
    (hq : period_at (adaptive_cycle e.inp (cycle_start e s)).jobs i = some q) : p ≤ q := by
  rw [← period_at_cycle_start e s i] at hp
  have hloop := (adaptive_loop_getElem
    (ema_update (cycle_start e s).ema_qdepth (qdepth_inst e.inp.qlens))
    (snapshot_phase (cycle_start e s).jobs).2 e.inp.now_us
    (snapshot_phase (cycle_start e s).jobs).1 (cycle_start e s).last_adjust_ms 0 i).1
  have hj : (adaptive_cycle e.inp (cycle_start e s)).jobs =
      (adaptive_loop g_adapt_cfg
        (ema_update (cycle_start e s).ema_qdepth (qdepth_inst e.inp.qlens))
        (snapshot_phase (cycle_start e s).jobs).2 e.inp.now_us 0
        (snapshot_phase (cycle_start e s).jobs).1 (cycle_start e s).last_adjust_ms).1 := rfl
  have hsn : (snapshot_phase (cycle_start e s).jobs).1[i]? =
      (cycle_start e s).jobs[i]?.map snapshot_job := by
    unfold snapshot_phase
    simp
  unfold period_at at hp hq
  rw [hj, hloop, hsn] at hq
  cases hjb : (cycle_start e s).jobs[i]? with
  | none =>
    rw [hjb] at hp
    exact Option.noConfusion hp
  | some jb =>
    rw [hjb] at hp hq
    have hpe : jb.period_ms = p := Option.some.inj hp
    have hin : job_in_bounds (snapshot_job jb) :=
      observe_all_in_bounds e.obs 0 s.jobs hb jb (List.getElem?_mem hjb)
    simp only [Option.map_some'] at hq
    cases hlast : (cycle_start e s).last_adjust_ms[i]? with
    | none =>
      rw [hlast] at hq
      simp only [Option.map_some', Option.some.injEq] at hq
      rw [← hq, ← hpe]
      exact le_refl _
    | some last =>
      rw [hlast] at hq
      simp only [Option.map_some', Option.some.injEq] at hq
      rw [← hq, ← hpe]
      rcases adaptive_decide_period g_adapt_cfg
        (ema_update (cycle_start e s).ema_qdepth (qdepth_inst e.inp.qlens))
        (snapshot_phase (cycle_start e s).jobs).2 (millis (e.inp.now_us (0 + i)))
        (snapshot_job jb) last with h1 | h1
      · rw [h1]
        exact le_refl _
      · rw [h1]
        exact new_period_ge_of_util _ _ (snapshot_job jb) hin h

/-- Claim C29 (first adjustment is a relax): in a run of the controller from the
configured table, in a cycle that finds every period still at its configured
value (50, 100, 200) and `wcet_ms` at values `load_gen_task` writes (12 for A,
20 or 35 for B, 60 or 90 for C), the total utilization is exactly 74 with the
base values, 104 with both raised values and 89 with one of them, so it is not
below 74 and not below `low_total_util_pct` (55); the tighten condition is
false for every job and every queue depth; and no period is smaller after the
cycle than before: a first change of a period is an increase. -/
theorem first_change_is_relax (events : List cycle_event) (e : cycle_event)
    (hper : (adaptive_run events adapt_init).jobs.map (fun jb => jb.period_ms) =
      g_jobs.map (fun jb => jb.period_ms))
    (hw : ∃ n, ∀ i, i < NUM_JOBS → (e.obs i).wcet_ms = (wcet_after n).getD i 0) :
    ((snapshot_phase (cycle_start e (adaptive_run events adapt_init)).jobs).2 = f32_lit 74 1 ∨
        (snapshot_phase (cycle_start e (adaptive_run events adapt_init)).jobs).2 =
          f32_lit 89 1 ∨
        (snapshot_phase (cycle_start e (adaptive_run events adapt_init)).jobs).2 =
          f32_lit 104 1) ∧
      ((e.obs 1).wcet_ms = 20 → (e.obs 2).wcet_ms = 60 →
        (snapshot_phase (cycle_start e (adaptive_run events adapt_init)).jobs).2 =
          f32_lit 74 1) ∧
      ((e.obs 1).wcet_ms = 35 → (e.obs 2).wcet_ms = 90 →
        (snapshot_phase (cycle_start e (adaptive_run events adapt_init)).jobs).2 =
          f32_lit 104 1) ∧
      f32_lt (snapshot_phase (cycle_start e (adaptive_run events adapt_init)).jobs).2
        (f32_lit 74 1) = false ∧
      f32_lt (snapshot_phase (cycle_start e (adaptive_run events adapt_init)).jobs).2
        g_adapt_cfg.low_total_util_pct = false ∧
      (∀ (ema : f32) (jb : job_desc_t),
        should_tighten g_adapt_cfg ema
          (snapshot_phase (cycle_start e (adaptive_run events adapt_init)).jobs).2 jb =
            false) ∧
      (∀ i p q : Nat, period_at (adaptive_run events adapt_init).jobs i = some p →
        period_at (adaptive_cycle e.inp
          (cycle_start e (adaptive_run events adapt_init))).jobs i = some q → p ≤ q) := by
  have hg : g_jobs.map (fun jb => jb.period_ms) = [50, 100, 200] := by decide
  rw [hg] at hper
  obtain ⟨a, b, c, hl, pa, pb, pc⟩ := map_eq_three _ _ _ _ _ hper
  obtain ⟨n, hn⟩ := hw
  have h0 := hn 0 (by decide)
  have h1 := hn 1 (by decide)
  have h2 := hn 2 (by decide)
  have hjobs : (cycle_start e (adaptive_run events adapt_init)).jobs =
      [observe a (e.obs 0), observe b (e.obs 1), observe c (e.obs 2)] := by
    unfold cycle_start
    simp only
    rw [hl]
    rfl
  have hwa : (e.obs 0).wcet_ms = 12 ∧ ((e.obs 1).wcet_ms = 20 ∨ (e.obs 1).wcet_ms = 35) ∧
      ((e.obs 2).wcet_ms = 60 ∨ (e.obs 2).wcet_ms = 90) := by
    rcases wcet_after_values n with hv | hv | hv | hv <;> rw [hv] at h0 h1 h2
    · exact ⟨h0, Or.inl h1, Or.inl h2⟩
    · exact ⟨h0, Or.inr h1, Or.inl h2⟩
    · exact ⟨h0, Or.inr h1, Or.inr h2⟩
    · exact ⟨h0, Or.inl h1, Or.inr h2⟩
  have hu := total_util_unchanged (observe a (e.obs 0)) (observe b (e.obs 1))
    (observe c (e.obs 2)) pa pb pc hwa.1 hwa.2.1 hwa.2.2
  rw [← hjobs] at hu
  have hvals : (snapshot_phase (cycle_start e (adaptive_run events adapt_init)).jobs).2 =
        f32_lit 74 1 ∨
      (snapshot_phase (cycle_start e (adaptive_run events adapt_init)).jobs).2 =
        f32_lit 89 1 ∨
      (snapshot_phase (cycle_start e (adaptive_run events adapt_init)).jobs).2 =
        f32_lit 104 1 := by
    rcases hu with ⟨h, _⟩ | ⟨h, _⟩ | ⟨h, _⟩
    · exact Or.inl h
    · exact Or.inr (Or.inl h)
    · exact Or.inr (Or.inr h)
  have h74 : f32_lt (snapshot_phase (cycle_start e (adaptive_run events adapt_init)).jobs).2
      (f32_lit 74 1) = false := by
    rcases hvals with h | h | h <;> rw [h] <;> decide
  have hlow : f32_lt (snapshot_phase (cycle_start e (adaptive_run events adapt_init)).jobs).2
      g_adapt_cfg.low_total_util_pct = false := by
    rcases hvals with h | h | h <;> rw [h] <;> decide
  have hb : (observe b (e.obs 1)).wcet_ms = (e.obs 1).wcet_ms := rfl
  have hc : (observe c (e.obs 2)).wcet_ms = (e.obs 2).wcet_ms := rfl
  rw [hb, hc] at hu
  refine ⟨hvals, ?_, ?_, h74, hlow, ?_, ?_⟩
  · intro e1 e2
    rcases hu with ⟨h, _⟩ | ⟨_, h⟩ | ⟨_, h, _⟩
    · exact h
    · omega
    · omega
  · intro e1 e2
    rcases hu with ⟨_, h, _⟩ | ⟨_, h⟩ | ⟨h, _⟩
    · omega
    · omega
    · exact h
  · intro ema jb
    exact should_tighten_false_of_util ema _ jb hlow
  · intro i p q hp hq
    exact cycle_period_mono e (adaptive_run events adapt_init)
      (adaptive_run_in_bounds events adapt_init adapt_init_in_bounds) hlow i p q hp hq

set_option maxRecDepth 100000 in
/-- Instance of the first-change theorem: the first cycle, at 6 s with the base
`wcet_ms` values and both worker queues full, relaxes job A from 50 ms to 60 ms. -/
theorem first_change_is_relax_witness :
    period_at (adaptive_run [] adapt_init).jobs 0 = some 50 ∧
      period_at (adaptive_cycle (ex_event 6000000).inp
        (cycle_start (ex_event 6000000) (adaptive_run [] adapt_init))).jobs 0 = some 60 ∧
      (snapshot_phase (cycle_start (ex_event 6000000) (adaptive_run [] adapt_init)).jobs).2 =
        f32_lit 74 1 ∧
      f32_lt (snapshot_phase (cycle_start (ex_event 6000000) (adaptive_run [] adapt_init)).jobs).2
        g_adapt_cfg.low_total_util_pct = false :=
  ⟨by decide, by decide,
    (first_change_is_relax [] (ex_event 6000000) (by decide) ⟨0, by decide⟩).2.1
      (by decide) (by decide),
    (first_change_is_relax [] (ex_event 6000000) (by decide) ⟨0, by decide⟩).2.2.2.2.1⟩

/-! ## Dynamic event bits -/

theorem dyn_bit_mod (i : Nat) (hi : i < DYN_MAX_BITS) : (1 <<< i) % U32_MOD = 1 <<< i := by
  apply Nat.mod_eq_of_lt
  rw [Nat.one_shiftLeft]
  have h : 2 ^ i < 2 ^ 32 := Nat.pow_lt_pow_right (by decide) (by unfold DYN_MAX_BITS at hi; omega)
  exact h

theorem dyn_bit_ne_zero (i : Nat) : 1 <<< i ≠ 0 := by
  rw [Nat.one_shiftLeft]
  exact Nat.pos_iff_ne_zero.mp (Nat.pow_pos (by decide))

theorem dyn_bit_inj (i j : Nat) (h : 1 <<< i = 1 <<< j) : i = j := by
  rw [Nat.one_shiftLeft, Nat.one_shiftLeft] at h
  exact Nat.pow_right_injective (le_refl 2) h

theorem dyn_acquire_loop_spec (name : Option String) (s : dyn_state)
    (hlen : s.g_map.length = DYN_MAX_BITS) (n : Nat) :
    ∀ i, i + n = DYN_MAX_BITS →
      (∃ k, i ≤ k ∧ k < DYN_MAX_BITS ∧ dyn_free s k ∧
          (∀ j, i ≤ j → j < k → ¬ dyn_free s j) ∧
          dyn_acquire_loop name s i n =
            (1 <<< k,
              { s with g_map := s.g_map.set k { bit := 1 <<< k, name := name, used := true } })) ∨
        ((∀ j, i ≤ j → j < DYN_MAX_BITS → ¬ dyn_free s j) ∧
          dyn_acquire_loop name s i n = (0, s)) := by
  induction n with
  | zero =>
    intro i hi
    right
    refine ⟨?_, rfl⟩
    intro j h1 h2
    omega
  | succ n ih =>
    intro i hi
    have hilt : i < DYN_MAX_BITS := by omega
    have hget : s.g_map[i]? = some s.g_map[i] := List.getElem?_eq_getElem (by omega)
    rw [dyn_acquire_loop, hget]
    simp only
    rw [dyn_bit_mod i hilt]
    by_cases hc : s.g_forbid &&& (1 <<< i) = 0 ∧ s.g_map[i].used = false
    · rw [if_pos hc]
      left
      refine ⟨i, le_refl _, hilt, ⟨hilt, hc.1, s.g_map[i], hget, hc.2⟩, ?_, rfl⟩
      intro j h1 h2
      omega
    · rw [if_neg hc]
      have hnf : ¬ dyn_free s i := by
        rintro ⟨_, h1, r, h2, h3⟩
        rw [hget] at h2
        rw [← Option.some.inj h2] at h3
        exact hc ⟨h1, h3⟩
      rcases ih (i + 1) (by omega) with ⟨k, h1, h2, h3, h4, h5⟩ | ⟨h1, h2⟩
      · left
        refine ⟨k, by omega, h2, h3, ?_, h5⟩
        intro j hj1 hj2
        by_cases e : j = i
        · rw [e]
          exact hnf
        · exact h4 j (by omega) hj2
      · right
        refine ⟨?_, h2⟩
        intro j hj1 hj2
        by_cases e : j = i
        · rw [e]
          exact hnf
        · exact h1 j (by omega) hj2

theorem dyn_release_loop_spec (bit : Nat) (s : dyn_state) (n : Nat) :
    ∀ i,
      (∃ k r, i ≤ k ∧ k < i + n ∧ s.g_map[k]? = some r ∧ r.used = true ∧ r.bit = bit ∧
          dyn_release_loop bit s i n =
            (true,
              { s with g_map := s.g_map.set k { bit := 0, name := none, used := false } })) ∨
        ((∀ j r, i ≤ j → j < i + n → s.g_map[j]? = some r → ¬ (r.used = true ∧ r.bit = bit)) ∧
          dyn_release_loop bit s i n = (false, s)) := by
  induction n with
  | zero =>
    intro i
    right
    refine ⟨?_, rfl⟩
    intro j r h1 h2
    omega
  | succ n ih =>
    intro i
    rw [dyn_release_loop]
    cases hget : s.g_map[i]? with
    | none =>
      simp only
      rcases ih (i + 1) with ⟨k, r, h1, h2, h3, h4, h5, h6⟩ | ⟨h1, h2⟩
      · exact Or.inl ⟨k, r, by omega, by omega, h3, h4, h5, h6⟩
      · right
        refine ⟨?_, h2⟩
        intro j r hj1 hj2 hj3
        by_cases e : j = i
        · rw [e, hget] at hj3
          exact Option.noConfusion hj3
        · exact h1 j r (by omega) (by omega) hj3
    | some r0 =>
      simp only
      by_cases hc : r0.used = true ∧ r0.bit = bit
      · rw [if_pos hc]
        exact Or.inl ⟨i, r0, le_refl _, by omega, hget, hc.1, hc.2, rfl⟩
      · rw [if_neg hc]
        rcases ih (i + 1) with ⟨k, r, h1, h2, h3, h4, h5, h6⟩ | ⟨h1, h2⟩
        · exact Or.inl ⟨k, r, by omega, by omega, h3, h4, h5, h6⟩
        · right
          refine ⟨?_, h2⟩
          intro j r hj1 hj2 hj3
          by_cases e : j = i
          · rw [e, hget] at hj3
            rw [← Option.some.inj hj3]
            exact hc
          · exact h1 j r (by omega) (by omega) hj3

theorem dyn_name_loop_spec (bit : Nat) (s : dyn_state) (n : Nat) :
    ∀ i,
      (∃ k r, i ≤ k ∧ k < i + n ∧ s.g_map[k]? = some r ∧ r.used = true ∧ r.bit = bit ∧
          dyn_name_loop bit s i n = r.name) ∨
        ((∀ j r, i ≤ j → j < i + n → s.g_map[j]? = some r → ¬ (r.used = true ∧ r.bit = bit)) ∧
          dyn_name_loop bit s i n = none) := by
  induction n with
  | zero =>
    intro i
    right
    refine ⟨?_, rfl⟩
    intro j r h1 h2
    omega
  | succ n ih =>
    intro i
    rw [dyn_name_loop]
    cases hget : s.g_map[i]? with
    | none =>
      simp only
      rcases ih (i + 1) with ⟨k, r, h1, h2, h3, h4, h5, h6⟩ | ⟨h1, h2⟩
      · exact Or.inl ⟨k, r, by omega, by omega, h3, h4, h5, h6⟩
      · right
        refine ⟨?_, h2⟩
        intro j r hj1 hj2 hj3
        by_cases e : j = i
        · rw [e, hget] at hj3
          exact Option.noConfusion hj3
        · exact h1 j r (by omega) (by omega) hj3
    | some r0 =>
      simp only
      by_cases hc : r0.used = true ∧ r0.bit = bit
      · rw [if_pos hc]
        exact Or.inl ⟨i, r0, le_refl _, by omega, hget, hc.1, hc.2, rfl⟩
      · rw [if_neg hc]
        rcases ih (i + 1) with ⟨k, r, h1, h2, h3, h4, h5, h6⟩ | ⟨h1, h2⟩
        · exact Or.inl ⟨k, r, by omega, by omega, h3, h4, h5, h6⟩
        · right
          refine ⟨?_, h2⟩
          intro j r hj1 hj2 hj3
          by_cases e : j = i
          · rw [e, hget] at hj3
            rw [← Option.some.inj hj3]
            exact hc
          · exact h1 j r (by omega) (by omega) hj3

theorem dyn_init_inv (mask : Nat) : dyn_inv mask (dyn_init mask).2 := by
  refine ⟨rfl, by simp [dyn_init], ?_⟩
  intro i r hr hu
  have hm := List.getElem?_mem hr
  simp only [dyn_init] at hm
  rw [List.eq_of_mem_replicate hm] at hu
  exact Bool.noConfusion hu

theorem dyn_acquire_inv (mask : Nat) (name : Option String) (s : dyn_state)
    (h : dyn_inv mask s) : dyn_inv mask (dyn_acquire name s).2 := by
  obtain ⟨h1, h2, h3⟩ := h
  rcases dyn_acquire_loop_spec name s h2 DYN_MAX_BITS 0 (Nat.zero_add _) with
    ⟨k, _, hk, hf, _, he⟩ | ⟨_, he⟩
  · unfold dyn_acquire
    rw [he]
    refine ⟨h1, by simp only [List.length_set]; exact h2, ?_⟩
    intro i r hr hu
    simp only at hr
    rw [List.getElem?_set] at hr
    by_cases e : k = i
    · rw [if_pos e] at hr
      split at hr
      · rw [← Option.some.inj hr, ← e]
        refine ⟨rfl, ?_⟩
        rw [← h1]
        exact hf.2.1
      · exact Option.noConfusion hr
    · rw [if_neg e] at hr
      exact h3 i r hr hu
  · unfold dyn_acquire
    rw [he]
    exact ⟨h1, h2, h3⟩

theorem dyn_release_inv (mask : Nat) (bit : Nat) (s : dyn_state)
    (h : dyn_inv mask s) : dyn_inv mask (dyn_release bit s).2 := by
  obtain ⟨h1, h2, h3⟩ := h
  rcases dyn_release_loop_spec bit s DYN_MAX_BITS 0 with
    ⟨k, r, _, _, _, _, _, he⟩ | ⟨_, he⟩
  · unfold dyn_release
    rw [he]
    refine ⟨h1, by simp only [List.length_set]; exact h2, ?_⟩
    intro i r' hr hu
    simp only at hr
    rw [List.getElem?_set] at hr
    by_cases e : k = i
    · rw [if_pos e] at hr
      split at hr
      · rw [← Option.some.inj hr] at hu
        exact Bool.noConfusion hu
      · exact Option.noConfusion hr
    · rw [if_neg e] at hr
      exact h3 i r' hr hu
  · unfold dyn_release
    rw [he]
    exact ⟨h1, h2, h3⟩

theorem dyn_run_inv (mask : Nat) (ops : List dyn_op) (s : dyn_state) (h : dyn_inv mask s) :
    dyn_inv mask (dyn_run ops s) := by
  induction ops generalizing s with
  | nil => exact h
  | cons op rest ih =>
    apply ih
    cases op with
    | acquire name => exact dyn_acquire_inv mask name s h
    | release bit => exact dyn_release_inv mask bit s h

theorem dyn_acquired_index (mask : Nat) (s : dyn_state) (h : dyn_inv mask s) (k : Nat)
    (j : Nat) (r : dyn_rec_t) (hr : s.g_map[j]? = some r) (hu : r.used = true)
    (hb : r.bit = 1 <<< k) : j = k := by
  have := (h.2.2 j r hr hu).1
  rw [hb] at this
  exact (dyn_bit_inj k j this).symm

theorem dyn_free_iff (mask : Nat) (s : dyn_state) (h : dyn_inv mask s) (i : Nat) :
    dyn_free s i ↔
      (i < DYN_MAX_BITS ∧ mask &&& (1 <<< i) = 0 ∧ ¬ dyn_acquired s (1 <<< i)) := by
  constructor
  · rintro ⟨h1, h2, r, hr, hu⟩
    refine ⟨h1, by rw [← h.1]; exact h2, ?_⟩
    rintro ⟨j, r', hr', hu', hb'⟩
    have e := dyn_acquired_index mask s h i j r' hr' hu' hb'
    rw [e, hr] at hr'
    rw [Option.some.inj hr', hu'] at hu
    exact Bool.noConfusion hu
  · rintro ⟨h1, h2, h3⟩
    have hlt : i < s.g_map.length := by
      rw [h.2.1]
      exact h1
    have hget : s.g_map[i]? = some s.g_map[i] := List.getElem?_eq_getElem hlt
    refine ⟨h1, by rw [h.1]; exact h2, s.g_map[i], hget, ?_⟩
    cases hu : s.g_map[i].used with
    | false => rfl
    | true => exact absurd ⟨i, s.g_map[i], hget, hu, (h.2.2 i _ hget hu).1⟩ h3

/-- Claim C23 (allocation by `dyn_acquire`): after `dyn_init(reserved_mask)` and
any sequence of `dyn_acquire` and `dyn_release` calls, `dyn_acquire` returns
the single-bit mask `1 << i` of the lowest `i` in 0..23 whose bit is neither in
`reserved_mask` nor currently acquired, and marks exactly that entry as used
with the given name; it returns 0, and changes nothing, iff there is no such
`i`; a returned bit is never one of `reserved_mask` and never one that is
currently acquired (an entry in use holds it). -/
theorem dyn_acquire_lowest_free (reserved_mask : Nat) (ops : List dyn_op)
    (name : Option String) :
    ((∃ i, dyn_free (dyn_run ops (dyn_init reserved_mask).2) i ∧
          (∀ j, j < i → ¬ dyn_free (dyn_run ops (dyn_init reserved_mask).2) j) ∧
          i < DYN_MAX_BITS ∧ reserved_mask &&& (1 <<< i) = 0 ∧
          dyn_acquire name (dyn_run ops (dyn_init reserved_mask).2) =
            (1 <<< i,
              { dyn_run ops (dyn_init reserved_mask).2 with
                g_map := (dyn_run ops (dyn_init reserved_mask).2).g_map.set i
                  { bit := 1 <<< i, name := name, used := true } })) ∨
        ((∀ j, ¬ dyn_free (dyn_run ops (dyn_init reserved_mask).2) j) ∧
          dyn_acquire name (dyn_run ops (dyn_init reserved_mask).2) =
            (0, dyn_run ops (dyn_init reserved_mask).2))) ∧
      ((dyn_acquire name (dyn_run ops (dyn_init reserved_mask).2)).1 = 0 ↔
        ∀ j, ¬ dyn_free (dyn_run ops (dyn_init reserved_mask).2) j) ∧
      ((dyn_acquire name (dyn_run ops (dyn_init reserved_mask).2)).1 ≠ 0 →
        (dyn_acquire name (dyn_run ops (dyn_init reserved_mask).2)).1 &&& reserved_mask = 0 ∧
          ¬ dyn_acquired (dyn_run ops (dyn_init reserved_mask).2)
            (dyn_acquire name (dyn_run ops (dyn_init reserved_mask).2)).1) ∧
      (∀ i, dyn_free (dyn_run ops (dyn_init reserved_mask).2) i ↔
        (i < DYN_MAX_BITS ∧ reserved_mask &&& (1 <<< i) = 0 ∧
          ¬ dyn_acquired (dyn_run ops (dyn_init reserved_mask).2) (1 <<< i))) := by
  have hinv := dyn_run_inv reserved_mask ops _ (dyn_init_inv reserved_mask)
  generalize dyn_run ops (dyn_init reserved_mask).2 = s at hinv
  have hspec := dyn_acquire_loop_spec name s hinv.2.1 DYN_MAX_BITS 0 (Nat.zero_add _)
  have hcases : (∃ i, dyn_free s i ∧ (∀ j, j < i → ¬ dyn_free s j) ∧
        i < DYN_MAX_BITS ∧ reserved_mask &&& (1 <<< i) = 0 ∧
        dyn_acquire name s =
          (1 <<< i,
            { s with g_map := s.g_map.set i { bit := 1 <<< i, name := name, used := true } })) ∨
      ((∀ j, ¬ dyn_free s j) ∧ dyn_acquire name s = (0, s)) := by
    rcases hspec with ⟨k, _, hk, hf, hmin, he⟩ | ⟨hno, he⟩
    · left
      refine ⟨k, hf, fun j hj => hmin j (Nat.zero_le _) hj, hk, ?_, he⟩
      rw [← hinv.1]
      exact hf.2.1
    · right
      refine ⟨?_, he⟩
      intro j hj
      exact hno j (Nat.zero_le _) hj.1 hj
  refine ⟨hcases, ?_, ?_, dyn_free_iff reserved_mask s hinv⟩
  · rcases hcases with ⟨i, hf, _, _, _, he⟩ | ⟨hno, he⟩
    · rw [he]
      constructor
      · intro h0
        exact absurd h0 (dyn_bit_ne_zero i)
      · intro hno
        exact absurd hf (hno i)
    · rw [he]
      exact ⟨fun _ => hno, fun _ => rfl⟩
  · intro hne
    rcases hcases with ⟨i, hf, _, _, hm, he⟩ | ⟨_, he⟩
    · rw [he]
      refine ⟨?_, ?_⟩
      · show 1 <<< i &&& reserved_mask = 0
        rw [Nat.land_comm]
        exact hm
      · rintro ⟨j, r, hr, hu, hb⟩
        have hji := dyn_acquired_index reserved_mask s hinv i j r hr hu hb
        obtain ⟨_, _, r', hr', hu'⟩ := hf
        rw [hji, hr'] at hr
        rw [Option.some.inj hr] at hu'
        rw [hu'] at hu
        exact Bool.noConfusion hu
    · rw [he] at hne
      exact absurd rfl hne

theorem dyn_release_not_acquired (s : dyn_state) (m : Nat) (h : ¬ dyn_acquired s m) :
    dyn_release m s = (false, s) := by
  rcases dyn_release_loop_spec m s DYN_MAX_BITS 0 with ⟨k, r, _, _, h3, h4, h5, _⟩ | ⟨_, he⟩
  · exact absurd ⟨k, r, h3, h4, h5⟩ h
  · exact he

theorem dyn_name_not_acquired (s : dyn_state) (m : Nat) (h : ¬ dyn_acquired s m) :
    dyn_name m s = none := by
  rcases dyn_name_loop_spec m s DYN_MAX_BITS 0 with ⟨k, r, _, _, h3, h4, h5, _⟩ | ⟨_, he⟩
  · exact absurd ⟨k, r, h3, h4, h5⟩ h
  · exact he

theorem dyn_name_entry (mask : Nat) (s : dyn_state) (h : dyn_inv mask s) (k : Nat)
    (r : dyn_rec_t) (hr : s.g_map[k]? = some r) (hu : r.used = true)
    (hb : r.bit = 1 <<< k) : dyn_name (1 <<< k) s = r.name := by
  have hk : k < DYN_MAX_BITS := by
    rw [← h.2.1]
    exact (List.getElem?_eq_some_iff.mp hr).1
  rcases dyn_name_loop_spec (1 <<< k) s DYN_MAX_BITS 0 with
    ⟨k', r', _, _, h3, h4, h5, he⟩ | ⟨hno, _⟩
  · have e := dyn_acquired_index mask s h k k' r' h3 h4 h5
    rw [e, hr] at h3
    unfold dyn_name
    rw [he, ← Option.some.inj h3]
  · exact absurd ⟨hu, hb⟩ (hno k r (Nat.zero_le _) (by omega) hr)

theorem dyn_release_entry (mask : Nat) (s : dyn_state) (h : dyn_inv mask s) (k : Nat)
    (r : dyn_rec_t) (hr : s.g_map[k]? = some r) (hu : r.used = true)
    (hb : r.bit = 1 <<< k) :
    dyn_release (1 <<< k) s =
      (true, { s with g_map := s.g_map.set k { bit := 0, name := none, used := false } }) := by
  have hk : k < DYN_MAX_BITS := by
    rw [← h.2.1]
    exact (List.getElem?_eq_some_iff.mp hr).1
  rcases dyn_release_loop_spec (1 <<< k) s DYN_MAX_BITS 0 with
    ⟨k', r', _, _, h3, h4, h5, he⟩ | ⟨hno, _⟩
  · have e := dyn_acquired_index mask s h k k' r' h3 h4 h5
    unfold dyn_release
    rw [he, e]
  · exact absurd ⟨hu, hb⟩ (hno k r (Nat.zero_le _) (by omega) hr)

theorem dyn_entry_step (mask : Nat) (s : dyn_state) (h : dyn_inv mask s) (k : Nat)
    (r : dyn_rec_t) (hr : s.g_map[k]? = some r) (hu : r.used = true)
    (hb : r.bit = 1 <<< k) (op : dyn_op) (hop : op ≠ dyn_op.release (1 <<< k)) :
    (dyn_step s op).g_map[k]? = some r := by
  cases op with
  | acquire name =>
    rcases dyn_acquire_loop_spec name s h.2.1 DYN_MAX_BITS 0 (Nat.zero_add _) with
      ⟨k', _, _, hf, _, he⟩ | ⟨_, he⟩
    · have hne : k' ≠ k := by
        intro e
        obtain ⟨_, _, r', hr', hu'⟩ := hf
        rw [e, hr] at hr'
        rw [← Option.some.inj hr', hu] at hu'
        exact Bool.noConfusion hu'
      show (dyn_acquire name s).2.g_map[k]? = some r
      unfold dyn_acquire
      rw [he]
      simp only
      rw [List.getElem?_set_ne hne]
      exact hr
    · show (dyn_acquire name s).2.g_map[k]? = some r
      unfold dyn_acquire
      rw [he]
      exact hr
  | release bit =>
    rcases dyn_release_loop_spec bit s DYN_MAX_BITS 0 with
      ⟨k', r', _, _, h3, h4, h5, he⟩ | ⟨_, he⟩
    · have hne : k' ≠ k := by
        intro e
        rw [e, hr] at h3
        rw [← Option.some.inj h3, hb] at h5
        apply hop
        rw [h5]
      show (dyn_release bit s).2.g_map[k]? = some r
      unfold dyn_release
      rw [he]
      simp only
      rw [List.getElem?_set_ne hne]
      exact hr
    · show (dyn_release bit s).2.g_map[k]? = some r
      unfold dyn_release
      rw [he]
      exact hr

theorem dyn_entry_run (mask : Nat) (k : Nat) (r : dyn_rec_t) (hu : r.used = true)
    (hb : r.bit = 1 <<< k) (ops : List dyn_op)
    (hops : ∀ op ∈ ops, op ≠ dyn_op.release (1 <<< k)) (s : dyn_state)
    (h : dyn_inv mask s) (hr : s.g_map[k]? = some r) :
    (dyn_run ops s).g_map[k]? = some r := by
  induction ops generalizing s with
  | nil => exact hr
  | cons op rest ih =>
    have hstep := dyn_entry_step mask s h k r hr hu hb op (hops op (List.mem_cons_self _ _))
    have hinv : dyn_inv mask (dyn_step s op) := dyn_run_inv mask [op] s h
    exact ih (fun o ho => hops o (List.mem_cons_of_mem _ ho)) (dyn_step s op) hinv hstep

/-- Claim C24 (acquire/release round trip): in a state reached from `dyn_init`
by `dyn_acquire`/`dyn_release` calls, if `dyn_acquire(name)` returns `b != 0`
then `dyn_name(b)` returns `name`, also after any further calls other than
`dyn_release(b)`; then `dyn_release(b)` returns `true`, after it `dyn_name(b)`
returns `NULL`, a second `dyn_release(b)` returns `false` and changes nothing,
and the bit of `b` is free again for `dyn_acquire`; and in every reachable state
`dyn_release` of a mask that is not currently acquired returns `false` and
changes nothing, which holds for 0 and for every mask that is not a single bit. -/
theorem dyn_round_trip (reserved_mask : Nat) (ops more : List dyn_op) (name : Option String)
    (hb : (dyn_acquire name (dyn_run ops (dyn_init reserved_mask).2)).1 ≠ 0)
    (hmore : ∀ op ∈ more,
      op ≠ dyn_op.release (dyn_acquire name (dyn_run ops (dyn_init reserved_mask).2)).1) :
    dyn_name (dyn_acquire name (dyn_run ops (dyn_init reserved_mask).2)).1
        (dyn_acquire name (dyn_run ops (dyn_init reserved_mask).2)).2 = name ∧
      dyn_name (dyn_acquire name (dyn_run ops (dyn_init reserved_mask).2)).1
        (dyn_run more (dyn_acquire name (dyn_run ops (dyn_init reserved_mask).2)).2) = name ∧
      (dyn_release (dyn_acquire name (dyn_run ops (dyn_init reserved_mask).2)).1
        (dyn_run more (dyn_acquire name (dyn_run ops (dyn_init reserved_mask).2)).2)).1 =
          true ∧
      dyn_name (dyn_acquire name (dyn_run ops (dyn_init reserved_mask).2)).1
        (dyn_release (dyn_acquire name (dyn_run ops (dyn_init reserved_mask).2)).1
          (dyn_run more (dyn_acquire name (dyn_run ops (dyn_init reserved_mask).2)).2)).2 =
            none ∧
      dyn_release (dyn_acquire name (dyn_run ops (dyn_init reserved_mask).2)).1
        (dyn_release (dyn_acquire name (dyn_run ops (dyn_init reserved_mask).2)).1
          (dyn_run more (dyn_acquire name (dyn_run ops (dyn_init reserved_mask).2)).2)).2 =
        (false,
          (dyn_release (dyn_acquire name (dyn_run ops (dyn_init reserved_mask).2)).1
            (dyn_run more (dyn_acquire name (dyn_run ops (dyn_init reserved_mask).2)).2)).2) ∧
      (∃ i, (dyn_acquire name (dyn_run ops (dyn_init reserved_mask).2)).1 = 1 <<< i ∧
        dyn_free
          (dyn_release (dyn_acquire name (dyn_run ops (dyn_init reserved_mask).2)).1
            (dyn_run more (dyn_acquire name (dyn_run ops (dyn_init reserved_mask).2)).2)).2
          i) ∧
      (∀ m, ¬ dyn_acquired (dyn_run ops (dyn_init reserved_mask).2) m →
        dyn_release m (dyn_run ops (dyn_init reserved_mask).2) =
          (false, dyn_run ops (dyn_init reserved_mask).2)) ∧
      ¬ dyn_acquired (dyn_run ops (dyn_init reserved_mask).2) 0 ∧
      (∀ m, (∀ i, m ≠ 1 <<< i) → ¬ dyn_acquired (dyn_run ops (dyn_init reserved_mask).2) m) := by
  have hinv := dyn_run_inv reserved_mask ops _ (dyn_init_inv reserved_mask)
  generalize dyn_run ops (dyn_init reserved_mask).2 = s at hinv hb hmore ⊢
  have hsingle : ∀ m, dyn_acquired s m → ∃ i, m = 1 <<< i := by
    rintro m ⟨j, r, hr, hu, hbit⟩
    exact ⟨j, by rw [← hbit]; exact (hinv.2.2 j r hr hu).1⟩
  have hgen : (∀ m, ¬ dyn_acquired s m → dyn_release m s = (false, s)) ∧
      ¬ dyn_acquired s 0 ∧ (∀ m, (∀ i, m ≠ 1 <<< i) → ¬ dyn_acquired s m) := by
    refine ⟨fun m hm => dyn_release_not_acquired s m hm, ?_, ?_⟩
    · intro h0
      obtain ⟨i, hi⟩ := hsingle 0 h0
      exact dyn_bit_ne_zero i hi.symm
    · intro m hm hacq
      obtain ⟨i, hi⟩ := hsingle m hacq
      exact hm i hi
  have hinv1 := dyn_acquire_inv reserved_mask name s hinv
  rcases dyn_acquire_loop_spec name s hinv.2.1 DYN_MAX_BITS 0 (Nat.zero_add _) with
    ⟨k, _, hk, hf, _, he⟩ | ⟨_, he⟩
  · have hacq : dyn_acquire name s =
        (1 <<< k,
          { s with g_map := s.g_map.set k { bit := 1 <<< k, name := name, used := true } }) := he
    rw [hacq] at hinv1 hmore ⊢
    simp only at hinv1 hmore ⊢
    have hklen : k < s.g_map.length := by
      rw [hinv.2.1]
      exact hk
    have hentry : (s.g_map.set k { bit := 1 <<< k, name := name, used := true })[k]? =
        some { bit := 1 <<< k, name := name, used := true } := by
      rw [List.getElem?_set_self hklen]
    have hinv2 := dyn_run_inv reserved_mask more _ hinv1
    have hentry2 := dyn_entry_run reserved_mask k { bit := 1 <<< k, name := name, used := true }
      rfl rfl more hmore _ hinv1 hentry
    generalize dyn_run more
      { s with g_map := s.g_map.set k { bit := 1 <<< k, name := name, used := true } } = s2
      at hinv2 hentry2 ⊢
    have hrel := dyn_release_entry reserved_mask s2 hinv2 k _ hentry2 rfl rfl
    have hk2 : k < s2.g_map.length := by
      rw [hinv2.2.1]
      exact hk
    have hnot : ¬ dyn_acquired
        { s2 with g_map := s2.g_map.set k { bit := 0, name := none, used := false } }
        (1 <<< k) := by
      rintro ⟨j, r, hr, hu, hbit⟩
      simp only at hr
      by_cases e : k = j
      · rw [← e, List.getElem?_set_self hk2] at hr
        rw [← Option.some.inj hr] at hu
        exact Bool.noConfusion hu
      · rw [List.getElem?_set_ne e] at hr
        exact e (dyn_acquired_index reserved_mask s2 hinv2 k j r hr hu hbit).symm
    refine ⟨dyn_name_entry reserved_mask _ hinv1 k _ hentry rfl rfl,
      dyn_name_entry reserved_mask s2 hinv2 k _ hentry2 rfl rfl, ?_, ?_, ?_, ?_, hgen⟩
    · rw [hrel]
    · rw [hrel]
      exact dyn_name_not_acquired _ _ hnot
    · rw [hrel]
      exact dyn_release_not_acquired _ _ hnot
    · rw [hrel]
      refine ⟨k, rfl, hk, ?_, { bit := 0, name := none, used := false }, ?_, rfl⟩
      · show s2.g_forbid &&& (1 <<< k) = 0
        rw [hinv2.1]
        exact (hinv2.2.2 k _ hentry2 rfl).2
      · show (s2.g_map.set k { bit := 0, name := none, used := false })[k]? = _
        rw [List.getElem?_set_self hk2]
  · have hacq : dyn_acquire name s = (0, s) := he
    rw [hacq] at hb
    exact absurd rfl hb

/-- Instance of the round trip: after `dyn_init(5)` the first `dyn_acquire`
returns bit 1 (mask 2); a second acquire does not disturb its name. -/
theorem dyn_round_trip_witness :
    (dyn_acquire (some "a") (dyn_run [] (dyn_init 5).2)).1 = 2 ∧
      dyn_name (dyn_acquire (some "a") (dyn_run [] (dyn_init 5).2)).1
        (dyn_run [dyn_op.acquire (some "b")]
          (dyn_acquire (some "a") (dyn_run [] (dyn_init 5).2)).2) = some "a" :=
  ⟨by decide,
    (dyn_round_trip 5 [] [dyn_op.acquire (some "b")] (some "a") (by decide)
      (by decide)).2.1⟩

/-! ## Event log ring buffer -/

theorem evlog_init_ok (c : Nat) (alloc_ok mtx_ok : Bool) (s0 : evlog_state)
    (h : (evlog_init c alloc_ok mtx_ok s0).1 = true) :
    c * EV_RECORD_SIZE < U32_MOD ∧
      (evlog_init c alloc_ok mtx_ok s0).2 =
        { g_buf := some (List.replicate c ev_zero), g_cap := c, g_head := 0, g_count := 0,
          g_mtx := true } := by
  unfold evlog_init at h ⊢
  by_cases hc : alloc_ok = true ∧ c * EV_RECORD_SIZE < U32_MOD
  · rw [if_pos hc] at h ⊢
    simp only at h
    rw [h]
    exact ⟨hc.2, rfl⟩
  · rw [if_neg hc] at h
    exact Bool.noConfusion h

theorem evlog_inv_init (c : Nat) :
    evlog_inv c []
      { g_buf := some (List.replicate c ev_zero), g_cap := c, g_head := 0, g_count := 0,
        g_mtx := true } := by
  refine ⟨rfl, rfl, ?_, ?_, List.replicate c ev_zero, rfl, List.length_replicate _ _, ?_⟩
  · simp
  · simp
  · intro m _ h2
    simp at h2

theorem mod_ne_of_lt (c m n : Nat) (h1 : m < n) (h2 : n - m < c) : m % c ≠ n % c := by
  intro e
  have hd : c ∣ n - m := (Nat.modEq_iff_dvd' (Nat.le_of_lt h1)).mp e
  have := Nat.le_of_dvd (by omega) hd
  omega

theorem evlog_inv_add (c : Nat) (hc : 1 ≤ c) (hsz : c < U32_MOD) (recs : List ev_record_t)
    (s : evlog_state) (r : ev_record_t) (h : evlog_inv c recs s) :
    evlog_inv c (recs ++ [r])
      (evlog_add r.ts_ms r.before_bits r.after_bits r.set_bits r.source s) := by
  obtain ⟨h1, h2, h3, h4, buf, h5, h6, h7⟩ := h
  have hcpos : 0 < c := hc
  have hhead : s.g_head < c := by
    rw [h3]
    exact Nat.mod_lt _ hcpos
  unfold evlog_add
  rw [h5]
  simp only
  rw [if_pos h1]
  have hrec : ev_record_t.mk r.ts_ms r.before_bits r.set_bits r.after_bits r.source = r := rfl
  rw [hrec]
  refine ⟨h1, h2, ?_, ?_, buf.set s.g_head r, rfl, by rw [List.length_set]; exact h6, ?_⟩
  · simp only
    have e1 : (s.g_head + 1) % U32_MOD = s.g_head + 1 := Nat.mod_eq_of_lt (by omega)
    rw [e1, h2, h3, List.length_append, List.length_singleton, Nat.mod_add_mod]
  · simp only
    rw [h2, h4, List.length_append, List.length_singleton]
    by_cases hlt : recs.length < c
    · have e1 : min recs.length c = recs.length := Nat.min_eq_left (Nat.le_of_lt hlt)
      have e2 : min (recs.length + 1) c = recs.length + 1 := Nat.min_eq_left hlt
      have e3 : (recs.length + 1) % U32_MOD = recs.length + 1 := Nat.mod_eq_of_lt (by omega)
      rw [e1, e2, if_pos hlt, e3]
    · have e1 : min recs.length c = c := Nat.min_eq_right (Nat.le_of_not_lt hlt)
      have e2 : min (recs.length + 1) c = c := Nat.min_eq_right (by omega)
      rw [e1, e2, if_neg (Nat.lt_irrefl c)]
  · intro m hm1 hm2
    rw [List.length_append, List.length_singleton] at hm1 hm2
    rw [h3]
    by_cases e : m = recs.length
    · rw [e, List.getElem?_set_self (by rw [h6]; exact Nat.mod_lt _ hcpos)]
      simp
    · have hmlt : m < recs.length := by omega
      have hlo : recs.length - min recs.length c ≤ m := by
        have hmin1 : min (recs.length + 1) c ≤ recs.length + 1 := Nat.min_le_left _ _
        by_cases hlt : recs.length < c
        · rw [Nat.min_eq_left (Nat.le_of_lt hlt)]
          omega
        · rw [Nat.min_eq_right (Nat.le_of_not_lt hlt)]
          rw [Nat.min_eq_right (by omega)] at hm1
          omega
      have hne : recs.length % c ≠ m % c := by
        apply Ne.symm
        apply mod_ne_of_lt c m recs.length hmlt
        have hmin2 : min (recs.length + 1) c ≤ c := Nat.min_le_right _ _
        omega
      rw [List.getElem?_set_ne hne, h7 m hlo hmlt, List.getElem?_append_left hmlt]

theorem evlog_run_inv (c : Nat) (hc : 1 ≤ c) (hsz : c < U32_MOD) (recs : List ev_record_t)
    (s : evlog_state) (h : evlog_inv c [] s) : evlog_inv c recs (evlog_run recs s) := by
  induction recs using List.reverseRecOn with
  | nil => exact h
  | append_singleton l r ih =>
    unfold evlog_run at ih ⊢
    rw [List.foldl_append, List.foldl_cons, List.foldl_nil]
    exact evlog_inv_add c hc hsz l _ r ih

theorem evlog_dump_loop_spec (buf : List ev_record_t) (cap count start max : Nat)
    (fuel : Nat) :
    ∀ (n : Nat) (out : List ev_record_t), n ≤ min count max → min count max - n ≤ fuel →
      min count max ≤ out.length →
      (evlog_dump_loop buf cap count start max fuel n out).1 = min count max ∧
        (evlog_dump_loop buf cap count start max fuel n out).2.length = out.length ∧
        (∀ k, k < n → (evlog_dump_loop buf cap count start max fuel n out).2[k]? = out[k]?) ∧
        (∀ k, n ≤ k → k < min count max →
          (evlog_dump_loop buf cap count start max fuel n out).2[k]? =
            some (buf.getD (((start + k) % U32_MOD) % cap) ev_zero)) ∧
        (∀ k, min count max ≤ k →
          (evlog_dump_loop buf cap count start max fuel n out).2[k]? = out[k]?) := by
  induction fuel with
  | zero =>
    intro n out h1 h2 _
    have e : n = min count max := by omega
    refine ⟨e, rfl, fun _ _ => rfl, ?_, fun _ _ => rfl⟩
    intro k hk1 hk2
    omega
  | succ fuel ih =>
    intro n out h1 h2 h3
    rw [evlog_dump_loop]
    by_cases hc : n < count ∧ n < max
    · rw [if_pos hc]
      have hn : n < min count max := Nat.lt_min.mpr hc
      obtain ⟨i1, i2, i3, i4, i5⟩ := ih (n + 1)
        (out.set n (buf.getD (((start + n) % U32_MOD) % cap) ev_zero)) hn (by omega)
        (by rw [List.length_set]; exact h3)
      refine ⟨i1, by rw [i2, List.length_set], ?_, ?_, ?_⟩
      · intro k hk
        rw [i3 k (by omega), List.getElem?_set_ne (by omega)]
      · intro k hk1 hk2
        by_cases e : k = n
        · rw [e, i3 n (by omega), List.getElem?_set_self (by omega)]
        · exact i4 k (by omega) hk2
      · intro k hk
        rw [i5 k hk, List.getElem?_set_ne (by omega)]
    · rw [if_neg hc]
      have e : n = min count max := by
        have : ¬ n < min count max := fun h => hc (Nat.lt_min.mp h)
        omega
      refine ⟨e, rfl, fun _ _ => rfl, ?_, fun _ _ => rfl⟩
      intro k hk1 hk2
      omega

theorem evlog_start (c n : Nat) (hc : 1 ≤ c) (h2c : c + c < U32_MOD) :
    ((n % c + c) % U32_MOD + U32_MOD - min n c) % U32_MOD % c = (n - min n c) % c := by
  have hh : n % c < c := Nat.mod_lt _ hc
  have hm : min n c ≤ c := Nat.min_le_right _ _
  have e1 : (n % c + c) % U32_MOD = n % c + c := Nat.mod_eq_of_lt (by omega)
  have e2 : n % c + c + U32_MOD - min n c = (n % c + c - min n c) + U32_MOD := by omega
  have e3 : (n % c + c - min n c) % U32_MOD = n % c + c - min n c :=
    Nat.mod_eq_of_lt (by omega)
  rw [e1, e2, Nat.add_mod_right, e3]
  by_cases hlt : n < c
  · rw [Nat.min_eq_left (Nat.le_of_lt hlt), Nat.mod_eq_of_lt hlt]
    have e4 : n + c - n = c := by omega
    rw [e4, Nat.mod_self, Nat.sub_self, Nat.zero_mod]
  · have hge : c ≤ n := Nat.le_of_not_lt hlt
    rw [Nat.min_eq_right hge]
    have e4 : n % c + c - c = n % c := by omega
    rw [e4, Nat.mod_mod]
    have e5 : n = (n - c) + c := by omega
    conv_lhs => rw [e5]
    rw [Nat.add_mod_right]

/-- Claim C30 (event-log ring buffer): after a successful `evlog_init(c)` with
`c >= 1` and `n` calls of `evlog_add`, `g_head = n % c < c` and
`g_count = min(n, c)`; `evlog_dump(out, max)` with `max >= 1`, on an array of at
least `max` records, returns `min(n, c, max)` and leaves in `out[k]`, for every
`k` below that number, the record of the add number `n - min(n, c) + k`
(counted from 0), the oldest retained record first, and the rest of `out`
untouched; `evlog_dump` writes no variable of the log. -/
theorem evlog_ring (c : Nat) (alloc_ok mtx_ok : Bool) (s0 : evlog_state)
    (recs out : List ev_record_t) (max : Nat)
    (hinit : (evlog_init c alloc_ok mtx_ok s0).1 = true) (hc : 1 ≤ c) (hmax : 1 ≤ max)
    (hout : max ≤ out.length) :
    (evlog_run recs (evlog_init c alloc_ok mtx_ok s0).2).g_head < c ∧
      (evlog_run recs (evlog_init c alloc_ok mtx_ok s0).2).g_head = recs.length % c ∧
      (evlog_run recs (evlog_init c alloc_ok mtx_ok s0).2).g_count = min recs.length c ∧
      (evlog_dump (some out) max (evlog_run recs (evlog_init c alloc_ok mtx_ok s0).2)).1 =
        min (min recs.length c) max ∧
      ∃ res,
        (evlog_dump (some out) max (evlog_run recs (evlog_init c alloc_ok mtx_ok s0).2)).2 =
            some res ∧
          res.length = out.length ∧
          (∀ k, k < min (min recs.length c) max →
            res[k]? = recs[recs.length - min recs.length c + k]?) ∧
          (∀ k, min (min recs.length c) max ≤ k → res[k]? = out[k]?) := by
  obtain ⟨hsz, hs0⟩ := evlog_init_ok c alloc_ok mtx_ok s0 hinit
  have h2c : c + c < U32_MOD := by
    unfold EV_RECORD_SIZE at hsz
    omega
  have hinv := evlog_run_inv c hc (by omega) recs _ (evlog_inv_init c)
  rw [hs0]
  generalize evlog_run recs
    { g_buf := some (List.replicate c ev_zero), g_cap := c, g_head := 0, g_count := 0,
      g_mtx := true } = s at hinv
  obtain ⟨h1, h2, h3, h4, buf, h5, h6, h7⟩ := hinv
  have hcnt : min recs.length c ≤ recs.length := Nat.min_le_left _ _
  have hcc : min recs.length c ≤ c := Nat.min_le_right _ _
  refine ⟨by rw [h3]; exact Nat.mod_lt _ hc, h3, h4, ?_⟩
  have hm0 : max ≠ 0 := by omega
  have hd : evlog_dump (some out) max s =
      ((evlog_dump_loop buf c (min recs.length c)
          ((recs.length - min recs.length c) % c) max (min recs.length c) 0 out).1,
        some (evlog_dump_loop buf c (min recs.length c)
          ((recs.length - min recs.length c) % c) max (min recs.length c) 0 out).2) := by
    unfold evlog_dump
    rw [h5]
    simp only
    rw [if_pos ⟨h1, hm0⟩, h2, h3, h4, evlog_start c recs.length hc h2c]
  obtain ⟨l1, l2, _, l4, l5⟩ := evlog_dump_loop_spec buf c (min recs.length c)
    ((recs.length - min recs.length c) % c) max (min recs.length c) 0 out (Nat.zero_le _)
    (by
      have := Nat.min_le_left (min recs.length c) max
      omega)
    (le_trans (Nat.min_le_right _ _) hout)
  rw [hd]
  refine ⟨l1, _, rfl, l2, ?_, l5⟩
  intro k hk
  rw [l4 k (Nat.zero_le _) hk]
  have hk1 : k < min recs.length c := lt_of_lt_of_le hk (Nat.min_le_left _ _)
  have hsmall : (recs.length - min recs.length c) % c + k < U32_MOD := by
    have := Nat.mod_lt (recs.length - min recs.length c) hc
    omega
  rw [Nat.mod_eq_of_lt hsmall, Nat.mod_add_mod, List.getD_eq_getElem?_getD,
    h7 (recs.length - min recs.length c + k) (Nat.le_add_right _ _) (by omega)]
  have hlt : recs.length - min recs.length c + k < recs.length := by omega
  rw [List.getElem?_eq_getElem hlt]
  rfl

set_option maxRecDepth 100000 in
/-- Instance of the ring-buffer theorem: capacity 2, three adds, a dump of at
most 2 records returns the records of the second and the third add. -/
theorem evlog_ring_witness :
    (evlog_dump
        (some [ev_zero, ev_zero])
        2
        (evlog_run [⟨1, 0, 1, 1, none⟩, ⟨2, 1, 2, 3, none⟩, ⟨3, 3, 4, 7, none⟩]
          (evlog_init 2 true true evlog_zero).2)) =
        (2, some [⟨2, 1, 2, 3, none⟩, ⟨3, 3, 4, 7, none⟩]) ∧
      (evlog_run [⟨1, 0, 1, 1, none⟩, ⟨2, 1, 2, 3, none⟩, ⟨3, 3, 4, 7, none⟩]
        (evlog_init 2 true true evlog_zero).2).g_count = min 3 2 :=
  ⟨by decide,
    (evlog_ring 2 true true evlog_zero
      [⟨1, 0, 1, 1, none⟩, ⟨2, 1, 2, 3, none⟩, ⟨3, 3, 4, 7, none⟩] [ev_zero, ev_zero] 2
      (by decide) (by decide) (by decide) (by decide)).2.2.1⟩

/-! ## Ranking phase: the configured priorities are distinct -/

theorem map_priority_release (tnow : Int) (jobs : List job_desc_t) :
    (release_phase tnow jobs).1.map (fun jb => jb.priority) =
      jobs.map (fun jb => jb.priority) := by
  rw [release_phase_fst, List.map_map]
  apply List.map_congr_left
  intro jb _
  show (if tnow ≥ jb.next_release_us then release_job jb else jb).priority = jb.priority
  split_ifs <;> rfl

theorem map_priority_collect_one (jobs : List job_desc_t) (c : completion_t) :
    (collect_one jobs c).map (fun jb => jb.priority) = jobs.map (fun jb => jb.priority) := by
  apply List.ext_getElem?
  intro i
  rw [List.getElem?_map, List.getElem?_map]
  cases hj : jobs[i]? with
  | none =>
    have hn : (collect_one jobs c)[i]? = none := by
      rw [List.getElem?_eq_none_iff] at hj ⊢
      rw [collect_one_length]
      exact hj
    rw [hn]
  | some jb =>
    rw [collect_one_getElem jobs c i jb hj]
    by_cases e : (i : Int) = c.job_id
    · simp only [e, if_true, Option.map_some', account_job]
    · simp only [e, if_false, Option.map_some']

theorem map_priority_collect (jobs : List job_desc_t) (q : List completion_t) :
    (collect_phase jobs q).map (fun jb => jb.priority) = jobs.map (fun jb => jb.priority) := by
  induction q generalizing jobs with
  | nil => rfl
  | cons c q ih =>
    have hstep : collect_phase jobs (c :: q) = collect_phase (collect_one jobs c) q := rfl
    rw [hstep, ih, map_priority_collect_one]

theorem map_priority_write_all (ws : Nat → job_writes) (jobs : List job_desc_t) :
    (write_all ws 0 jobs).map (fun jb => jb.priority) = jobs.map (fun jb => jb.priority) := by
  apply List.ext_getElem?
  intro i
  rw [List.getElem?_map, List.getElem?_map, write_all_getElem]
  cases jobs[i]? <;> rfl

theorem sys_step_priority (s : sys_state) (e : sys_event) :
    (sys_step s e).sched.jobs.map (fun jb => jb.priority) =
      s.sched.jobs.map (fun jb => jb.priority) := by
  cases e with
  | tick tnow =>
    show (collect_phase (release_phase tnow s.sched.jobs).1 s.sched.q_complete).map
      (fun jb => jb.priority) = _
    rw [map_priority_collect, map_priority_release]
  | recv wid =>
    unfold sys_step
    simp only
    cases hh : s.held[wid]? with
    | none => rfl
    | some o =>
      cases o with
      | some cmd => rfl
      | none =>
        simp only
        unfold worker_receive
        cases hq : s.sched.q_worker[wid]? with
        | none => rfl
        | some q =>
          cases q with
          | nil => rfl
          | cons c rest => rfl
  | done wid fin_us =>
    unfold sys_step
    simp only
    cases hh : s.held[wid]? with
    | none => rfl
    | some o =>
      cases o with
      | none => rfl
      | some cmd =>
        simp only
        unfold worker_send
        split <;> rfl
  | writes ws => exact map_priority_write_all ws s.sched.jobs

theorem sys_run_priority (events : List sys_event) (s : sys_state) :
    (sys_run events s).sched.jobs.map (fun jb => jb.priority) =
      s.sched.jobs.map (fun jb => jb.priority) := by
  induction events generalizing s with
  | nil => rfl
  | cons e rest ih =>
    have hstep : sys_run (e :: rest) s = sys_run rest (sys_step s e) := rfl
    rw [hstep, ih, sys_step_priority]

theorem ready_priority_distinct (tnow : Int) (jobs : List job_desc_t)
    (h : (jobs.map (fun jb => jb.priority)).Pairwise (fun a b => a ≠ b)) :
    ((release_phase tnow jobs).2.map (fun r => r.priority)).Pairwise (fun a b => a ≠ b) := by
  rw [release_phase_snd, List.map_map]
  have e : (fun r : ready_item_t => r.priority) ∘ ready_of = fun jb => jb.priority := rfl
  rw [e]
  exact List.Pairwise.sublist (List.Sublist.map _ (List.filter_sublist _)) h

theorem sort_ready_stable_of_distinct (ready : List ready_item_t) (p d : Int)
    (h : (ready.map (fun r => r.priority)).Pairwise (fun a b => a ≠ b)) :
    (sort_ready ready).filter (same_key p d) = ready.filter (same_key p d) := by
  rw [sort_ready_eq_sel_sort]
  apply sel_sort_filter
  intro a b c hsub ha hb _
  have h2 : [a, b].Sublist ready :=
    List.Sublist.trans (List.Sublist.cons₂ a (List.Sublist.cons₂ b (List.nil_sublist [c]))) hsub
  have h3 := List.Pairwise.sublist (List.Sublist.map (fun r => r.priority) h2) h
  simp only [List.map_cons, List.map_nil, List.pairwise_cons, List.mem_singleton,
    forall_eq] at h3
  rw [same_key_iff] at ha hb
  exact h3.1 (by rw [ha.1, hb.1])

set_option maxRecDepth 100000 in
/-- Claim C4 fails as stated: with the job table `ex_jobs_equal_prio` (jobs 0 and
1 of priority 1 and deadline 100 ms, job 2 of priority 2), all due at time 0,
the release phase builds the ready items in table order 0, 1, 2 and the ranking
phase returns them in the order 2, 1, 0: the two items of equal priority and
equal deadline do not keep their arrival order, and the iteration dispatches
job 1 (second, to worker 1) before job 0 (third, to worker 0 behind job 2). -/
theorem sort_ready_not_stable :
    (release_phase 0 ex_jobs_equal_prio).2 =
        [⟨0, 1, 100000, 0⟩, ⟨1, 1, 100000, 0⟩, ⟨2, 2, 50000, 0⟩] ∧
      sort_ready (release_phase 0 ex_jobs_equal_prio).2 =
        [⟨2, 2, 50000, 0⟩, ⟨1, 1, 100000, 0⟩, ⟨0, 1, 100000, 0⟩] ∧
      (sort_ready (release_phase 0 ex_jobs_equal_prio).2).filter (same_key 1 100000) ≠
        (release_phase 0 ex_jobs_equal_prio).2.filter (same_key 1 100000) ∧
      (scheduler_tick 0
        { jobs := ex_jobs_equal_prio, q_worker := [[], []], q_complete := [] }).q_worker.map
          (fun q => q.map (fun c => c.job_id)) = [[2, 0], [1]] := by
  decide

set_option maxRecDepth 100000 in
/-- Claim C4 as it holds on the code (ranking stability): for every ready list
the items of priority `p` and deadline `d` appear in the ranking output in their
arrival order, provided no item that ranks strictly ahead of them (higher
priority, or equal priority and earlier deadline) stands behind two of them in
the input.  In every state the system reaches from the configured table, whose
priorities 3, 2, 1 no step writes, the ready items of an iteration have pairwise
different priorities, so the ranking keeps the arrival order of the items of
every key.  The proviso is sufficient, not necessary: two equal items followed
by two items that rank ahead of them keep their order. -/
theorem sort_ready_stable_unless_overtaken (ready : List ready_item_t) (p d : Int)
    (h : ∀ x y z, [x, y, z].Sublist ready → same_key p d x = true →
      same_key p d y = true → ¬ ahead_of_key p d z) :
    (sort_ready ready).filter (same_key p d) = ready.filter (same_key p d) ∧
      (∀ (t0 tnow : Int) (events : List sys_event) (p2 d2 : Int),
        (sys_run events (sys_init t0)).sched.jobs.map (fun jb => jb.priority) = [3, 2, 1] ∧
          ((release_phase tnow (sys_run events (sys_init t0)).sched.jobs).2.map
            (fun r => r.priority)).Pairwise (fun a b => a ≠ b) ∧
          (sort_ready (release_phase tnow (sys_run events (sys_init t0)).sched.jobs).2).filter
              (same_key p2 d2) =
            (release_phase tnow (sys_run events (sys_init t0)).sched.jobs).2.filter
              (same_key p2 d2)) ∧
      (sort_ready [⟨0, 1, 100000, 0⟩, ⟨1, 1, 100000, 0⟩, ⟨2, 2, 50000, 0⟩,
          ⟨3, 2, 50000, 0⟩]).map (fun r => r.job_id) = [2, 3, 0, 1] := by
  refine ⟨?_, ?_, by decide⟩
  · rw [sort_ready_eq_sel_sort]
    exact sel_sort_filter p d _ ready h
  · intro t0 tnow events p2 d2
    have hp : (sys_run events (sys_init t0)).sched.jobs.map (fun jb => jb.priority) =
        [3, 2, 1] := by
      rw [sys_run_priority]
      rfl
    have hd : ((sys_run events (sys_init t0)).sched.jobs.map
        (fun jb => jb.priority)).Pairwise (fun a b => a ≠ b) := by
      rw [hp]
      decide
    have hr := ready_priority_distinct tnow _ hd
    exact ⟨hp, hr, sort_ready_stable_of_distinct _ p2 d2 hr⟩

/-- Instance of the amended stability theorem: the item of priority 2 arrives first. -/
theorem sort_ready_stable_unless_overtaken_witness :
    (sort_ready [⟨2, 2, 50, 0⟩, ⟨0, 1, 100, 0⟩, ⟨1, 1, 100, 0⟩]).filter (same_key 1 100) =
      ([⟨2, 2, 50, 0⟩, ⟨0, 1, 100, 0⟩, ⟨1, 1, 100, 0⟩] : List ready_item_t).filter
        (same_key 1 100) :=
  (sort_ready_stable_unless_overtaken [⟨2, 2, 50, 0⟩, ⟨0, 1, 100, 0⟩, ⟨1, 1, 100, 0⟩] 1 100
    (by
      intro x y z hsub hx hy hz
      have e := List.Sublist.eq_of_length hsub rfl
      have ez : z = ⟨1, 1, 100, 0⟩ := by
        injection e with _ e
        injection e with _ e
        injection e with e _
      rw [ez] at hz
      revert hz
      unfold ahead_of_key
      decide)).1


end RtAdapt
